import Mathlib

/-!
The explicit-free-list allocator of `malloc-lab/malloclab-handout/mm11.c`

A shallow embedding of the allocator.  The managed region is a byte-addressed
memory; every access of the allocator goes through `GET` / `PUT` / the link
accessors, which check that the four bytes touched lie inside the region handed
out by the provider so far.  The target is the 32-bit build the sources are
written for (`WSIZE = 4`, pointers stored in one word), so `size_t`, `unsigned
int` and pointers are naturals reduced modulo `2^32`, and `int` is an integer
in `[-2^31, 2^31)`.
-/

set_option linter.unusedVariables false

namespace MM

/-! ## Machine arithmetic -/

/-- The modulus of `size_t`, `unsigned int` and of pointers. -/
def WORD : Nat := 4294967296

/-- Addition of `size_t` values and of pointer and offset. -/
def add32 (a b : Nat) : Nat := (a + b) % 4294967296

/-- Subtraction of `size_t` values and of pointer and offset. -/
def sub32 (a b : Nat) : Nat := (a + (4294967296 - b % 4294967296)) % 4294967296

/-- Multiplication of `size_t` values. -/
def mul32 (a b : Nat) : Nat := (a * b) % 4294967296

/-- The conversion `(int)x` of an unsigned 32-bit value. -/
def toInt32 (x : Nat) : Int :=
  if x % 4294967296 < 2147483648 then (x % 4294967296 : Nat) else (x % 4294967296 : Nat) - 4294967296

/-- The conversion of an `int` to `size_t`. -/
def ofInt32 (i : Int) : Nat := (i % 4294967296).toNat

/-! ## Constants and the pure macros -/

def ALIGNMENT : Nat := 8
def WSIZE : Nat := 4
def DSIZE : Nat := 8
def CHUNKSIZE : Nat := 4096

/-- The macro `ALIGN(size)`: `((size) + (ALIGNMENT-1)) & ~0x7` on `size_t`. -/
def ALIGN (size : Nat) : Nat := add32 size (ALIGNMENT - 1) &&& 4294967288

/-- The macro `MAX(x, y)`. -/
def MAX (x y : Nat) : Nat := if x > y then x else y

/-- The macro `PACK(size, alloc)`. -/
def PACK (size alloc : Nat) : Nat := size ||| alloc

/-- The macro `HDRP(bp)`. -/
def HDRP (bp : Nat) : Nat := sub32 bp WSIZE

/-! ## The managed region -/

/-- Ways in which a run fails to return a result: an access outside the region
obtained from the provider, the scan of the free list not terminating, a
`memcpy` between overlapping ranges (undefined in C), and an application that
breaks the contract of the interface. -/
inductive Err where
  | fault
  | diverge
  | overlap
  | misuse
  deriving DecidableEq, Repr

/-- The provider's arena and the allocator's global and static variables.
`mem` gives the byte at every address; the region handed out so far is
`[lo, brk)`, and the provider can extend it up to `hi`. -/
structure State where
  mem : Nat → Nat
  lo : Nat
  brk : Nat
  hi : Nat
  heap_listp : Nat
  lstart : Nat
  lm_size : Int
  repcount : Int

/-- The little-endian 32-bit word stored at the four bytes from `p`. -/
def load32 (m : Nat → Nat) (p : Nat) : Nat :=
  m p % 256 + 256 * (m (p + 1) % 256) + 65536 * (m (p + 2) % 256)
    + 16777216 * (m (p + 3) % 256)

/-- The memory after storing the 32-bit word `v` at the four bytes from `p`. -/
def store32 (m : Nat → Nat) (p v : Nat) : Nat → Nat := fun a =>
  if a = p then v % 256
  else if a = p + 1 then v / 256 % 256
  else if a = p + 2 then v / 65536 % 256
  else if a = p + 3 then v / 16777216 % 256
  else m a

/-- The four bytes from `p` lie in the region handed out so far. -/
def inRegion (s : State) (p : Nat) : Prop := s.lo ≤ p ∧ p + 4 ≤ s.brk

instance (s : State) (p : Nat) : Decidable (inRegion s p) := by
  unfold inRegion; infer_instance

/-- The macro `GET(p)`: read a word, checked against the region. -/
def GET (s : State) (p : Nat) : Except Err Nat :=
  if inRegion s p then .ok (load32 s.mem p) else .error .fault

/-- A raw word store (a pointer store through `char **`), checked against the
region. -/
def write32 (s : State) (p v : Nat) : Except Err State :=
  if inRegion s p then .ok { s with mem := store32 s.mem p v } else .error .fault

/-- The macro `GET_TAG(p)`. -/
def GET_TAG (s : State) (p : Nat) : Except Err Nat := do
  let w ← GET s p
  pure (w &&& 2)

/-- The macro `PUT(p, val)`: `*(unsigned int *)(p) = (val) | GET_TAG(p)`. -/
def PUT (s : State) (p val : Nat) : Except Err State := do
  let t ← GET_TAG s p
  write32 s p (val ||| t)

/-- The macro `GET_SIZE(p)`: `GET(p) & ~(DSIZE - 1)`. -/
def GET_SIZE (s : State) (p : Nat) : Except Err Nat := do
  let w ← GET s p
  pure (w &&& 4294967288)

/-- The macro `GET_ALLOC(p)`. -/
def GET_ALLOC (s : State) (p : Nat) : Except Err Nat := do
  let w ← GET s p
  pure (w &&& 1)

/-- The macro `FTRP(bp)`. -/
def FTRP (s : State) (bp : Nat) : Except Err Nat := do
  let sz ← GET_SIZE s (HDRP bp)
  pure (sub32 (add32 bp sz) DSIZE)

/-- The macro `NEXT_BLKP(bp)`. -/
def NEXT_BLKP (s : State) (bp : Nat) : Except Err Nat := do
  let sz ← GET_SIZE s (HDRP bp)
  pure (add32 bp sz)

/-- The macro `PREV_BLKP(bp)`. -/
def PREV_BLKP (s : State) (bp : Nat) : Except Err Nat := do
  let sz ← GET_SIZE s (sub32 bp DSIZE)
  pure (sub32 bp sz)

/-- The macro `NEXT(bp)` read as a value. -/
def NEXT (s : State) (bp : Nat) : Except Err Nat := GET s (add32 bp WSIZE)

/-- The macro `PREV(bp)` read as a value. -/
def PREV (s : State) (bp : Nat) : Except Err Nat := GET s bp

/-- The macro `SETNEXT(bp, cp)`. -/
def SETNEXT (s : State) (bp cp : Nat) : Except Err State := write32 s (add32 bp WSIZE) cp

/-- The macro `SETPREV(bp, cp)`. -/
def SETPREV (s : State) (bp cp : Nat) : Except Err State := write32 s bp cp

/-- Modelled from the spec: the external provider `growRegion` (the handout's
`mem_sbrk`, whose file is not among the sources).  It extends the region by
exactly `incr` bytes and returns the previous end of the region, or returns the
failure sentinel `(void *)-1` and changes nothing when the arena is exhausted. -/
def mem_sbrk (s : State) (incr : Nat) : Nat × State :=
  if s.brk + incr ≤ s.hi then (s.brk, { s with brk := s.brk + incr })
  else (4294967295, s)

/-! ## The allocator -/

/-- The function `add_to_list`. -/
def add_to_list (s : State) (bp : Nat) : Except Err State := do
  let s ← SETNEXT s bp s.lstart
  let s ← SETPREV s s.lstart bp
  let s ← SETPREV s bp 0
  pure { s with lstart := bp }

/-- The function `remove_from_list`. -/
def remove_from_list (s : State) (bp : Nat) : Except Err State := do
  let p ← PREV s bp
  let s ← (if p ≠ 0 then do
      let n ← NEXT s bp
      SETNEXT s p n
    else do
      let n ← NEXT s bp
      pure { s with lstart := n })
  let n ← NEXT s bp
  let p ← PREV s bp
  SETPREV s n p

/-- The function `coalesce`. -/
def coalesce (s : State) (bp : Nat) : Except Err (Nat × State) := do
  let nb ← NEXT_BLKP s bp
  let next_alloc ← GET_ALLOC s (HDRP nb)
  let pb ← PREV_BLKP s bp
  let pf ← FTRP s pb
  let pa ← GET_ALLOC s pf
  let prev_alloc : Nat := if pa ≠ 0 ∨ pb = bp then 1 else 0
  let size ← GET_SIZE s (HDRP bp)
  if prev_alloc ≠ 0 ∧ next_alloc = 0 then do
    let nsz ← GET_SIZE s (HDRP nb)
    let size := add32 size nsz
    let s ← remove_from_list s nb
    let s ← PUT s (HDRP bp) (PACK size 0)
    let f ← FTRP s bp
    let s ← PUT s f (PACK size 0)
    let s ← add_to_list s bp
    pure (bp, s)
  else if prev_alloc = 0 ∧ next_alloc ≠ 0 then do
    let psz ← GET_SIZE s (HDRP pb)
    let size := add32 size psz
    let bp := pb
    let s ← remove_from_list s bp
    let s ← PUT s (HDRP bp) (PACK size 0)
    let f ← FTRP s bp
    let s ← PUT s f (PACK size 0)
    let s ← add_to_list s bp
    pure (bp, s)
  else if prev_alloc = 0 ∧ next_alloc = 0 then do
    let psz ← GET_SIZE s (HDRP pb)
    let nsz ← GET_SIZE s (HDRP nb)
    let size := add32 size (add32 psz nsz)
    let s ← remove_from_list s pb
    let nb ← NEXT_BLKP s bp
    let s ← remove_from_list s nb
    let bp ← PREV_BLKP s bp
    let s ← PUT s (HDRP bp) (PACK size 0)
    let f ← FTRP s bp
    let s ← PUT s f (PACK size 0)
    let s ← add_to_list s bp
    pure (bp, s)
  else do
    let s ← add_to_list s bp
    pure (bp, s)

/-- The function `place`. -/
def place (s : State) (bp size : Nat) : Except Err State := do
  let updated ← GET_SIZE s (HDRP bp)
  if sub32 updated size ≥ 4 * WSIZE then do
    let s ← PUT s (HDRP bp) (PACK size 1)
    let f ← FTRP s bp
    let s ← PUT s f (PACK size 1)
    let s ← remove_from_list s bp
    let bp ← NEXT_BLKP s bp
    let s ← PUT s (HDRP bp) (PACK (sub32 updated size) 0)
    let f ← FTRP s bp
    let s ← PUT s f (PACK (sub32 updated size) 0)
    let r ← coalesce s bp
    pure r.2
  else do
    let s ← PUT s (HDRP bp) (PACK updated 1)
    let f ← FTRP s bp
    let s ← PUT s f (PACK updated 1)
    remove_from_list s bp

/-- The function `extend_heap`; the result `0` is `NULL`. -/
def extend_heap (s : State) (words : Nat) : Except Err (Nat × State) := do
  let sizeholder := if words % 2 ≠ 0 then mul32 (add32 words 1) WSIZE else mul32 words WSIZE
  let sizeholder := if sizeholder < 16 then 16 else sizeholder
  let (bp, s) := mem_sbrk s sizeholder
  if toInt32 bp = -1 then pure (0, s)
  else do
    let s ← PUT s (HDRP bp) (PACK sizeholder 0)
    let f ← FTRP s bp
    let s ← PUT s f (PACK sizeholder 0)
    let nb ← NEXT_BLKP s bp
    let s ← PUT s (HDRP nb) (PACK 0 1)
    coalesce s bp

/-- The scan loop of `fit`,
`for (bp = lstart; GET_ALLOC(HDRP(bp)) == 0; bp = NEXT(bp))`, from the node
`bp` on.  The loop writes nothing but `lm_size`, so a run of more iterations
than the region has bytes has revisited a node and never ends. -/
def fit_scan (s : State) (size : Nat) : Nat → Nat → Except Err (Nat × State)
  | 0, _ => .error .diverge
  | fuel + 1, bp => do
    let a ← GET_ALLOC s (HDRP bp)
    if a = 0 then do
      let sz ← GET_SIZE s (HDRP bp)
      if size ≤ sz then pure (bp, { s with lm_size := toInt32 size })
      else do
        let n ← NEXT s bp
        fit_scan s size fuel n
    else pure (0, s)

/-- The function `fit`; the result `0` is `NULL`. -/
def fit (s : State) (size : Nat) : Except Err (Nat × State) :=
  if s.lm_size = toInt32 size then
    if s.repcount > 30 then
      let DoubleNewSize : Int := toInt32 (MAX size (4 * WSIZE))
      extend_heap s (ofInt32 (Int.tdiv DoubleNewSize 4))
    else
      let s := { s with repcount := s.repcount + 1 }
      fit_scan s size (s.brk - s.lo + 1) s.lstart
  else
    let s := { s with repcount := 0 }
    fit_scan s size (s.brk - s.lo + 1) s.lstart

/-- The function `mm_init`; the result is its `int` status. -/
def mm_init (s : State) : Except Err (Int × State) := do
  let (p, s) := mem_sbrk s (8 * WSIZE)
  let s := { s with heap_listp := p }
  if p = 0 then pure (-1, s)
  else do
    let s ← PUT s s.heap_listp 0
    let s ← PUT s (add32 s.heap_listp (1 * WSIZE)) (PACK DSIZE 1)
    let s ← PUT s (add32 s.heap_listp (2 * WSIZE)) (PACK DSIZE 1)
    let s ← PUT s (add32 s.heap_listp (3 * WSIZE)) (PACK 0 1)
    let s := { s with lstart := add32 s.heap_listp (2 * WSIZE) }
    let r ← extend_heap s 4
    if r.1 = 0 then pure (-1, r.2) else pure (0, r.2)

/-- The function `mm_free`. -/
def mm_free (s : State) (pointer : Nat) : Except Err State := do
  let sizes ← GET_SIZE s (HDRP pointer)
  if pointer = 0 then pure s
  else do
    let s ← PUT s (HDRP pointer) (PACK sizes 0)
    let f ← FTRP s pointer
    let s ← PUT s f (PACK sizes 0)
    let r ← coalesce s pointer
    pure r.2

/-- The function `mm_malloc`; the result `0` is `NULL`. -/
def mm_malloc (s : State) (size : Nat) : Except Err (Nat × State) :=
  if size = 0 then pure (0, s)
  else do
    let asize := if size ≤ DSIZE then 2 * DSIZE else ALIGN (add32 size DSIZE)
    let r ← fit s asize
    if r.1 ≠ 0 then do
      let s ← place r.2 r.1 asize
      pure (r.1, s)
    else do
      let extendsize := MAX asize CHUNKSIZE
      let r ← extend_heap r.2 (extendsize / WSIZE)
      if r.1 = 0 then pure (0, r.2)
      else do
        let s ← place r.2 r.1 asize
        pure (r.1, s)

/-- The library function `memcpy(dst, src, n)` on the region: both ranges must
lie inside it and must not overlap. -/
def memcpy (s : State) (dst src n : Nat) : Except Err State :=
  if ¬ (s.lo ≤ src ∧ src + n ≤ s.brk ∧ s.lo ≤ dst ∧ dst + n ≤ s.brk) then .error .fault
  else if ¬ (n = 0 ∨ src + n ≤ dst ∨ dst + n ≤ src) then .error .overlap
  else .ok { s with mem := fun a => if dst ≤ a ∧ a < dst + n then s.mem (src + (a - dst)) else s.mem a }

/-- The function `mm_realloc`; the result `0` is `NULL`. -/
def mm_realloc (s : State) (bp size : Nat) : Except Err (Nat × State) :=
  if toInt32 size ≤ 0 then pure (0, s)
  else if size > 0 then do
    let HeadSize ← GET_SIZE s (HDRP bp)
    let updatedsize := add32 size (2 * WSIZE)
    if updatedsize ≤ HeadSize then pure (bp, s)
    else do
      let nb ← NEXT_BLKP s bp
      let newallocated ← GET_ALLOC s (HDRP nb)
      let nsz ← (if newallocated = 0 then GET_SIZE s (HDRP nb) else pure 0)
      let sizes := add32 HeadSize nsz
      if newallocated = 0 ∧ sizes ≥ updatedsize then do
        let s ← remove_from_list s nb
        let s ← PUT s (HDRP bp) (PACK sizes 1)
        let f ← FTRP s bp
        let s ← PUT s f (PACK sizes 1)
        pure (bp, s)
      else do
        let r ← mm_malloc s updatedsize
        let s ← place r.2 r.1 updatedsize
        let s ← memcpy s r.1 bp updatedsize
        let s ← mm_free s bp
        pure (r.1, s)
  else pure (0, s)

/-! ## Observations on a state -/

/-- The size recorded in the header of the block whose payload starts at `p`. -/
def blockSize (s : State) (p : Nat) : Nat := load32 s.mem (HDRP p) &&& 4294967288

/-- The allocated bit in the header of the block whose payload starts at `p`. -/
def allocBit (s : State) (p : Nat) : Nat := load32 s.mem (HDRP p) &&& 1

/-- The blocks met when walking forward from `bp` by the sizes recorded in the
headers, up to the first header of size 0. -/
def walk (s : State) : Nat → Nat → List Nat
  | 0, _ => []
  | fuel + 1, bp =>
    if blockSize s bp = 0 then [] else bp :: walk s fuel (bp + blockSize s bp)

/-- The blocks of the heap, from the first block (payload at heap base + 32). -/
def heapBlocks (s : State) : List Nat := walk s (s.brk - s.lo) (s.heap_listp + 32)

/-- The nodes met when following next links from `bp`, up to the first node
whose header has the allocated bit set. -/
def chain (s : State) : Nat → Nat → List Nat
  | 0, _ => []
  | fuel + 1, bp =>
    if allocBit s bp = 0 then bp :: chain s fuel (load32 s.mem (bp + 4)) else []

/-- The free list: the nodes reachable from `lstart` by next links. -/
def freeList (s : State) : List Nat := chain s (s.brk - s.lo + 1) s.lstart

/-- The byte ranges `[p, p + blockSize p - 8)` and `[q, q + blockSize q - 8)` of
two allocations do not intersect. -/
def disjointPayload (s : State) (p q : Nat) : Prop :=
  p + (blockSize s p - 8) ≤ q ∨ q + (blockSize s q - 8) ≤ p

instance (s : State) (p q : Nat) : Decidable (disjointPayload s p q) := by
  unfold disjointPayload; infer_instance

/-! ## Programs of the application -/

/-- A fresh arena of the provider: zero-filled, starting at `base`, extensible
up to `hi`, nothing handed out yet; the statics of `fit` hold their
initialisers. -/
def arena (base hi : Nat) : State :=
  { mem := fun _ => 0, lo := base, brk := base, hi := hi, heap_listp := 0, lstart := 0,
    lm_size := 0, repcount := 0 }

/-- The application stores the byte `v` at address `a`. -/
def poke (s : State) (a v : Nat) : State :=
  { s with mem := fun x => if x = a then v % 256 else s.mem x }

/-- One action of the application: a call of the interface, or a store of one
byte into an allocation it holds. -/
inductive Call where
  | malloc (size : Nat)
  | free (p : Nat)
  | realloc (p size : Nat)
  | write (a v : Nat)
  deriving DecidableEq, Repr

/-- The address `a` lies in the payload `[p, p + blockSize p - 8)` of one of the
live pointers. -/
def inLive (s : State) (live : List Nat) (a : Nat) : Bool :=
  live.any (fun p => decide (p ≤ a ∧ a < p + (blockSize s p - 8)))

/-- One action, on a state and the list of live pointers.  `mm_free` and
`mm_realloc` on a pointer that is not live, and a store outside the live
payloads, break the contract of the interface (`Err.misuse`). -/
def step (s : State) (live : List Nat) : Call → Except Err (State × List Nat)
  | .malloc size => do
    let r ← mm_malloc s size
    pure (r.2, if r.1 = 0 then live else r.1 :: live)
  | .free p =>
    if p ∈ live then do
      let s ← mm_free s p
      pure (s, live.erase p)
    else .error .misuse
  | .realloc p size =>
    if p ∈ live then do
      let r ← mm_realloc s p size
      pure (r.2, if r.1 = 0 then live else r.1 :: live.erase p)
    else .error .misuse
  | .write a v =>
    if inLive s live a then pure (poke s a v, live) else .error .misuse

/-- A sequence of actions. -/
def run (s : State) (live : List Nat) : List Call → Except Err (State × List Nat)
  | [] => pure (s, live)
  | c :: cs => do
    let r ← step s live c
    run r.1 r.2 cs

/-- The actions the basic properties range over: `mm_malloc` with a request
whose adjusted size does not wrap around `2^32`, `mm_free`, and stores. -/
def Call.plain : Call → Bool
  | .malloc size => decide (size ≤ 4294967280)
  | .free _ => true
  | .realloc _ _ => false
  | .write _ _ => true

/-- The arena handed to `mm_init`: consistent, inside the 32-bit address space,
and the word at offset 24 of the new region (which the allocator never writes,
and reads as the footer before the first block) has no size bits. -/
def Fresh (s : State) : Prop :=
  s.lo ≤ s.brk ∧ s.brk ≤ s.hi ∧ s.hi < 4294967296 ∧
    load32 s.mem (s.brk + 24) &&& 4294967288 = 0

instance (s : State) : Decidable (Fresh s) := by
  unfold Fresh; infer_instance

/-! ## The invariant -/

/-- A block of the heap: payload address, recorded size, and allocated bit.
A value of `alloc` above 1 marks a stretch of the heap whose header and footer
are not written yet (the remainder of a block being split, a freshly obtained
stretch of the region). -/
structure Blk where
  bp : Nat
  size : Nat
  alloc : Nat

/-- Header and footer of the block hold its size and allocated bit. -/
def Tagged (m : Nat → Nat) (b : Blk) : Prop :=
  load32 m (b.bp - 4) / 8 * 8 = b.size ∧ load32 m (b.bp - 4) % 2 = b.alloc ∧
  load32 m (b.bp + b.size - 8) / 8 * 8 = b.size ∧ load32 m (b.bp + b.size - 8) % 2 = b.alloc

/-- The blocks `B` lie back to back from address `a` to address `e`, each of an
aligned size of at least 16, with matching header and footer when written. -/
def Seg (m : Nat → Nat) : Nat → List Blk → Nat → Prop
  | a, [], e => a = e
  | a, b :: bs, e =>
    b.bp = a ∧ 16 ≤ b.size ∧ b.size % 8 = 0 ∧ (b.alloc ≤ 1 → Tagged m b) ∧
      Seg m (a + b.size) bs e

/-- The nodes `fl` form a doubly linked chain: the first has `prev` as its
previous link, each has the following node as its next link, and the last has
`term`. -/
def Links (m : Nat → Nat) (term : Nat) : Nat → List Nat → Prop
  | _, [] => True
  | prev, x :: rest =>
    load32 m x = prev ∧ load32 m (x + 4) = rest.headD term ∧ Links m term x rest

/-- The registers of the provider and the statics of `fit` agree in the two
states. -/
def Regs (s s' : State) : Prop :=
  s'.lo = s.lo ∧ s'.brk = s.brk ∧ s'.hi = s.hi ∧ s'.heap_listp = s.heap_listp ∧
    s'.lm_size = s.lm_size ∧ s'.repcount = s.repcount

/-- The memory of the state lays out the block sequence `B` between the
sentinels: the never-written word before the first block, the prologue
header, and the epilogue header in the last word of the region. -/
structure Layout (s : State) (B : List Blk) : Prop where
  lo_le : s.lo ≤ s.heap_listp
  hi_lt : s.hi < 4294967296
  brk_le : s.brk ≤ s.hi
  seg : Seg s.mem (s.heap_listp + 32) B s.brk
  gap : load32 s.mem (s.heap_listp + 24) / 8 * 8 = 0
  prologue : load32 s.mem (s.heap_listp + 4) % 2 = 1
  epilogue : load32 s.mem (s.brk - 4) / 8 * 8 = 0 ∧ load32 s.mem (s.brk - 4) % 2 = 1

/-- The layout of `B`, and the nodes `fl`, which are blocks of `B`, linked into
the free list that starts at `lstart` and ends at the prologue. -/
structure Heap (s : State) (B : List Blk) (fl : List Nat) : Prop where
  layout : Layout s B
  links : Links s.mem (s.heap_listp + 8) 0 fl
  head : s.lstart = fl.headD (s.heap_listp + 8)
  nodup : fl.Nodup
  sub : ∀ x ∈ fl, ∃ b ∈ B, b.bp = x

/-- Two neighbouring blocks are not both free. -/
def NoAdj (b c : Blk) : Prop := ¬ (b.alloc = 0 ∧ c.alloc = 0)

/-- The state represents the block sequence `B` and the free list `fl`: every
block is written, the free list holds exactly the free blocks, and no two
neighbouring blocks are free. -/
structure Rep (s : State) (B : List Blk) (fl : List Nat) : Prop where
  heap : Heap s B fl
  written : ∀ b ∈ B, b.alloc ≤ 1
  sync : ∀ b ∈ B, b.alloc = 0 → b.bp ∈ fl
  free : ∀ x ∈ fl, ∀ b ∈ B, b.bp = x → b.alloc = 0
  noadj : B.Chain' NoAdj

/-- The invariant of the allocator between calls. -/
def Inv (s : State) : Prop := ∃ B fl, Rep s B fl

/-- The invariant together with the live pointers: they are the allocated
blocks, each listed once. -/
def InvLive (s : State) (live : List Nat) : Prop :=
  ∃ B fl, Rep s B fl ∧ live.Nodup ∧ ∀ p, p ∈ live ↔ ∃ b ∈ B, b.bp = p ∧ b.alloc = 1

/-- The state after `PUT(p, PACK(sz, a))` inside the region, for an aligned
size: the tag bit of the old word is kept. -/
def putw (s : State) (p sz a : Nat) : State :=
  { s with mem := store32 s.mem p (sz + a + 2 * (load32 s.mem p / 2 % 2)) }

/-- The state after `PUT(HDRP(bp), PACK(sz, a)); PUT(FTRP(bp), PACK(sz, a))`. -/
def retag (s : State) (bp sz a : Nat) : State :=
  putw (putw s (bp - 4) sz a) (bp + sz - 8) sz a

/-- The bytes that a sequence of blocks spans. -/
def total (B : List Blk) : Nat := (B.map Blk.size).sum

/-- What is left of a stretch of `tot` bytes after a block of `sz` bytes: nothing,
or one stretch that is not written yet. -/
def restBlk (bp tot sz : Nat) : List Blk :=
  if tot - sz = 0 then [] else [⟨bp + sz, tot - sz, 2⟩]

/-- The allocated bit that `coalesce` reads for the physically next block: the
header of the first block of `R`, or the epilogue. -/
def nextAlloc (R : List Blk) : Nat :=
  match R with
  | [] => 1
  | n :: _ => n.alloc

/-- The allocated bit that `coalesce` finds for the physically previous block:
that of the last block of `L`, or allocated when there is none. -/
def prevAlloc (L : List Blk) : Nat :=
  match L.getLast? with
  | none => 1
  | some p => p.alloc

/-- The payload address that `coalesce` computes for the physically previous
block of `bp`: the block itself when there is none. -/
def prevBp (L : List Blk) (bp : Nat) : Nat :=
  match L.getLast? with
  | none => bp
  | some p => p.bp

/-- The size of the physically previous block, 0 when there is none. -/
def prevSize (L : List Blk) : Nat :=
  match L.getLast? with
  | none => 0
  | some p => p.size

/-- The size of the physically next block, 0 when it is the epilogue. -/
def nextSize (R : List Blk) : Nat :=
  match R with
  | [] => 0
  | n :: _ => n.size

/-- The payload address of the block that `coalesce` returns for the block `b`
between the blocks `L` and `R`. -/
def mergedBp (L : List Blk) (b : Blk) : Nat :=
  if prevAlloc L = 0 then prevBp L b.bp else b.bp

/-- The size of the block that `coalesce` returns. -/
def mergedSize (L : List Blk) (b : Blk) (R : List Blk) : Nat :=
  b.size + (if prevAlloc L = 0 then prevSize L else 0) + (if nextAlloc R = 0 then nextSize R else 0)

/-- The block sequence after `coalesce`. -/
def mergedBlocks (L : List Blk) (b : Blk) (R : List Blk) : List Blk :=
  (if prevAlloc L = 0 then L.dropLast else L) ++
    ⟨mergedBp L b, mergedSize L b R, 0⟩ :: (if nextAlloc R = 0 then R.tail else R)

/-- The free list after `coalesce`: the merged neighbours are unlinked, the
result is linked in front. -/
def mergedFree (L : List Blk) (b : Blk) (fl : List Nat) : List Nat :=
  mergedBp L b :: (fl.erase (prevBp L b.bp)).erase (b.bp + b.size)

/-- The state in which `coalesce` is called on the block `b`, which lies
between the blocks `L` and `R`: `b` is marked free and is not in the free
list; the other blocks satisfy the invariant. -/
structure PreCo (s : State) (L : List Blk) (b : Blk) (R : List Blk) (fl : List Nat) : Prop where
  heap : Heap s (L ++ b :: R) fl
  bfree : b.alloc = 0
  notin : b.bp ∉ fl
  written : ∀ c ∈ L ++ R, c.alloc ≤ 1
  sync : ∀ c ∈ L ++ R, c.alloc = 0 → c.bp ∈ fl
  free : ∀ x ∈ fl, ∀ c ∈ L ++ R, c.bp = x → c.alloc = 0
  noadjL : L.Chain' NoAdj
  noadjR : R.Chain' NoAdj

/-- The block sequence after `place(bp, asize)` on the free block `b`, which
lies between the blocks `L` and `R`. -/
def placedBlocks (L : List Blk) (b : Blk) (R : List Blk) (asize : Nat) : List Blk :=
  if 16 ≤ b.size - asize then L ++ ⟨b.bp, asize, 1⟩ :: ⟨b.bp + asize, b.size - asize, 0⟩ :: R
  else L ++ ⟨b.bp, b.size, 1⟩ :: R

/-- The free list after `place(bp, asize)` on the free block `b`. -/
def placedFree (b : Blk) (fl : List Nat) (asize : Nat) : List Nat :=
  if 16 ≤ b.size - asize then (b.bp + asize) :: fl.erase b.bp else fl.erase b.bp

/-- The byte count that `extend_heap(words)` asks the provider for. -/
def extSize (words : Nat) : Nat :=
  let sizeholder := if words % 2 ≠ 0 then mul32 (add32 words 1) WSIZE else mul32 words WSIZE
  if sizeholder < 16 then 16 else sizeholder

/-- The second state is the first with the region grown by `n` bytes. -/
def Grown (s s' : State) (n : Nat) : Prop :=
  s'.lo = s.lo ∧ s'.brk = s.brk + n ∧ s'.hi = s.hi ∧ s'.heap_listp = s.heap_listp ∧
    s'.lm_size = s.lm_size ∧ s'.repcount = s.repcount

/-- The state in which `extend_heap` is called: the invariant, except that the
last word of the region need not hold an epilogue header (it does not when
`mm_init` calls `extend_heap`). -/
structure PreExt (s : State) (B : List Blk) (fl : List Nat) : Prop where
  lo_le : s.lo ≤ s.heap_listp
  hi_lt : s.hi < 4294967296
  brk_le : s.brk ≤ s.hi
  seg : Seg s.mem (s.heap_listp + 32) B s.brk
  gap : load32 s.mem (s.heap_listp + 24) / 8 * 8 = 0
  prologue : load32 s.mem (s.heap_listp + 4) % 2 = 1
  links : Links s.mem (s.heap_listp + 8) 0 fl
  head : s.lstart = fl.headD (s.heap_listp + 8)
  nodup : fl.Nodup
  written : ∀ b ∈ B, b.alloc ≤ 1
  sync : ∀ b ∈ B, b.alloc = 0 → b.bp ∈ fl
  free : ∀ x ∈ fl, ∃ b ∈ B, b.bp = x ∧ b.alloc = 0
  noadj : B.Chain' NoAdj

/-- The first node of the list whose recorded size is at least `asize`, `0`
when there is none. -/
def firstFit (s : State) (fl : List Nat) (asize : Nat) : Nat :=
  match fl.find? (fun y => decide (asize ≤ load32 s.mem (y - 4) / 8 * 8)) with
  | some y => y
  | none => 0

/-- The two states have the same memory, region and free-list head; they may
differ in the statics of `fit`. -/
def SameHeap (s s' : State) : Prop :=
  s'.mem = s.mem ∧ s'.lo = s.lo ∧ s'.brk = s.brk ∧ s'.hi = s.hi ∧
    s'.heap_listp = s.heap_listp ∧ s'.lstart = s.lstart

/-- The repeat-size escape of `fit` fires for the adjusted size `asize`. -/
def escapes (s : State) (asize : Nat) : Prop :=
  s.lm_size = toInt32 asize ∧ s.repcount > 30

instance (s : State) (asize : Nat) : Decidable (escapes s asize) := by
  unfold escapes; infer_instance

/-- The adjusted size that `mm_malloc` computes for a request. -/
def adjust (size : Nat) : Nat :=
  if size ≤ DSIZE then 2 * DSIZE else ALIGN (add32 size DSIZE)

/-- The size of the block that `place(bp, asize)` hands out from the free
block `b`. -/
def placedSize (b : Blk) (asize : Nat) : Nat :=
  if 16 ≤ b.size - asize then asize else b.size

/-- What a call `mm_malloc` with adjusted size `asize` that returns `r` in
state `s'` has done to a state `s` with block sequence `B`: the region has not
shrunk, the invariant holds again, every allocated block is still there with
its payload untouched, and the allocated blocks are those of before and, when
`r` is not `NULL`, one new block at `r` of at least `asize` bytes, where no
allocated block started before. -/
def MallocPost (s : State) (B : List Blk) (asize r : Nat) (s' : State) : Prop :=
  s'.lo = s.lo ∧ s'.hi = s.hi ∧ s'.heap_listp = s.heap_listp ∧ s.brk ≤ s'.brk ∧
  ∃ B' fl', Rep s' B' fl' ∧
    (∀ c ∈ B, c.alloc = 1 → c ∈ B' ∧
      ∀ a, c.bp ≤ a → a < c.bp + c.size - 8 → s'.mem a = s.mem a) ∧
    (r = 0 → ∀ c ∈ B', c.alloc = 1 → c ∈ B) ∧
    (r ≠ 0 → ∃ sz, asize ≤ sz ∧ (⟨r, sz, 1⟩ : Blk) ∈ B' ∧
      (∀ c ∈ B, c.bp = r → c.alloc ≠ 1) ∧
      ∀ c ∈ B', c.alloc = 1 → c ∈ B ∨ c = ⟨r, sz, 1⟩)

/-- The state in which `mm_init` calls `extend_heap`: the region of 32 bytes
obtained from the provider, with the padding word, the prologue header and
footer and the first epilogue header written, and the free list empty. -/
def initPre (s : State) : State :=
  { putw (putw (putw (putw { s with brk := s.brk + 32, heap_listp := s.brk }
      s.brk 0 0) (s.brk + 4) 8 1) (s.brk + 8) 8 1) (s.brk + 12) 0 1
    with lstart := s.brk + 8 }

/-- The state after `mm_init` on the zero-filled arena from `base` to `hi`. -/
def boot (base hi : Nat) : State :=
  match mm_init (arena base hi) with
  | .ok r => r.2
  | .error _ => arena base hi

/-- The state and the live pointers after the actions `cs`, when none of them
fails. -/
def after (s : State) (live : List Nat) (cs : List Call) : State × List Nat :=
  match run s live cs with
  | .ok r => r
  | .error _ => (s, live)

/-- The blocks of the heap with the size and the allocated bit in their
headers. -/
def blocks (s : State) : List (Nat × Nat × Nat) :=
  (heapBlocks s).map (fun p => (p, blockSize s p, allocBit s p))

/-- The footer of the block at `p` holds the same size and allocated bit as its
header. -/
def footerMatches (s : State) (p : Nat) : Prop :=
  load32 s.mem (p + blockSize s p - 8) &&& 4294967288 = blockSize s p ∧
    load32 s.mem (p + blockSize s p - 8) &&& 1 = allocBit s p

instance (s : State) (p : Nat) : Decidable (footerMatches s p) := by
  unfold footerMatches; infer_instance

/-- The address at which the forward walk over the heap ends: just past the
last block visited. -/
def walkEnd (s : State) : Nat :=
  (heapBlocks s).foldl (fun _ p => p + blockSize s p) (s.heap_listp + 32)

/-- The next link of the last node of the free list, or `lstart` itself when
the list is empty: the address at which following the links ends. -/
def chainEnd (s : State) : Nat :=
  match (freeList s).getLast? with
  | none => s.lstart
  | some x => load32 s.mem (x + 4)

/-- The scenario of repeated requests: `n` rounds of `p = mm_malloc(64)`;
`mm_free(p)`. -/
def rounds (p : Nat) : Nat → List Call
  | 0 => []
  | n + 1 => .malloc 64 :: .free p :: rounds p n

/-! ## Words and bit fields -/

theorem and_one_eq (w : Nat) : w &&& 1 = w % 2 := Nat.and_one_is_mod w

theorem and_mask_eq (w : Nat) (h : w < 4294967296) : w &&& 4294967288 = w / 8 * 8 := by
  have e1 : (4294967288 : Nat) = (2 ^ 29 - 1) <<< 3 := by norm_num [Nat.shiftLeft_eq]
  have e2 : w &&& 4294967288 = ((w >>> 3) &&& (2 ^ 29 - 1)) <<< 3 := by
    rw [e1]
    apply Nat.eq_of_testBit_eq
    intro i
    simp only [Nat.testBit_and, Nat.testBit_shiftLeft, Nat.testBit_shiftRight,
      Nat.testBit_two_pow_sub_one]
    by_cases hi : 3 ≤ i
    · have : 3 + (i - 3) = i := by omega
      simp [hi, this]
    · simp [hi]
  rw [e2, Nat.and_pow_two_sub_one_eq_mod, Nat.shiftRight_eq_div_pow, Nat.shiftLeft_eq]
  have : w / 2 ^ 3 < 2 ^ 29 := by
    norm_num
    omega
  rw [Nat.mod_eq_of_lt this]
  norm_num

theorem and_two_eq (w : Nat) : w &&& 2 = 2 * (w / 2 % 2) := by
  have e2 : w &&& 2 = ((w >>> 1) &&& (2 ^ 1 - 1)) <<< 1 := by
    have e1 : (2 : Nat) = (2 ^ 1 - 1) <<< 1 := by norm_num [Nat.shiftLeft_eq]
    nth_rewrite 1 [e1]
    apply Nat.eq_of_testBit_eq
    intro i
    simp only [Nat.testBit_and, Nat.testBit_shiftLeft, Nat.testBit_shiftRight,
      Nat.testBit_two_pow_sub_one]
    by_cases hi : 1 ≤ i
    · have : 1 + (i - 1) = i := by omega
      simp [hi, this]
    · simp [hi]
  rw [e2, Nat.and_pow_two_sub_one_eq_mod, Nat.shiftRight_eq_div_pow, Nat.shiftLeft_eq]
  norm_num
  omega

theorem or_low3 (sz a : Nat) (hsz : sz % 8 = 0) (ha : a < 8) : sz ||| a = sz + a := by
  have : sz = 2 ^ 3 * (sz / 8) := by norm_num; omega
  rw [this, ← Nat.mul_add_lt_is_or (by norm_num; exact ha)]

theorem or_bit01 (a t : Nat) (ha : a ≤ 1) (ht : t = 0 ∨ t = 2) : a ||| t = a + t := by
  rcases ht with rfl | rfl
  · simp
  · interval_cases a <;> rfl

/-- The word that `PUT` stores for an aligned size and an allocated bit. -/
theorem pack_tag_eq (sz a old : Nat) (hsz : sz % 8 = 0) (ha : a ≤ 1) :
    PACK sz a ||| (old &&& 2) = sz + a + 2 * (old / 2 % 2) := by
  unfold PACK
  rw [and_two_eq, Nat.lor_assoc]
  have ht : 2 * (old / 2 % 2) = 0 ∨ 2 * (old / 2 % 2) = 2 := by omega
  rw [or_bit01 a _ ha ht, or_low3 sz _ hsz (by omega)]
  omega

/-! ## Byte memory -/

theorem load32_lt (m : Nat → Nat) (p : Nat) : load32 m p < 4294967296 := by
  unfold load32; omega

theorem load32_store32_same (m : Nat → Nat) (p v : Nat) (hv : v < 4294967296) :
    load32 (store32 m p v) p = v := by
  unfold load32 store32
  simp only [if_true, Nat.add_right_eq_self, OfNat.ofNat_ne_zero, if_false, Nat.add_right_cancel_iff,
    OfNat.ofNat_ne_one, Nat.succ_ne_self, reduceCtorEq]
  norm_num
  omega

theorem store32_other (m : Nat → Nat) (p v a : Nat) (h : a < p ∨ p + 4 ≤ a) :
    store32 m p v a = m a := by
  unfold store32
  have h0 : a ≠ p := by omega
  have h1 : a ≠ p + 1 := by omega
  have h2 : a ≠ p + 2 := by omega
  have h3 : a ≠ p + 3 := by omega
  simp [h0, h1, h2, h3]

theorem load32_store32_other (m : Nat → Nat) (p v q : Nat) (h : q + 4 ≤ p ∨ p + 4 ≤ q) :
    load32 (store32 m p v) q = load32 m q := by
  unfold load32
  rw [store32_other m p v q (by omega), store32_other m p v (q + 1) (by omega),
    store32_other m p v (q + 2) (by omega), store32_other m p v (q + 3) (by omega)]

/-! ## The checked accessors inside the region -/

@[simp] theorem ok_bind {α β : Type} (a : α) (f : α → Except Err β) :
    (Except.ok a >>= f) = f a := rfl

@[simp] theorem pure_eq_ok {α : Type} (a : α) : (pure a : Except Err α) = Except.ok a := rfl

theorem sub32_eq (a b : Nat) (h1 : b ≤ a) (h2 : a < 4294967296) : sub32 a b = a - b := by
  unfold sub32; omega

theorem add32_eq (a b : Nat) (h : a + b < 4294967296) : add32 a b = a + b := by
  unfold add32; omega

theorem HDRP_eq (bp : Nat) (h1 : 4 ≤ bp) (h2 : bp < 4294967296) : HDRP bp = bp - 4 := by
  unfold HDRP WSIZE; exact sub32_eq bp 4 h1 h2

theorem GET_ok (s : State) (p : Nat) (h : inRegion s p) : GET s p = .ok (load32 s.mem p) := by
  simp [GET, h]

theorem GET_SIZE_ok (s : State) (p : Nat) (h : inRegion s p) :
    GET_SIZE s p = .ok (load32 s.mem p / 8 * 8) := by
  simp [GET_SIZE, GET_ok s p h, and_mask_eq _ (load32_lt _ _)]

theorem GET_ALLOC_ok (s : State) (p : Nat) (h : inRegion s p) :
    GET_ALLOC s p = .ok (load32 s.mem p % 2) := by
  simp [GET_ALLOC, GET_ok s p h, and_one_eq]

theorem write32_ok (s : State) (p v : Nat) (h : inRegion s p) :
    write32 s p v = .ok { s with mem := store32 s.mem p v } := by
  simp [write32, h]

theorem PUT_ok (s : State) (p sz a : Nat) (h : inRegion s p) (hsz : sz % 8 = 0) (ha : a ≤ 1) :
    PUT s p (PACK sz a)
      = .ok { s with mem := store32 s.mem p (sz + a + 2 * (load32 s.mem p / 2 % 2)) } := by
  simp [PUT, GET_TAG, GET_ok s p h, write32_ok s p _ h, pack_tag_eq sz a _ hsz ha]

/-! ## Block sequences -/

theorem Seg_le {m : Nat → Nat} : ∀ {B : List Blk} {a e : Nat}, Seg m a B e → a ≤ e
  | [], a, e, h => by simp [Seg] at h; omega
  | b :: bs, a, e, h => by
    obtain ⟨_, _, _, _, h5⟩ := h
    have := Seg_le h5
    omega

theorem Seg_append {m : Nat → Nat} : ∀ {B1 B2 : List Blk} {a e : Nat},
    Seg m a (B1 ++ B2) e ↔ ∃ c, Seg m a B1 c ∧ Seg m c B2 e
  | [], B2, a, e => by simp [Seg]
  | b :: bs, B2, a, e => by
    simp only [List.cons_append, Seg]
    constructor
    · rintro ⟨h1, h2, h3, h4, h5⟩
      obtain ⟨c, hc1, hc2⟩ := Seg_append.1 h5
      exact ⟨c, ⟨h1, h2, h3, h4, hc1⟩, hc2⟩
    · rintro ⟨c, ⟨h1, h2, h3, h4, hc1⟩, hc2⟩
      exact ⟨h1, h2, h3, h4, Seg_append.2 ⟨c, hc1, hc2⟩⟩

theorem Seg_mem {m : Nat → Nat} : ∀ {B : List Blk} {a e : Nat}, Seg m a B e →
    ∀ b ∈ B, a ≤ b.bp ∧ b.bp + b.size ≤ e ∧ 16 ≤ b.size ∧ b.size % 8 = 0 ∧
      (b.alloc ≤ 1 → Tagged m b)
  | [], _, _, _ => by simp
  | c :: cs, a, e, h => by
    obtain ⟨h1, h2, h3, h4, h5⟩ := h
    intro b hb
    rcases List.mem_cons.1 hb with rfl | hb
    · have := Seg_le h5
      exact ⟨by omega, by omega, h2, h3, h4⟩
    · have := Seg_mem h5 b hb
      exact ⟨by omega, this.2⟩

/-- Two blocks of a sequence are the same block or lie apart. -/
theorem Seg_apart {m : Nat → Nat} : ∀ {B : List Blk} {a e : Nat}, Seg m a B e →
    ∀ b ∈ B, ∀ c ∈ B, b = c ∨ b.bp + b.size ≤ c.bp ∨ c.bp + c.size ≤ b.bp
  | [], _, _, _ => by simp
  | d :: ds, a, e, h => by
    obtain ⟨h1, h2, h3, h4, h5⟩ := h
    intro b hb c hc
    rcases List.mem_cons.1 hb with hbd | hb <;> rcases List.mem_cons.1 hc with hcd | hc
    · exact Or.inl (hbd.trans hcd.symm)
    · have := (Seg_mem h5 c hc).1
      subst hbd
      exact Or.inr (Or.inl (by omega))
    · have := (Seg_mem h5 b hb).1
      subst hcd
      exact Or.inr (Or.inr (by omega))
    · exact Seg_apart h5 b hb c hc

theorem Seg_bp_inj {m : Nat → Nat} {B : List Blk} {a e : Nat} (h : Seg m a B e)
    {b c : Blk} (hb : b ∈ B) (hc : c ∈ B) (hbc : b.bp = c.bp) : b = c := by
  rcases Seg_apart h b hb c hc with h1 | h1 | h1
  · exact h1
  · have := (Seg_mem h b hb).2.2.1; omega
  · have := (Seg_mem h c hc).2.2.1; omega

/-- A sequence depends on the memory only through the headers and footers of
its written blocks. -/
theorem Seg_congr {m m' : Nat → Nat} : ∀ {B : List Blk} {a e : Nat},
    (∀ b ∈ B, b.alloc ≤ 1 → load32 m' (b.bp - 4) = load32 m (b.bp - 4) ∧
      load32 m' (b.bp + b.size - 8) = load32 m (b.bp + b.size - 8)) →
    Seg m a B e → Seg m' a B e
  | [], _, _, _, h => h
  | b :: bs, a, e, hw, h => by
    obtain ⟨h1, h2, h3, h4, h5⟩ := h
    refine ⟨h1, h2, h3, ?_, Seg_congr (fun c hc => hw c (List.mem_cons_of_mem _ hc)) h5⟩
    intro hb
    have := hw b (List.mem_cons_self _ _) hb
    unfold Tagged
    rw [this.1, this.2]
    exact h4 hb

/-- A store that misses the headers and footers of the written blocks keeps
the sequence. -/
theorem Seg_store {m : Nat → Nat} {B : List Blk} {a e : Nat} (w v : Nat) (ha : 4 ≤ a)
    (hw : ∀ b ∈ B, b.alloc ≤ 1 → (w + 4 ≤ b.bp - 4 ∨ b.bp ≤ w) ∧
      (w + 4 ≤ b.bp + b.size - 8 ∨ b.bp + b.size - 4 ≤ w))
    (h : Seg m a B e) : Seg (store32 m w v) a B e := by
  apply Seg_congr _ h
  intro b hb hal
  have := hw b hb hal
  have hm := Seg_mem h b hb
  constructor
  · apply load32_store32_other; omega
  · apply load32_store32_other; omega

/-- A store below the first header of the sequence. -/
theorem Seg_store_below {m : Nat → Nat} {B : List Blk} {a e : Nat} (w v : Nat)
    (ha : 4 ≤ a) (hw : w + 8 ≤ a) (h : Seg m a B e) : Seg (store32 m w v) a B e := by
  apply Seg_store w v ha _ h
  intro b hb _
  have := Seg_mem h b hb
  omega

/-- A store from the header that follows the sequence on. -/
theorem Seg_store_above {m : Nat → Nat} {B : List Blk} {a e : Nat} (w v : Nat)
    (ha : 4 ≤ a) (hw : e ≤ w + 4) (h : Seg m a B e) : Seg (store32 m w v) a B e := by
  apply Seg_store w v ha _ h
  intro b hb _
  have := Seg_mem h b hb
  omega

/-- A store into the payload of a block of the sequence. -/
theorem Seg_store_payload {m : Nat → Nat} {B : List Blk} {a e : Nat} (w v : Nat) (c : Blk)
    (ha : 4 ≤ a) (hc : c ∈ B) (hw1 : c.bp ≤ w) (hw2 : w + 4 ≤ c.bp + c.size - 8)
    (h : Seg m a B e) : Seg (store32 m w v) a B e := by
  apply Seg_store w v ha _ h
  intro b hb _
  have hb' := Seg_mem h b hb
  have hc' := Seg_mem h c hc
  rcases Seg_apart h b hb c hc with rfl | h1 | h1 <;> omega

/-! ## Link chains -/

theorem Links_store {m : Nat → Nat} {t : Nat} (w v : Nat) : ∀ {fl : List Nat} {p : Nat},
    (∀ y ∈ fl, w + 4 ≤ y ∨ y + 8 ≤ w) → Links m t p fl → Links (store32 m w v) t p fl
  | [], _, _, _ => trivial
  | x :: rest, p, hw, h => by
    obtain ⟨h1, h2, h3⟩ := h
    have hx := hw x (List.mem_cons_self _ _)
    refine ⟨?_, ?_, Links_store w v (fun y hy => hw y (List.mem_cons_of_mem _ hy)) h3⟩
    · rw [load32_store32_other _ _ _ _ (by omega)]; exact h1
    · rw [load32_store32_other _ _ _ _ (by omega)]; exact h2

theorem headD_append (l1 l2 : List Nat) (t : Nat) :
    (l1 ++ l2).headD t = l1.headD (l2.headD t) := by
  cases l1 <;> rfl

theorem Links_append {m : Nat → Nat} {t : Nat} : ∀ {l1 l2 : List Nat} {p : Nat},
    Links m t p (l1 ++ l2) ↔ Links m (l2.headD t) p l1 ∧ Links m t (l1.getLastD p) l2
  | [], l2, p => by simp [Links]
  | x :: r, l2, p => by
    have ih := @Links_append m t r l2 x
    show (load32 m x = p ∧ load32 m (x + 4) = (r ++ l2).headD t ∧ Links m t x (r ++ l2)) ↔
      ((load32 m x = p ∧ load32 m (x + 4) = r.headD (l2.headD t) ∧ Links m (l2.headD t) x r) ∧
        Links m t ((x :: r).getLastD p) l2)
    rw [ih, headD_append, List.getLastD_cons]
    tauto

/-- What follows a node is another node of the chain or the terminator. -/
theorem headD_mem_or (R : List Nat) (t : Nat) : R.headD t = t ∨ R.headD t ∈ R := by
  cases R with
  | nil => exact Or.inl rfl
  | cons z R' => exact Or.inr (List.mem_cons_self _ _)

/-- Unlinking the first node of a chain: the previous link of the node that
follows it is overwritten. -/
theorem Links_remove_head {m : Nat → Nat} {t q x : Nat} {R : List Nat}
    (hq : q < 4294967296)
    (hnd : (x :: R).Nodup)
    (hsep : ∀ y ∈ x :: R, ∀ z ∈ x :: R, y ≠ z → y + 8 ≤ z ∨ z + 8 ≤ y)
    (h : Links m t q (x :: R)) :
    Links (store32 m (R.headD t) q) t q R := by
  obtain ⟨_, _, h3⟩ := h
  cases R with
  | nil => trivial
  | cons z R' =>
    obtain ⟨k1, k2, k3⟩ := h3
    have hzR : z ∉ R' := (List.nodup_cons.1 (List.nodup_cons.1 hnd).2).1
    have hz : z ∈ x :: z :: R' := by simp
    refine ⟨?_, ?_, ?_⟩
    · exact load32_store32_same _ _ _ hq
    · show load32 (store32 m z q) (z + 4) = _
      rw [load32_store32_other _ _ _ _ (by omega)]; exact k2
    · apply Links_store _ _ _ k3
      intro y hy
      have hy' : y ∈ x :: z :: R' := by simp [hy]
      have hne : z ≠ y := fun e => hzR (e ▸ hy)
      have := hsep z hz y hy' hne
      show z + 4 ≤ y ∨ y + 8 ≤ z
      omega

/-- Unlinking a node that has a predecessor `p` in the chain: the next link of
`p` and the previous link of the node that follows are overwritten. -/
theorem Links_remove_mid {m : Nat → Nat} {t q p x : Nat} {L R : List Nat}
    (hnd : (L ++ p :: x :: R).Nodup)
    (hsep : ∀ y ∈ L ++ p :: x :: R, ∀ z ∈ L ++ p :: x :: R, y ≠ z → y + 8 ≤ z ∨ z + 8 ≤ y)
    (hterm : ∀ y ∈ L ++ p :: x :: R, t + 4 ≤ y)
    (h : Links m t q (L ++ p :: x :: R)) :
    Links (store32 (store32 m (p + 4) (R.headD t)) (R.headD t) p) t q (L ++ p :: R) := by
  rw [Links_append] at h ⊢
  obtain ⟨hL, hp1, hp2, hx1, hx2, hR⟩ := h
  have hpmem : p ∈ L ++ p :: x :: R := by simp
  have hp32 : p < 4294967296 := hx1 ▸ load32_lt _ _
  have hn32 : R.headD t < 4294967296 := hx2 ▸ load32_lt _ _
  have hnd' : (L ++ p :: x :: R).Pairwise (· ≠ ·) := hnd
  -- the word of the following node (or of the terminator) lies apart from every other node
  have hn : ∀ y ∈ L ++ p :: x :: R, y ∉ R → R.headD t + 4 ≤ y ∨ y + 8 ≤ R.headD t := by
    intro y hy hyR
    rcases headD_mem_or R t with e | e
    · rw [e]; exact Or.inl (hterm y hy)
    · have hne : R.headD t ≠ y := fun e' => hyR (e' ▸ e)
      have := hsep _ (List.mem_append_right _ (List.mem_cons_of_mem _ (List.mem_cons_of_mem _ e)))
        y hy hne
      omega
  have hLR : ∀ y ∈ L, y ∉ R := by
    intro y hy hyR
    have := List.nodup_append.1 hnd
    exact this.2.2 hy (by simp [hyR])
  have hLp : ∀ y ∈ L, y ≠ p := by
    intro y hy e
    have := List.nodup_append.1 hnd
    exact this.2.2 hy (by simp [e])
  have hpR : p ∉ R := by
    have := (List.nodup_append.1 hnd).2.1
    have := (List.nodup_cons.1 this).1
    intro hp; exact this (by simp [hp])
  refine ⟨?_, ?_, ?_, ?_⟩
  · -- the chain before `p`
    apply Links_store
    · intro y hy
      exact hn y (by simp [hy]) (hLR y hy)
    · apply Links_store _ _ _ hL
      intro y hy
      have := hsep y (by simp [hy]) p hpmem (hLp y hy)
      omega
  · -- the previous link of `p`
    have := hn p hpmem hpR
    rw [load32_store32_other _ _ _ _ (by omega), load32_store32_other _ _ _ _ (by omega)]
    exact hp1
  · -- the next link of `p`
    have := hn p hpmem hpR
    rw [load32_store32_other _ _ _ _ (by omega)]
    exact load32_store32_same _ _ _ hn32
  · -- the chain after the removed node
    cases R with
    | nil => trivial
    | cons z R' =>
      obtain ⟨k1, k2, k3⟩ := hR
      have hz : z ∈ L ++ p :: x :: z :: R' := by simp
      have hzR : z ∉ R' := by
        have := (List.nodup_append.1 hnd).2.1
        have := (List.nodup_cons.1 (List.nodup_cons.1 (List.nodup_cons.1 this).2).2).1
        exact this
      have hpz : p ≠ z := fun e => hpR (e ▸ List.mem_cons_self _ _)
      have hs := hsep p hpmem z hz hpz
      refine ⟨?_, ?_, ?_⟩
      · exact load32_store32_same _ _ _ hp32
      · show load32 (store32 (store32 m (p + 4) z) z p) (z + 4) = _
        rw [load32_store32_other _ _ _ _ (by omega), load32_store32_other _ _ _ _ (by omega)]
        exact k2
      · show Links (store32 (store32 m (p + 4) z) z p) t z R'
        apply Links_store
        · intro y hy
          have hne : z ≠ y := fun e => hzR (e ▸ hy)
          have := hsep z hz y (by simp [hy]) hne
          omega
        · apply Links_store _ _ _ k3
          intro y hy
          have hne : p ≠ y := fun e => hpR (e ▸ List.mem_cons_of_mem _ hy)
          have := hsep p hpmem y (by simp [hy]) hne
          omega

/-- Linking a node in front of a chain. -/
theorem Links_add {m : Nat → Nat} {t x : Nat} {fl : List Nat}
    (hx32 : x < 4294967296) (ht32 : fl.headD t < 4294967296)
    (hx : x ∉ fl) (hnd : fl.Nodup)
    (hsep : ∀ y ∈ x :: fl, ∀ z ∈ x :: fl, y ≠ z → y + 8 ≤ z ∨ z + 8 ≤ y)
    (hterm : t + 4 ≤ x)
    (h : Links m t 0 fl) :
    Links (store32 (store32 (store32 m (x + 4) (fl.headD t)) (fl.headD t) x) x 0) t 0 (x :: fl) := by
  have hxm : x ∈ x :: fl := List.mem_cons_self _ _
  have hh : fl.headD t + 4 ≤ x ∨ x + 8 ≤ fl.headD t := by
    rcases headD_mem_or fl t with e | e
    · rw [e]; exact Or.inl hterm
    · have hne : fl.headD t ≠ x := fun e' => hx (e' ▸ e)
      have := hsep _ (List.mem_cons_of_mem _ e) x hxm hne
      omega
  refine ⟨?_, ?_, ?_⟩
  · exact load32_store32_same _ _ _ (by omega)
  · rw [load32_store32_other _ _ _ _ (by omega), load32_store32_other _ _ _ _ (by omega)]
    exact load32_store32_same _ _ _ ht32
  · cases fl with
    | nil => trivial
    | cons z R' =>
      obtain ⟨k1, k2, k3⟩ := h
      have hz : z ∈ x :: z :: R' := by simp
      have hxz : x ≠ z := fun e => hx (e ▸ List.mem_cons_self _ _)
      have hs := hsep x hxm z hz hxz
      refine ⟨?_, ?_, ?_⟩
      · show load32 (store32 (store32 (store32 m (x + 4) z) z x) x 0) z = x
        rw [load32_store32_other _ _ _ _ (by omega)]
        exact load32_store32_same _ _ _ hx32
      · show load32 (store32 (store32 (store32 m (x + 4) z) z x) x 0) (z + 4) = _
        rw [load32_store32_other _ _ _ _ (by omega), load32_store32_other _ _ _ _ (by omega),
          load32_store32_other _ _ _ _ (by omega)]
        exact k2
      · show Links (store32 (store32 (store32 m (x + 4) z) z x) x 0) t z R'
        have hzR : z ∉ R' := (List.nodup_cons.1 hnd).1
        have hsx : ∀ y ∈ R', x + 8 ≤ y ∨ y + 8 ≤ x := by
          intro y hy
          have hne : x ≠ y := fun e => hx (e ▸ List.mem_cons_of_mem _ hy)
          exact hsep x hxm y (by simp [hy]) hne
        have hsz : ∀ y ∈ R', z + 8 ≤ y ∨ y + 8 ≤ z := by
          intro y hy
          have hne : z ≠ y := fun e => hzR (e ▸ hy)
          exact hsep z hz y (by simp [hy]) hne
        apply Links_store
        · intro y hy; have := hsx y hy; omega
        · apply Links_store
          · intro y hy; have := hsz y hy; omega
          · apply Links_store _ _ _ k3
            intro y hy; have := hsx y hy; omega

/-! ## The layout and the free list under stores -/

theorem Regs.refl (s : State) : Regs s s := ⟨rfl, rfl, rfl, rfl, rfl, rfl⟩

theorem Regs.trans {s1 s2 s3 : State} (h1 : Regs s1 s2) (h2 : Regs s2 s3) : Regs s1 s3 := by
  unfold Regs at h1 h2 ⊢
  refine ⟨?_, ?_, ?_, ?_, ?_, ?_⟩
  · rw [h2.1, h1.1]
  · rw [h2.2.1, h1.2.1]
  · rw [h2.2.2.1, h1.2.2.1]
  · rw [h2.2.2.2.1, h1.2.2.2.1]
  · rw [h2.2.2.2.2.1, h1.2.2.2.2.1]
  · rw [h2.2.2.2.2.2, h1.2.2.2.2.2]

theorem Layout.base_le {s : State} {B : List Blk} (h : Layout s B) :
    s.heap_listp + 32 ≤ s.brk := Seg_le h.seg

/-- A store into the previous-link word of the prologue or into the payload of
a block keeps the layout. -/
theorem Layout_store {s s' : State} {B : List Blk} (h : Layout s B) (w v : Nat)
    (hm : s'.mem = store32 s.mem w v) (hr : Regs s s')
    (hw : w = s.heap_listp + 8 ∨ ∃ b ∈ B, b.bp ≤ w ∧ w + 4 ≤ b.bp + b.size - 8) :
    Layout s' B := by
  obtain ⟨r1, r2, r3, r4, _, _⟩ := hr
  have hb := h.base_le
  have hwb : (w = s.heap_listp + 8) ∨ (s.heap_listp + 32 ≤ w ∧ w + 12 ≤ s.brk) := by
    rcases hw with e | ⟨b, hb, h1, h2⟩
    · exact Or.inl e
    · have := Seg_mem h.seg b hb
      exact Or.inr (by omega)
  refine ⟨by rw [r1, r4]; exact h.lo_le, by rw [r3]; exact h.hi_lt, by rw [r2, r3]; exact h.brk_le,
    ?_, ?_, ?_, ?_⟩
  · rw [hm, r4, r2]
    rcases hw with e | ⟨b, hb, h1, h2⟩
    · exact Seg_store_below w v (by omega) (by omega) h.seg
    · exact Seg_store_payload w v b (by omega) hb h1 h2 h.seg
  · rw [hm, r4, load32_store32_other _ _ _ _ (by omega)]; exact h.gap
  · rw [hm, r4, load32_store32_other _ _ _ _ (by omega)]; exact h.prologue
  · rw [hm, r2, load32_store32_other _ _ _ _ (by omega)]; exact h.epilogue

theorem Heap.node {s : State} {B : List Blk} {fl : List Nat} (h : Heap s B fl) {x : Nat}
    (hx : x ∈ fl) : ∃ b ∈ B, b.bp = x ∧ s.heap_listp + 32 ≤ x ∧ x + b.size ≤ s.brk ∧ 16 ≤ b.size := by
  obtain ⟨b, hb, e⟩ := h.sub x hx
  have := Seg_mem h.layout.seg b hb
  exact ⟨b, hb, e, by omega, by omega, this.2.2.1⟩

/-- Distinct payload addresses of blocks of a sequence are at least 8 apart. -/
theorem nodes_sep {m : Nat → Nat} {B : List Blk} {a e : Nat} (hseg : Seg m a B e)
    (l : List Nat) (hsub : ∀ y ∈ l, ∃ b ∈ B, b.bp = y) :
    ∀ y ∈ l, ∀ z ∈ l, y ≠ z → y + 8 ≤ z ∨ z + 8 ≤ y := by
  intro y hy z hz hne
  obtain ⟨b, hb, e1⟩ := hsub y hy
  obtain ⟨c, hc, e2⟩ := hsub z hz
  have hb' := Seg_mem hseg b hb
  have hc' := Seg_mem hseg c hc
  rcases Seg_apart hseg b hb c hc with h1 | h1 | h1
  · exact absurd (by rw [← e1, ← e2, h1]) hne
  · omega
  · omega

theorem Heap.sep {s : State} {B : List Blk} {fl : List Nat} (h : Heap s B fl) :
    ∀ y ∈ fl, ∀ z ∈ fl, y ≠ z → y + 8 ≤ z ∨ z + 8 ≤ y := by
  intro y hy z hz hne
  obtain ⟨b, hb, e1, _, _, _⟩ := h.node hy
  obtain ⟨c, hc, e2, _, _, _⟩ := h.node hz
  rcases Seg_apart h.layout.seg b hb c hc with h1 | h1 | h1
  · exact absurd (by rw [← e1, ← e2, h1]) hne
  · omega
  · omega

theorem Heap.next_ok {s : State} {B : List Blk} {fl : List Nat} (h : Heap s B fl)
    (R : List Nat) (hR : ∀ y ∈ R, y ∈ fl) :
    inRegion s (R.headD (s.heap_listp + 8)) ∧
      (R.headD (s.heap_listp + 8) = s.heap_listp + 8 ∨
        ∃ b ∈ B, b.bp ≤ R.headD (s.heap_listp + 8) ∧
          R.headD (s.heap_listp + 8) + 4 ≤ b.bp + b.size - 8) := by
  have hb := h.layout.base_le
  have hlo := h.layout.lo_le
  rcases headD_mem_or R (s.heap_listp + 8) with e | e
  · rw [e]; exact ⟨⟨by omega, by omega⟩, Or.inl rfl⟩
  · obtain ⟨b, hb, e1, h1, h2, h3⟩ := h.node (hR _ e)
    exact ⟨⟨by omega, by omega⟩, Or.inr ⟨b, hb, by omega, by omega⟩⟩

theorem remove_eval_head (s : State) (x n : Nat) (hrx : inRegion s x) (hrx4 : inRegion s (x + 4))
    (hx32 : x + 4 < 4294967296) (hrn : inRegion s n)
    (k1 : load32 s.mem x = 0) (k2 : load32 s.mem (x + 4) = n) :
    remove_from_list s x = .ok { s with lstart := n, mem := store32 s.mem n 0 } := by
  have e : add32 x WSIZE = x + 4 := add32_eq _ _ (by unfold WSIZE; omega)
  have hrn' : inRegion { s with lstart := n } n := hrn
  have hrx' : inRegion { s with lstart := n } x := hrx
  have hrx4' : inRegion { s with lstart := n } (x + 4) := hrx4
  simp [remove_from_list, PREV, NEXT, SETPREV, e, GET_ok s x hrx, GET_ok s (x + 4) hrx4, k1, k2,
    GET_ok _ _ hrx', GET_ok _ _ hrx4', write32_ok _ _ _ hrn']

theorem remove_eval_mid (s : State) (x p n : Nat) (hrx : inRegion s x)
    (hrx4 : inRegion s (x + 4)) (hx32 : x + 4 < 4294967296)
    (hrp : inRegion s (p + 4)) (hp32 : p + 4 < 4294967296) (hrn : inRegion s n)
    (hpx : p + 8 ≤ x ∨ x + 8 ≤ p) (hp0 : p ≠ 0)
    (k1 : load32 s.mem x = p) (k2 : load32 s.mem (x + 4) = n) :
    remove_from_list s x = .ok { s with mem := store32 (store32 s.mem (p + 4) n) n p } := by
  have e : add32 x WSIZE = x + 4 := add32_eq _ _ (by unfold WSIZE; omega)
  have e' : add32 p WSIZE = p + 4 := add32_eq _ _ (by unfold WSIZE; omega)
  have hrn' : inRegion { s with mem := store32 s.mem (p + 4) n } n := hrn
  have hrx' : inRegion { s with mem := store32 s.mem (p + 4) n } x := hrx
  have hrx4' : inRegion { s with mem := store32 s.mem (p + 4) n } (x + 4) := hrx4
  have f1 : load32 (store32 s.mem (p + 4) n) x = p := by
    rw [load32_store32_other _ _ _ _ (by omega)]; exact k1
  have f2 : load32 (store32 s.mem (p + 4) n) (x + 4) = n := by
    rw [load32_store32_other _ _ _ _ (by omega)]; exact k2
  simp [remove_from_list, PREV, NEXT, SETPREV, SETNEXT, e, e', GET_ok s x hrx,
    GET_ok s (x + 4) hrx4, k1, k2, hp0, write32_ok s _ _ hrp,
    GET_ok _ _ hrx', GET_ok _ _ hrx4', write32_ok _ _ _ hrn', f1, f2]

/-- The function `remove_from_list` on a node of the free list. -/
theorem Heap_remove {s : State} {B : List Blk} {fl : List Nat} (h : Heap s B fl) {x : Nat}
    (hx : x ∈ fl) :
    ∃ s', remove_from_list s x = .ok s' ∧ Heap s' B (fl.erase x) ∧ Regs s s' ∧
      ∀ a, (∀ y ∈ fl, y ≠ x → a < y ∨ y + 8 ≤ a) →
        (a < s.heap_listp + 8 ∨ s.heap_listp + 12 ≤ a) → s'.mem a = s.mem a := by
  obtain ⟨L, R, rfl⟩ := List.append_of_mem hx
  have hnd := h.nodup
  have hxL : x ∉ L := fun hxl => (List.nodup_append.1 hnd).2.2 hxl (List.mem_cons_self _ _)
  have hxR : x ∉ R := (List.nodup_cons.1 (List.nodup_append.1 hnd).2.1).1
  have herase : (L ++ x :: R).erase x = L ++ R := by
    rw [List.erase_append_right _ hxL, List.erase_cons_head]
  rw [herase]
  have hb := h.layout.base_le
  have hlo := h.layout.lo_le
  have hhi := h.layout.hi_lt
  have hbrk := h.layout.brk_le
  obtain ⟨bx, hbx, ex, hx1, hx2, hx3⟩ := h.node hx
  have hrx : inRegion s x := ⟨by omega, by omega⟩
  have hrx4 : inRegion s (x + 4) := ⟨by omega, by omega⟩
  obtain ⟨hrn, hnw⟩ := h.next_ok R (fun y hy => by simp [hy])
  have hl := h.links
  have hsub' : ∀ y ∈ L ++ R, ∃ b ∈ B, b.bp = y := by
    intro y hy
    apply h.sub
    rcases List.mem_append.1 hy with hy | hy
    · exact List.mem_append_left _ hy
    · exact List.mem_append_right _ (List.mem_cons_of_mem _ hy)
  have hnd' : (L ++ R).Nodup := by
    have := List.nodup_append.1 hnd
    refine List.nodup_append.2 ⟨this.1, (List.nodup_cons.1 this.2.1).2, ?_⟩
    intro a ha1 ha2
    exact this.2.2 ha1 (List.mem_cons_of_mem _ ha2)
  have hnR : ∀ a, (∀ y ∈ L ++ x :: R, y ≠ x → a < y ∨ y + 8 ≤ a) →
      (a < s.heap_listp + 8 ∨ s.heap_listp + 12 ≤ a) →
      a < R.headD (s.heap_listp + 8) ∨ R.headD (s.heap_listp + 8) + 4 ≤ a := by
    intro a h1 h2
    rcases headD_mem_or R (s.heap_listp + 8) with e | e
    · rw [e]; omega
    · have hne : R.headD (s.heap_listp + 8) ≠ x := fun e' => hxR (e' ▸ e)
      have := h1 _ (List.mem_append_right _ (List.mem_cons_of_mem _ e)) hne
      omega
  rcases List.eq_nil_or_concat' L with rfl | ⟨L', p, rfl⟩
  · -- the node is the head of the list
    simp only [List.nil_append] at hl h hnd ⊢
    have hl' := hl
    obtain ⟨k1, k2, k3⟩ := hl
    refine ⟨_, remove_eval_head s x _ hrx hrx4 (by omega) hrn k1 k2, ?_, ?_, ?_⟩
    · refine ⟨Layout_store h.layout _ 0 rfl ⟨rfl, rfl, rfl, rfl, rfl, rfl⟩ hnw, ?_, rfl, hnd', hsub'⟩
      exact Links_remove_head (by omega) hnd h.sep hl'
    · exact ⟨rfl, rfl, rfl, rfl, rfl, rfl⟩
    · intro a h1 h2
      have := hnR a h1 h2
      exact store32_other _ _ _ _ (by omega)
  · -- the node has a predecessor
    simp only [List.append_assoc, List.singleton_append] at hl h hnd hx hnR ⊢
    have hpm : p ∈ L' ++ p :: x :: R := by simp
    obtain ⟨bp', hbp', ep, hp1, hp2, hp3⟩ := h.node hpm
    have hpx : p ≠ x := by
      intro e
      apply hxL
      simp [e]
    have hsp := h.sep p hpm x hx hpx
    have hl' := hl
    rw [Links_append] at hl
    obtain ⟨_, _, _, k1, k2, _⟩ := hl
    have hrp : inRegion s (p + 4) := ⟨by omega, by omega⟩
    refine ⟨_, remove_eval_mid s x p _ hrx hrx4 (by omega) hrp (by omega) hrn hsp (by omega)
      k1 k2, ?_, ?_, ?_⟩
    · refine ⟨?_, ?_, ?_, by simpa using hnd', by simpa using hsub'⟩
      · have l1 : Layout { s with mem := store32 s.mem (p + 4) (R.headD (s.heap_listp + 8)) } B :=
          Layout_store h.layout _ _ rfl ⟨rfl, rfl, rfl, rfl, rfl, rfl⟩
            (Or.inr ⟨bp', hbp', by omega, by omega⟩)
        exact Layout_store l1 _ _ rfl ⟨rfl, rfl, rfl, rfl, rfl, rfl⟩ hnw
      · have hterm : ∀ y ∈ L' ++ p :: x :: R, s.heap_listp + 8 + 4 ≤ y := by
          intro y hy
          obtain ⟨_, _, _, hy1, _, _⟩ := h.node hy
          omega
        exact Links_remove_mid hnd h.sep hterm hl'
      · show s.lstart = _
        rw [h.head]
        simp [headD_append]
    · exact ⟨rfl, rfl, rfl, rfl, rfl, rfl⟩
    · intro a h1 h2
      have := hnR a h1 h2
      have := h1 p hpm hpx
      show store32 (store32 s.mem (p + 4) _) _ p a = s.mem a
      rw [store32_other _ _ _ _ (by omega), store32_other _ _ _ _ (by omega)]

theorem add_eval (s : State) (x : Nat) (hrx : inRegion s x) (hrx4 : inRegion s (x + 4))
    (hx32 : x + 4 < 4294967296) (hrl : inRegion s s.lstart) :
    add_to_list s x = .ok { s with
      mem := store32 (store32 (store32 s.mem (x + 4) s.lstart) s.lstart x) x 0, lstart := x } := by
  have e : add32 x WSIZE = x + 4 := add32_eq _ _ (by unfold WSIZE; omega)
  have h1 : inRegion { s with mem := store32 s.mem (x + 4) s.lstart } s.lstart := hrl
  have h2 : inRegion { s with mem := store32 (store32 s.mem (x + 4) s.lstart) s.lstart x } x := hrx
  simp [add_to_list, SETNEXT, SETPREV, e, write32_ok s _ _ hrx4, write32_ok _ _ _ h1,
    write32_ok _ _ _ h2]

/-- The function `add_to_list` on a block that is not in the free list. -/
theorem Heap_add {s : State} {B : List Blk} {fl : List Nat} (h : Heap s B fl) {x : Nat}
    (hxb : ∃ b ∈ B, b.bp = x) (hx : x ∉ fl) :
    ∃ s', add_to_list s x = .ok s' ∧ Heap s' B (x :: fl) ∧ Regs s s' ∧
      ∀ a, (a < x ∨ x + 8 ≤ a) → (∀ y ∈ fl, a < y ∨ y + 8 ≤ a) →
        (a < s.heap_listp + 8 ∨ s.heap_listp + 12 ≤ a) → s'.mem a = s.mem a := by
  have hb := h.layout.base_le
  have hlo := h.layout.lo_le
  have hhi := h.layout.hi_lt
  have hbrk := h.layout.brk_le
  obtain ⟨b, hbB, eb⟩ := hxb
  have hbm := Seg_mem h.layout.seg b hbB
  have hrx : inRegion s x := ⟨by omega, by omega⟩
  have hrx4 : inRegion s (x + 4) := ⟨by omega, by omega⟩
  obtain ⟨hrn, hnw⟩ := h.next_ok fl (fun y hy => hy)
  rw [← h.head] at hrn hnw
  have hsub' : ∀ y ∈ x :: fl, ∃ b ∈ B, b.bp = y := by
    intro y hy
    rcases List.mem_cons.1 hy with e | hy
    · exact ⟨b, hbB, eb.trans e.symm⟩
    · exact h.sub y hy
  have hsep := nodes_sep h.layout.seg (x :: fl) hsub'
  refine ⟨_, add_eval s x hrx hrx4 (by omega) hrn, ?_, ⟨rfl, rfl, rfl, rfl, rfl, rfl⟩, ?_⟩
  · refine ⟨?_, ?_, rfl, List.nodup_cons.2 ⟨hx, h.nodup⟩, hsub'⟩
    · have l1 : Layout { s with mem := store32 s.mem (x + 4) s.lstart } B :=
        Layout_store h.layout _ _ rfl ⟨rfl, rfl, rfl, rfl, rfl, rfl⟩
          (Or.inr ⟨b, hbB, by omega, by omega⟩)
      have l2 : Layout { s with mem := store32 (store32 s.mem (x + 4) s.lstart) s.lstart x } B :=
        Layout_store l1 _ _ rfl ⟨rfl, rfl, rfl, rfl, rfl, rfl⟩ hnw
      exact Layout_store l2 _ _ rfl ⟨rfl, rfl, rfl, rfl, rfl, rfl⟩
        (Or.inr ⟨b, hbB, by omega, by omega⟩)
    · show Links (store32 (store32 (store32 s.mem (x + 4) s.lstart) s.lstart x) x 0)
        (s.heap_listp + 8) 0 (x :: fl)
      rw [h.head]
      apply Links_add (by omega) _ hx h.nodup hsep (by omega) h.links
      rw [← h.head]
      have := hrn.2
      omega
  · intro a h1 h2 h3
    have hl : a < s.lstart ∨ s.lstart + 4 ≤ a := by
      rw [h.head]
      rcases headD_mem_or fl (s.heap_listp + 8) with e | e
      · rw [e]; omega
      · have := h2 _ e; omega
    show store32 (store32 (store32 s.mem (x + 4) s.lstart) s.lstart x) x 0 a = s.mem a
    rw [store32_other _ _ _ _ (by omega), store32_other _ _ _ _ (by omega),
      store32_other _ _ _ _ (by omega)]

/-! ## Writing headers and footers -/

@[simp] theorem putw_lo (s : State) (p sz a : Nat) : (putw s p sz a).lo = s.lo := rfl
@[simp] theorem putw_brk (s : State) (p sz a : Nat) : (putw s p sz a).brk = s.brk := rfl
@[simp] theorem putw_hi (s : State) (p sz a : Nat) : (putw s p sz a).hi = s.hi := rfl
@[simp] theorem putw_heap_listp (s : State) (p sz a : Nat) :
    (putw s p sz a).heap_listp = s.heap_listp := rfl
@[simp] theorem putw_lstart (s : State) (p sz a : Nat) : (putw s p sz a).lstart = s.lstart := rfl
@[simp] theorem putw_lm_size (s : State) (p sz a : Nat) : (putw s p sz a).lm_size = s.lm_size := rfl
@[simp] theorem putw_repcount (s : State) (p sz a : Nat) :
    (putw s p sz a).repcount = s.repcount := rfl

theorem putw_regs (s : State) (p sz a : Nat) : Regs s (putw s p sz a) :=
  ⟨rfl, rfl, rfl, rfl, rfl, rfl⟩

theorem putw_inRegion (s : State) (p sz a q : Nat) :
    inRegion (putw s p sz a) q ↔ inRegion s q := Iff.rfl

theorem putw_same (s : State) (p sz a : Nat) (hsz : sz % 8 = 0) (ha : a ≤ 1)
    (h32 : sz < 4294967296) :
    load32 (putw s p sz a).mem p / 8 * 8 = sz ∧ load32 (putw s p sz a).mem p % 2 = a := by
  have : load32 (putw s p sz a).mem p = sz + a + 2 * (load32 s.mem p / 2 % 2) :=
    load32_store32_same _ _ _ (by omega)
  rw [this]
  omega

theorem putw_other (s : State) (p sz a q : Nat) (h : q + 4 ≤ p ∨ p + 4 ≤ q) :
    load32 (putw s p sz a).mem q = load32 s.mem q :=
  load32_store32_other _ _ _ _ h

theorem putw_mem_other (s : State) (p sz a x : Nat) (h : x < p ∨ p + 4 ≤ x) :
    (putw s p sz a).mem x = s.mem x :=
  store32_other _ _ _ _ h

theorem PUT_putw (s : State) (p sz a : Nat) (h : inRegion s p) (hsz : sz % 8 = 0) (ha : a ≤ 1) :
    PUT s p (PACK sz a) = .ok (putw s p sz a) := PUT_ok s p sz a h hsz ha

theorem FTRP_ok (s : State) (bp sz : Nat) (h : inRegion s (bp - 4)) (h4 : 4 ≤ bp)
    (hsz : load32 s.mem (bp - 4) / 8 * 8 = sz) (hb : bp + sz < 4294967296) (h8 : 8 ≤ bp + sz) :
    FTRP s bp = .ok (bp + sz - 8) := by
  have e1 : HDRP bp = bp - 4 := HDRP_eq bp h4 (by omega)
  have e2 : add32 bp sz = bp + sz := add32_eq _ _ hb
  have e3 : sub32 (bp + sz) DSIZE = bp + sz - 8 := sub32_eq _ _ (by unfold DSIZE; omega) hb
  simp [FTRP, e1, GET_SIZE_ok s _ h, hsz, e2, e3]

theorem NEXT_BLKP_ok (s : State) (bp sz : Nat) (h : inRegion s (bp - 4)) (h4 : 4 ≤ bp)
    (hsz : load32 s.mem (bp - 4) / 8 * 8 = sz) (hb : bp + sz < 4294967296) :
    NEXT_BLKP s bp = .ok (bp + sz) := by
  have e1 : HDRP bp = bp - 4 := HDRP_eq bp h4 (by omega)
  have e2 : add32 bp sz = bp + sz := add32_eq _ _ hb
  simp [NEXT_BLKP, e1, GET_SIZE_ok s _ h, hsz, e2]

theorem PREV_BLKP_ok (s : State) (bp sz : Nat) (h : inRegion s (bp - 8)) (h8 : 8 ≤ bp)
    (hsz : load32 s.mem (bp - 8) / 8 * 8 = sz) (hle : sz ≤ bp) (hb : bp < 4294967296) :
    PREV_BLKP s bp = .ok (bp - sz) := by
  have e1 : sub32 bp DSIZE = bp - 8 := sub32_eq _ _ (by unfold DSIZE; omega) hb
  have e2 : sub32 bp sz = bp - sz := sub32_eq _ _ hle hb
  simp [PREV_BLKP, e1, GET_SIZE_ok s _ h, hsz, e2]

theorem GET_SIZE_hdr (s : State) (bp : Nat) (h : inRegion s (bp - 4)) (h4 : 4 ≤ bp)
    (hb : bp < 4294967296) :
    GET_SIZE s (HDRP bp) = .ok (load32 s.mem (bp - 4) / 8 * 8) := by
  rw [HDRP_eq bp h4 hb]; exact GET_SIZE_ok s _ h

theorem GET_ALLOC_hdr (s : State) (bp : Nat) (h : inRegion s (bp - 4)) (h4 : 4 ≤ bp)
    (hb : bp < 4294967296) :
    GET_ALLOC s (HDRP bp) = .ok (load32 s.mem (bp - 4) % 2) := by
  rw [HDRP_eq bp h4 hb]; exact GET_ALLOC_ok s _ h

/-- The two stores of a block's header and footer, evaluated. -/
theorem retag_eval (s : State) (bp sz a : Nat) (h4 : 4 ≤ bp) (h16 : 16 ≤ sz) (hsz : sz % 8 = 0)
    (ha : a ≤ 1) (hlo : s.lo ≤ bp - 4) (hbrk : bp + sz ≤ s.brk) (h32 : s.brk < 4294967296) :
    PUT s (HDRP bp) (PACK sz a) = .ok (putw s (bp - 4) sz a) ∧
    FTRP (putw s (bp - 4) sz a) bp = .ok (bp + sz - 8) ∧
    PUT (putw s (bp - 4) sz a) (bp + sz - 8) (PACK sz a) = .ok (retag s bp sz a) := by
  have r1 : inRegion s (bp - 4) := ⟨hlo, by omega⟩
  refine ⟨?_, ?_, ?_⟩
  · rw [HDRP_eq bp h4 (by omega)]; exact PUT_putw s _ sz a r1 hsz ha
  · exact FTRP_ok _ bp sz r1 h4 (putw_same s _ sz a hsz ha (by omega)).1 (by omega) (by omega)
  · exact PUT_putw _ _ sz a ⟨by show s.lo ≤ _; omega, by show _ ≤ s.brk; omega⟩ hsz ha

theorem retag_regs (s : State) (bp sz a : Nat) : Regs s (retag s bp sz a) :=
  ⟨rfl, rfl, rfl, rfl, rfl, rfl⟩

@[simp] theorem retag_lstart (s : State) (bp sz a : Nat) : (retag s bp sz a).lstart = s.lstart :=
  rfl

theorem retag_load_other (s : State) (bp sz a q : Nat) (h8 : 4 ≤ bp)
    (h1 : q + 4 ≤ bp - 4 ∨ bp ≤ q) (h2 : q + 4 ≤ bp + sz - 8 ∨ bp + sz - 4 ≤ q) :
    load32 (retag s bp sz a).mem q = load32 s.mem q := by
  unfold retag
  rw [putw_other _ _ _ _ _ (by omega), putw_other _ _ _ _ _ (by omega)]

theorem retag_mem_other (s : State) (bp sz a x : Nat) (h8 : 4 ≤ bp)
    (h1 : x < bp - 4 ∨ bp ≤ x) (h2 : x < bp + sz - 8 ∨ bp + sz - 4 ≤ x) :
    (retag s bp sz a).mem x = s.mem x := by
  unfold retag
  rw [putw_mem_other _ _ _ _ _ (by omega), putw_mem_other _ _ _ _ _ (by omega)]

theorem retag_tagged (s : State) (bp sz a : Nat) (h4 : 4 ≤ bp) (h16 : 16 ≤ sz)
    (hsz : sz % 8 = 0) (ha : a ≤ 1) (h32 : sz < 4294967296) :
    Tagged (retag s bp sz a).mem ⟨bp, sz, a⟩ := by
  have f := putw_same (putw s (bp - 4) sz a) (bp + sz - 8) sz a hsz ha h32
  have g := putw_same s (bp - 4) sz a hsz ha h32
  have e : load32 (retag s bp sz a).mem (bp - 4) = load32 (putw s (bp - 4) sz a).mem (bp - 4) :=
    putw_other _ _ _ _ _ (by omega)
  unfold Tagged
  simp only
  rw [e]
  exact ⟨g.1, g.2, f.1, f.2⟩

theorem total_append (B1 B2 : List Blk) : total (B1 ++ B2) = total B1 + total B2 := by
  simp [total]

theorem Seg_total {m : Nat → Nat} : ∀ {B : List Blk} {a e : Nat}, Seg m a B e →
    e = a + total B ∧ total B % 8 = 0
  | [], a, e, h => by simp [Seg] at h; simp [total, h]
  | b :: bs, a, e, h => by
    obtain ⟨h1, h2, h3, h4, h5⟩ := h
    have := Seg_total h5
    simp only [total, List.map_cons, List.sum_cons] at this ⊢
    omega

/-- Rewriting header and footer at the start of a stretch of blocks, none of
which but the first is in the free list: the stretch becomes one block of the
given size, followed by what is left of it. -/
theorem Heap_retag {s : State} {L M R : List Blk} {fl : List Nat} {c : Blk}
    (h : Heap s (L ++ (c :: M) ++ R) fl) (sz a : Nat) (h16 : 16 ≤ sz) (hsz : sz % 8 = 0)
    (ha : a ≤ 1) (hle : sz ≤ total (c :: M))
    (hrest : total (c :: M) - sz = 0 ∨ 16 ≤ total (c :: M) - sz)
    (hfl : ∀ d ∈ M, d.bp ∉ fl) :
    Heap (retag s c.bp sz a)
      (L ++ (⟨c.bp, sz, a⟩ :: restBlk c.bp (total (c :: M)) sz) ++ R) fl := by
  have hlay := h.layout
  have hb := hlay.base_le
  have hlo := hlay.lo_le
  have hhi := hlay.hi_lt
  have hbrk := hlay.brk_le
  have hseg := hlay.seg
  rw [Seg_append] at hseg
  obtain ⟨c2, hLM, hR⟩ := hseg
  rw [Seg_append] at hLM
  obtain ⟨c1, hL, hM⟩ := hLM
  have hc1 : c.bp = c1 := hM.1
  have htot := Seg_total hM
  have hL1 := Seg_le hL
  have hR1 := Seg_le hR
  set tot := total (c :: M) with htotdef
  have h4 : 4 ≤ c.bp := by omega
  -- the memory away from the two words is unchanged
  have hoth : ∀ q, (q + 4 ≤ c.bp - 4 ∨ c.bp ≤ q) → (q + 4 ≤ c.bp + sz - 8 ∨ c.bp + sz - 4 ≤ q) →
      load32 (retag s c.bp sz a).mem q = load32 s.mem q :=
    fun q h1 h2 => retag_load_other s c.bp sz a q h4 h1 h2
  have hsegL : Seg (retag s c.bp sz a).mem (s.heap_listp + 32) L c1 := by
    unfold retag putw
    exact Seg_store_above _ _ (by omega) (by omega) (Seg_store_above _ _ (by omega) (by omega) hL)
  have hsegR : Seg (retag s c.bp sz a).mem c2 R s.brk := by
    unfold retag putw
    exact Seg_store_below _ _ (by omega) (by omega) (Seg_store_below _ _ (by omega) (by omega) hR)
  have hsegM : Seg (retag s c.bp sz a).mem c1
      (⟨c.bp, sz, a⟩ :: restBlk c.bp tot sz) c2 := by
    refine ⟨hc1, h16, hsz, fun _ => retag_tagged s c.bp sz a h4 h16 hsz ha (by omega), ?_⟩
    unfold restBlk
    rcases hrest with h0 | h0
    · simp only [h0, if_true, Seg]; omega
    · have hne : ¬ (tot - sz = 0) := by omega
      simp only [hne, if_false, Seg]
      refine ⟨by omega, h0, by omega, fun h2 => absurd h2 (by omega), by omega⟩
  refine ⟨⟨hlo, hhi, hbrk, ?_, ?_, ?_, ?_⟩, ?_, h.head, h.nodup, ?_⟩
  · show Seg (retag s c.bp sz a).mem (s.heap_listp + 32) _ s.brk
    rw [Seg_append]
    refine ⟨c2, ?_, hsegR⟩
    rw [Seg_append]
    exact ⟨c1, hsegL, hsegM⟩
  · show load32 (retag s c.bp sz a).mem (s.heap_listp + 24) / 8 * 8 = 0
    rw [hoth _ (by omega) (by omega)]; exact hlay.gap
  · show load32 (retag s c.bp sz a).mem (s.heap_listp + 4) % 2 = 1
    rw [hoth _ (by omega) (by omega)]; exact hlay.prologue
  · show load32 (retag s c.bp sz a).mem (s.brk - 4) / 8 * 8 = 0 ∧
      load32 (retag s c.bp sz a).mem (s.brk - 4) % 2 = 1
    rw [hoth _ (by omega) (by omega)]; exact hlay.epilogue
  · show Links (retag s c.bp sz a).mem (s.heap_listp + 8) 0 fl
    have hnodes : ∀ y ∈ fl, y + 16 ≤ c.bp ∨ y = c.bp ∨ c.bp + tot ≤ y := by
      intro y hy
      obtain ⟨d, hd, ed⟩ := h.sub y hy
      rcases List.mem_append.1 hd with hd | hd
      · rcases List.mem_append.1 hd with hd | hd
        · have := Seg_mem hL d hd; omega
        · rcases List.mem_cons.1 hd with hd | hd
          · exact Or.inr (Or.inl (by rw [← ed, hd]))
          · exact absurd (ed ▸ hy) (hfl d hd)
      · have := Seg_mem hR d hd; omega
    unfold retag putw
    apply Links_store
    · intro y hy; have := hnodes y hy; omega
    · apply Links_store _ _ _ h.links
      intro y hy; have := hnodes y hy; omega
  · intro y hy
    obtain ⟨d, hd, ed⟩ := h.sub y hy
    rcases List.mem_append.1 hd with hd | hd
    · rcases List.mem_append.1 hd with hd | hd
      · exact ⟨d, by simp [hd], ed⟩
      · rcases List.mem_cons.1 hd with hd | hd
        · exact ⟨⟨c.bp, sz, a⟩, by simp, by rw [← ed, hd]⟩
        · exact absurd (ed ▸ hy) (hfl d hd)
    · exact ⟨d, by simp [hd], ed⟩

/-! ## `coalesce` -/

theorem prevAlloc_nil : prevAlloc [] = 1 := rfl
theorem prevBp_nil (bp : Nat) : prevBp [] bp = bp := rfl
theorem prevAlloc_concat (L : List Blk) (p : Blk) : prevAlloc (L ++ [p]) = p.alloc := by
  simp [prevAlloc]
theorem prevBp_concat (L : List Blk) (p : Blk) (bp : Nat) : prevBp (L ++ [p]) bp = p.bp := by
  simp [prevBp]

/-- The blocks around a block `b` of the heap, as `coalesce` sees them. -/
theorem Heap.around {s : State} {L R : List Blk} {b : Blk} {fl : List Nat}
    (h : Heap s (L ++ b :: R) fl) :
    ∃ e, Seg s.mem (s.heap_listp + 32) L b.bp ∧ Seg s.mem (b.bp + b.size) R s.brk ∧
      e = b.bp + b.size ∧ s.heap_listp + 32 ≤ b.bp ∧ b.bp + b.size ≤ s.brk ∧ 16 ≤ b.size ∧
      b.size % 8 = 0 ∧ (b.alloc ≤ 1 → Tagged s.mem b) := by
  have hseg := h.layout.seg
  rw [Seg_append] at hseg
  obtain ⟨c1, hL, hbR⟩ := hseg
  obtain ⟨h1, h2, h3, h4, h5⟩ := hbR
  have := Seg_le hL
  have := Seg_le h5
  subst h1
  exact ⟨_, hL, h5, rfl, by omega, by omega, h2, h3, h4⟩

theorem coalesce_reads {s : State} {L R : List Blk} {b : Blk} {fl : List Nat}
    (h : Heap s (L ++ b :: R) fl) (hb : b.alloc ≤ 1) (hL : ∀ c ∈ L, c.alloc ≤ 1)
    (hR : ∀ c ∈ R, c.alloc ≤ 1) :
    NEXT_BLKP s b.bp = .ok (b.bp + b.size) ∧
    GET_ALLOC s (HDRP (b.bp + b.size)) = .ok (nextAlloc R) ∧
    PREV_BLKP s b.bp = .ok (prevBp L b.bp) ∧
    (∃ pf pa, FTRP s (prevBp L b.bp) = .ok pf ∧ GET_ALLOC s pf = .ok pa ∧
      (if pa ≠ 0 ∨ prevBp L b.bp = b.bp then 1 else 0) = prevAlloc L) ∧
    GET_SIZE s (HDRP b.bp) = .ok b.size := by
  obtain ⟨e, hsL, hsR, he, h1, h2, h3, h4, h5⟩ := h.around
  have hlo := h.layout.lo_le
  have hhi := h.layout.hi_lt
  have hbrk := h.layout.brk_le
  obtain ⟨t1, t2, t3, t4⟩ := h5 hb
  have rh : inRegion s (b.bp - 4) := ⟨by omega, by omega⟩
  refine ⟨?_, ?_, ?_, ?_, ?_⟩
  · exact NEXT_BLKP_ok s b.bp b.size rh (by omega) t1 (by omega)
  · rw [GET_ALLOC_hdr s _ ⟨by omega, by omega⟩ (by omega) (by omega)]
    cases R with
    | nil =>
      simp only [Seg] at hsR
      rw [hsR, h.layout.epilogue.2]; rfl
    | cons n R' =>
      obtain ⟨n1, n2, n3, n4, n5⟩ := hsR
      obtain ⟨u1, u2, u3, u4⟩ := n4 (hR n (List.mem_cons_self _ _))
      rw [n1] at u2
      rw [u2]; rfl
  · rcases List.eq_nil_or_concat' L with rfl | ⟨L', p, rfl⟩
    · simp only [Seg] at hsL
      have hg := h.layout.gap
      rw [prevBp_nil]
      have := PREV_BLKP_ok s b.bp 0 ⟨by omega, by omega⟩ (by omega)
        (by rw [← hsL]; exact hg) (by omega) (by omega)
      simpa using this
    · rw [Seg_append] at hsL
      obtain ⟨c, _, hp⟩ := hsL
      obtain ⟨p1, p2, p3, p4, p5⟩ := hp
      simp only [Seg] at p5
      obtain ⟨u1, u2, u3, u4⟩ := p4 (hL p (by simp))
      rw [prevBp_concat]
      have hc : c = p.bp := p1.symm
      have e8 : p.bp + p.size - 8 = b.bp - 8 := by omega
      rw [e8] at u3
      have := PREV_BLKP_ok s b.bp p.size ⟨by omega, by omega⟩ (by omega) u3 (by omega) (by omega)
      rw [this]
      congr 1
      omega
  · rcases List.eq_nil_or_concat' L with rfl | ⟨L', p, rfl⟩
    · rw [prevBp_nil, prevAlloc_nil]
      refine ⟨_, _, FTRP_ok s b.bp b.size rh (by omega) t1 (by omega) (by omega),
        GET_ALLOC_ok s _ ⟨by omega, by omega⟩, by simp⟩
    · rw [Seg_append] at hsL
      obtain ⟨c, hsL', hp⟩ := hsL
      obtain ⟨p1, p2, p3, p4, p5⟩ := hp
      simp only [Seg] at p5
      have := Seg_le hsL'
      obtain ⟨u1, u2, u3, u4⟩ := p4 (hL p (by simp))
      rw [prevBp_concat, prevAlloc_concat]
      refine ⟨_, _, FTRP_ok s p.bp p.size ⟨by omega, by omega⟩ (by omega) u1 (by omega) (by omega),
        GET_ALLOC_ok s _ ⟨by omega, by omega⟩, ?_⟩
      rw [u4]
      have hp1 := hL p (by simp)
      have hne : p.bp ≠ b.bp := by omega
      by_cases h0 : p.alloc = 0
      · simp [h0, hne]
      · have : p.alloc = 1 := by omega
        simp [this]
  · exact (GET_SIZE_hdr s b.bp rh (by omega) (by omega)).trans (by rw [t1])

theorem nextAlloc_cons (n : Blk) (R : List Blk) : nextAlloc (n :: R) = n.alloc := rfl

/-- Case "neither neighbour is free". -/
theorem coalesce_none {s : State} {L R : List Blk} {b : Blk} {fl : List Nat}
    (h : Heap s (L ++ b :: R) fl) (hb : b.alloc ≤ 1) (hL : ∀ c ∈ L, c.alloc ≤ 1)
    (hR : ∀ c ∈ R, c.alloc ≤ 1) (hp : prevAlloc L = 1) (hn : nextAlloc R = 1)
    (hx : b.bp ∉ fl) :
    ∃ s', coalesce s b.bp = .ok (b.bp, s') ∧ Heap s' (L ++ b :: R) (b.bp :: fl) ∧ Regs s s' ∧
      ∀ a, (a < b.bp - 4 ∨ b.bp + b.size - 4 ≤ a) → (∀ y ∈ fl, a < y ∨ y + 8 ≤ a) →
        (a < s.heap_listp + 8 ∨ s.heap_listp + 12 ≤ a) → s'.mem a = s.mem a := by
  obtain ⟨r1, r2, r3, ⟨pf, pa, r4, r5, r6⟩, r7⟩ := coalesce_reads h hb hL hR
  obtain ⟨s', e1, e2, e3, e4⟩ := Heap_add h ⟨b, by simp, rfl⟩ hx
  obtain ⟨_, _, _, _, _, _, h16, _, _⟩ := h.around
  refine ⟨s', ?_, e2, e3, fun a a1 a2 a3 => e4 a (by omega) a2 a3⟩
  unfold coalesce
  simp only [r1, r2, r3, r4, r5, r6, r7, hp, hn, ok_bind, e1]
  simp

/-- Case "only the next block is free". -/
theorem coalesce_next {s : State} {L R : List Blk} {b n : Blk} {fl : List Nat}
    (h : Heap s (L ++ b :: n :: R) fl) (hb : b.alloc ≤ 1) (hL : ∀ c ∈ L, c.alloc ≤ 1)
    (hR : ∀ c ∈ n :: R, c.alloc ≤ 1) (hp : prevAlloc L = 1) (hn : n.alloc = 0)
    (hx : b.bp ∉ fl) (hnf : n.bp ∈ fl) :
    ∃ s', coalesce s b.bp = .ok (b.bp, s') ∧
      Heap s' (L ++ ⟨b.bp, b.size + n.size, 0⟩ :: R) (b.bp :: fl.erase n.bp) ∧ Regs s s' ∧
      ∀ a, (a < b.bp - 4 ∨ b.bp + (b.size + n.size) - 4 ≤ a) → (∀ y ∈ fl, a < y ∨ y + 8 ≤ a) →
        (a < s.heap_listp + 8 ∨ s.heap_listp + 12 ≤ a) → s'.mem a = s.mem a := by
  obtain ⟨r1, r2, r3, ⟨pf, pa, r4, r5, r6⟩, r7⟩ := coalesce_reads h hb hL hR
  obtain ⟨_, hsL, hsR, _, hb1, hb2, hb3, hb4, hb5⟩ := h.around
  obtain ⟨n1, n2, n3, n4, n5⟩ := hsR
  obtain ⟨u1, u2, u3, u4⟩ := n4 (hR n (List.mem_cons_self _ _))
  have hlo := h.layout.lo_le
  have hhi := h.layout.hi_lt
  have hbrk := h.layout.brk_le
  have hR5 := Seg_le n5
  -- the size of the next block
  have r8 : GET_SIZE s (HDRP (b.bp + b.size)) = .ok n.size := by
    rw [GET_SIZE_hdr s _ ⟨by omega, by omega⟩ (by omega) (by omega), ← n1, u1]
  have esz : add32 b.size n.size = b.size + n.size := add32_eq _ _ (by omega)
  clear u1 u2 u3 u4 n4 hb5
  -- unlink the next block
  obtain ⟨s1, e1, k1, g1, f1⟩ := Heap_remove h hnf
  obtain ⟨g11, g12, g13, g14, g15, g16⟩ := g1
  -- rewrite header and footer
  obtain ⟨w1, w2, w3⟩ := retag_eval s1 b.bp (b.size + n.size) 0 (by omega) (by omega) (by omega)
    (by omega) (by rw [g11]; omega) (by rw [g12]; omega) (by rw [g12]; omega)
  have k1' : Heap s1 (L ++ (b :: [n]) ++ R) (fl.erase n.bp) := by simpa using k1
  have hne : ∀ d ∈ [n], d.bp ∉ fl.erase n.bp := by
    intro d hd
    rw [List.mem_singleton.1 hd]
    exact fun hm => (List.Nodup.not_mem_erase h.nodup) hm
  have htot : total (b :: [n]) = b.size + n.size := by simp [total]
  have k2 := Heap_retag k1' (b.size + n.size) 0 (by omega) (by omega) (by omega)
    (by rw [htot]) (by rw [htot]; omega) hne
  have hrest : restBlk b.bp (total (b :: [n])) (b.size + n.size) = [] := by
    simp [restBlk, htot]
  rw [hrest] at k2
  have k2' : Heap (retag s1 b.bp (b.size + n.size) 0) (L ++ ⟨b.bp, b.size + n.size, 0⟩ :: R)
      (fl.erase n.bp) := by simpa using k2
  -- link the merged block
  have hx' : b.bp ∉ fl.erase n.bp := fun hm => hx (List.mem_of_mem_erase hm)
  obtain ⟨s4, e4, k4, g4, f4⟩ := Heap_add k2' ⟨⟨b.bp, b.size + n.size, 0⟩, by simp, rfl⟩ hx'
  refine ⟨s4, ?_, k4, ?_, ?_⟩
  · unfold coalesce
    rw [n1] at e1
    have e4' : add_to_list (retag s1 b.bp (b.size + n.size) 0) b.bp = .ok s4 := e4
    simp only [r1, r2, r3, r4, r5, r6, r7, r8, hp, hn, nextAlloc_cons, ok_bind, e1, esz, w1, w2,
      w3, e4']
    simp
  · exact Regs.trans ⟨g11, g12, g13, g14, g15, g16⟩ (Regs.trans (retag_regs _ _ _ _) g4)
  · intro a a1 a2 a3
    have t1 : s1.mem a = s.mem a := f1 a (fun y hy _ => a2 y hy) a3
    have t2 : (retag s1 b.bp (b.size + n.size) 0).mem a = s1.mem a :=
      retag_mem_other _ _ _ _ _ (by omega) (by omega) (by omega)
    have t3 := f4 a (by show a < b.bp ∨ b.bp + 8 ≤ a; omega)
      (fun y hy => a2 y (List.mem_of_mem_erase hy))
      (by show a < s1.heap_listp + 8 ∨ s1.heap_listp + 12 ≤ a; rw [g14]; exact a3)
    rw [t3, t2, t1]

/-- Case "only the previous block is free". -/
theorem coalesce_prev {s : State} {L R : List Blk} {p b : Blk} {fl : List Nat}
    (h : Heap s ((L ++ [p]) ++ b :: R) fl) (hb : b.alloc ≤ 1) (hL : ∀ c ∈ L ++ [p], c.alloc ≤ 1)
    (hR : ∀ c ∈ R, c.alloc ≤ 1) (hp : p.alloc = 0) (hn : nextAlloc R = 1)
    (hx : b.bp ∉ fl) (hpf : p.bp ∈ fl) :
    ∃ s', coalesce s b.bp = .ok (p.bp, s') ∧
      Heap s' (L ++ ⟨p.bp, b.size + p.size, 0⟩ :: R) (p.bp :: fl.erase p.bp) ∧ Regs s s' ∧
      ∀ a, (a < p.bp - 4 ∨ p.bp + (b.size + p.size) - 4 ≤ a) → (∀ y ∈ fl, a < y ∨ y + 8 ≤ a) →
        (a < s.heap_listp + 8 ∨ s.heap_listp + 12 ≤ a) → s'.mem a = s.mem a := by
  obtain ⟨r1, r2, r3, ⟨pf, pa, r4, r5, r6⟩, r7⟩ := coalesce_reads h hb hL hR
  rw [prevBp_concat] at r3 r4 r6
  rw [prevAlloc_concat, hp] at r6
  obtain ⟨_, hsL, hsR, _, hb1, hb2, hb3, hb4, hb5⟩ := h.around
  rw [Seg_append] at hsL
  obtain ⟨c, hsL', hsp⟩ := hsL
  obtain ⟨p1, p2, p3, p4, p5⟩ := hsp
  simp only [Seg] at p5
  obtain ⟨u1, u2, u3, u4⟩ := p4 (hL p (by simp))
  have hlo := h.layout.lo_le
  have hhi := h.layout.hi_lt
  have hbrk := h.layout.brk_le
  have hL5 := Seg_le hsL'
  have r8 : GET_SIZE s (HDRP p.bp) = .ok p.size := by
    rw [GET_SIZE_hdr s _ ⟨by omega, by omega⟩ (by omega) (by omega), u1]
  have esz : add32 b.size p.size = b.size + p.size := add32_eq _ _ (by omega)
  clear u1 u2 u3 u4 p4 hb5
  obtain ⟨s1, e1, k1, g1, f1⟩ := Heap_remove h hpf
  obtain ⟨g11, g12, g13, g14, g15, g16⟩ := g1
  obtain ⟨w1, w2, w3⟩ := retag_eval s1 p.bp (b.size + p.size) 0 (by omega) (by omega) (by omega)
    (by omega) (by rw [g11]; omega) (by rw [g12]; omega) (by rw [g12]; omega)
  have k1' : Heap s1 (L ++ (p :: [b]) ++ R) (fl.erase p.bp) := by simpa using k1
  have hne : ∀ d ∈ [b], d.bp ∉ fl.erase p.bp := by
    intro d hd
    rw [List.mem_singleton.1 hd]
    exact fun hm => hx (List.mem_of_mem_erase hm)
  have htot : total (p :: [b]) = p.size + b.size := by simp [total]
  have k2 := Heap_retag k1' (b.size + p.size) 0 (by omega) (by omega) (by omega)
    (by rw [htot]; omega) (by rw [htot]; omega) hne
  have hrest : restBlk p.bp (total (p :: [b])) (b.size + p.size) = [] := by
    simp [restBlk, htot]; omega
  rw [hrest] at k2
  have k2' : Heap (retag s1 p.bp (b.size + p.size) 0) (L ++ ⟨p.bp, b.size + p.size, 0⟩ :: R)
      (fl.erase p.bp) := by simpa using k2
  have hx' : p.bp ∉ fl.erase p.bp := fun hm => (List.Nodup.not_mem_erase h.nodup) hm
  obtain ⟨s4, e4, k4, g4, f4⟩ := Heap_add k2' ⟨⟨p.bp, b.size + p.size, 0⟩, by simp, rfl⟩ hx'
  have e4' : add_to_list (retag s1 p.bp (b.size + p.size) 0) p.bp = .ok s4 := e4
  have hne0 : nextAlloc R ≠ 0 := by omega
  refine ⟨s4, ?_, k4, ?_, ?_⟩
  · unfold coalesce
    simp only [r1, r2, r3, r4, r5, r6, r7, r8, hn, ok_bind, e1, esz, w1, w2, w3, e4']
    simp
  · exact Regs.trans ⟨g11, g12, g13, g14, g15, g16⟩ (Regs.trans (retag_regs _ _ _ _) g4)
  · intro a a1 a2 a3
    have t1 : s1.mem a = s.mem a := f1 a (fun y hy _ => a2 y hy) a3
    have t2 : (retag s1 p.bp (b.size + p.size) 0).mem a = s1.mem a :=
      retag_mem_other _ _ _ _ _ (by omega) (by omega) (by omega)
    have t3 := f4 a (by show a < p.bp ∨ p.bp + 8 ≤ a; omega)
      (fun y hy => a2 y (List.mem_of_mem_erase hy))
      (by show a < s1.heap_listp + 8 ∨ s1.heap_listp + 12 ≤ a; rw [g14]; exact a3)
    rw [t3, t2, t1]

/-- Case "both neighbours are free". -/
theorem coalesce_both {s : State} {L R : List Blk} {p b n : Blk} {fl : List Nat}
    (h : Heap s ((L ++ [p]) ++ b :: n :: R) fl) (hb : b.alloc ≤ 1)
    (hL : ∀ c ∈ L ++ [p], c.alloc ≤ 1) (hR : ∀ c ∈ n :: R, c.alloc ≤ 1) (hp : p.alloc = 0)
    (hn : n.alloc = 0) (hx : b.bp ∉ fl) (hpf : p.bp ∈ fl) (hnf : n.bp ∈ fl) :
    ∃ s', coalesce s b.bp = .ok (p.bp, s') ∧
      Heap s' (L ++ ⟨p.bp, b.size + (p.size + n.size), 0⟩ :: R)
        (p.bp :: (fl.erase p.bp).erase n.bp) ∧ Regs s s' ∧
      ∀ a, (a < p.bp - 4 ∨ p.bp + (b.size + (p.size + n.size)) - 4 ≤ a) →
        (∀ y ∈ fl, a < y ∨ y + 8 ≤ a) →
        (a < s.heap_listp + 8 ∨ s.heap_listp + 12 ≤ a) → s'.mem a = s.mem a := by
  obtain ⟨r1, r2, r3, ⟨pf, pa, r4, r5, r6⟩, r7⟩ := coalesce_reads h hb hL hR
  rw [prevBp_concat] at r3 r4 r6
  rw [prevAlloc_concat, hp] at r6
  obtain ⟨_, hsL, hsR, _, hb1, hb2, hb3, hb4, hb5⟩ := h.around
  rw [Seg_append] at hsL
  obtain ⟨c, hsL', hsp⟩ := hsL
  obtain ⟨p1, p2, p3, p4, p5⟩ := hsp
  simp only [Seg] at p5
  obtain ⟨u1, u2, u3, u4⟩ := p4 (hL p (by simp))
  obtain ⟨n1, n2, n3, n4, n5⟩ := hsR
  obtain ⟨v1, v2, v3, v4⟩ := n4 (hR n (List.mem_cons_self _ _))
  have hlo := h.layout.lo_le
  have hhi := h.layout.hi_lt
  have hbrk := h.layout.brk_le
  have hL5 := Seg_le hsL'
  have hR5 := Seg_le n5
  have r8 : GET_SIZE s (HDRP p.bp) = .ok p.size := by
    rw [GET_SIZE_hdr s _ ⟨by omega, by omega⟩ (by omega) (by omega), u1]
  have r9 : GET_SIZE s (HDRP (b.bp + b.size)) = .ok n.size := by
    rw [GET_SIZE_hdr s _ ⟨by omega, by omega⟩ (by omega) (by omega), ← n1, v1]
  have esz1 : add32 p.size n.size = p.size + n.size := add32_eq _ _ (by omega)
  have esz : add32 b.size (p.size + n.size) = b.size + (p.size + n.size) :=
    add32_eq _ _ (by omega)
  clear u1 u2 u3 u4 v1 v2 v3 v4 hb5 p4 n4
  -- unlink the previous block
  obtain ⟨s1, e1, k1, g1, f1⟩ := Heap_remove h hpf
  obtain ⟨g11, g12, g13, g14, g15, g16⟩ := g1
  -- unlink the next block
  obtain ⟨q1, _, _, _, _⟩ := coalesce_reads k1 hb hL hR
  have hpn : n.bp ≠ p.bp := by omega
  have hnf1 : n.bp ∈ fl.erase p.bp := (List.mem_erase_of_ne hpn).2 hnf
  obtain ⟨s2, e2, k2, g2, f2⟩ := Heap_remove k1 hnf1
  obtain ⟨g21, g22, g23, g24, g25, g26⟩ := g2
  rw [n1] at e2
  obtain ⟨_, _, q3, _, _⟩ := coalesce_reads k2 hb hL hR
  rw [prevBp_concat] at q3
  -- rewrite header and footer
  obtain ⟨w1, w2, w3⟩ := retag_eval s2 p.bp (b.size + (p.size + n.size)) 0 (by omega) (by omega)
    (by omega) (by omega) (by rw [g21, g11]; omega) (by rw [g22, g12]; omega)
    (by rw [g22, g12]; omega)
  have k2' : Heap s2 (L ++ (p :: [b, n]) ++ R) ((fl.erase p.bp).erase n.bp) := by simpa using k2
  have hne : ∀ d ∈ [b, n], d.bp ∉ (fl.erase p.bp).erase n.bp := by
    intro d hd hm
    rcases List.mem_cons.1 hd with e | hd
    · rw [e] at hm
      exact hx (List.mem_of_mem_erase (List.mem_of_mem_erase hm))
    · rw [List.mem_singleton.1 hd] at hm
      exact (List.Nodup.not_mem_erase (h.nodup.erase _)) hm
  have htot : total (p :: [b, n]) = p.size + (b.size + n.size) := by simp [total]
  have k3 := Heap_retag k2' (b.size + (p.size + n.size)) 0 (by omega) (by omega) (by omega)
    (by rw [htot]; omega) (by rw [htot]; omega) hne
  have hrest : restBlk p.bp (total (p :: [b, n])) (b.size + (p.size + n.size)) = [] := by
    simp [restBlk, htot]; omega
  rw [hrest] at k3
  have k3' : Heap (retag s2 p.bp (b.size + (p.size + n.size)) 0)
      (L ++ ⟨p.bp, b.size + (p.size + n.size), 0⟩ :: R) ((fl.erase p.bp).erase n.bp) := by
    simpa using k3
  have hx' : p.bp ∉ (fl.erase p.bp).erase n.bp :=
    fun hm => (List.Nodup.not_mem_erase h.nodup) (List.mem_of_mem_erase hm)
  obtain ⟨s4, e4, k4, g4, f4⟩ :=
    Heap_add k3' ⟨⟨p.bp, b.size + (p.size + n.size), 0⟩, by simp, rfl⟩ hx'
  have e4' : add_to_list (retag s2 p.bp (b.size + (p.size + n.size)) 0) p.bp = .ok s4 := e4
  refine ⟨s4, ?_, k4, ?_, ?_⟩
  · unfold coalesce
    simp only [r1, r2, r3, r4, r5, r6, r7, r8, r9, hn, nextAlloc_cons, ok_bind, e1, e2, q1, q3,
      esz1, esz, w1, w2, w3, e4']
    simp
  · exact Regs.trans ⟨g11, g12, g13, g14, g15, g16⟩ (Regs.trans ⟨g21, g22, g23, g24, g25, g26⟩
      (Regs.trans (retag_regs _ _ _ _) g4))
  · intro a a1 a2 a3
    have t1 : s1.mem a = s.mem a := f1 a (fun y hy _ => a2 y hy) a3
    have t1' : s2.mem a = s1.mem a :=
      f2 a (fun y hy _ => a2 y (List.mem_of_mem_erase hy)) (by rw [g14]; exact a3)
    have t2 : (retag s2 p.bp (b.size + (p.size + n.size)) 0).mem a = s2.mem a :=
      retag_mem_other _ _ _ _ _ (by omega) (by omega) (by omega)
    have t3 := f4 a (by show a < p.bp ∨ p.bp + 8 ≤ a; omega)
      (fun y hy => a2 y (List.mem_of_mem_erase (List.mem_of_mem_erase hy)))
      (by show a < s2.heap_listp + 8 ∨ s2.heap_listp + 12 ≤ a; rw [g24, g14]; exact a3)
    rw [t3, t2, t1', t1]

/-! ## The invariant across `coalesce` -/

theorem Seg_split_bounds {m : Nat → Nat} {X Z : List Blk} {y : Blk} {a e : Nat}
    (h : Seg m a (X ++ y :: Z) e) :
    (∀ c ∈ X, c.bp + c.size ≤ y.bp) ∧ (∀ c ∈ Z, y.bp + y.size ≤ c.bp) ∧ 16 ≤ y.size := by
  rw [Seg_append] at h
  obtain ⟨c1, hX, hy⟩ := h
  obtain ⟨h1, h2, h3, h4, h5⟩ := hy
  refine ⟨fun c hc => ?_, fun c hc => ?_, h2⟩
  · have := Seg_mem hX c hc; omega
  · have := Seg_mem h5 c hc; omega

theorem prevAlloc_ne_zero {L : List Blk} (h : prevAlloc L ≠ 0) :
    ∀ x ∈ L.getLast?, x.alloc ≠ 0 := by
  intro x hx
  unfold prevAlloc at h
  rw [Option.mem_def.1 hx] at h
  exact h

theorem nextAlloc_ne_zero {R : List Blk} (h : nextAlloc R ≠ 0) :
    ∀ x ∈ R.head?, x.alloc ≠ 0 := by
  intro x hx
  cases R with
  | nil => simp at hx
  | cons n R' =>
    simp only [List.head?_cons, Option.mem_def, Option.some.injEq] at hx
    rw [← hx]; exact h

/-- The invariant, assembled around one block of the sequence. -/
theorem Rep_of_parts {s : State} {L R : List Blk} {m : Blk} {fl : List Nat}
    (h : Heap s (L ++ m :: R) fl) (hm : m.alloc ≤ 1) (hms : m.alloc = 0 → m.bp ∈ fl)
    (hmf : m.bp ∈ fl → m.alloc = 0)
    (hw : ∀ c ∈ L ++ R, c.alloc ≤ 1) (hsync : ∀ c ∈ L ++ R, c.alloc = 0 → c.bp ∈ fl)
    (hfree : ∀ x ∈ fl, ∀ c ∈ L ++ R, c.bp = x → c.alloc = 0)
    (hcL : L.Chain' NoAdj) (hcR : R.Chain' NoAdj)
    (hb : m.alloc = 0 → prevAlloc L ≠ 0 ∧ nextAlloc R ≠ 0) : Rep s (L ++ m :: R) fl := by
  have hmem : ∀ c, c ∈ L ++ m :: R ↔ c = m ∨ c ∈ L ++ R := by
    intro c; simp only [List.mem_append, List.mem_cons]; tauto
  refine ⟨h, ?_, ?_, ?_, ?_⟩
  · intro c hc
    rcases (hmem c).1 hc with e | hc
    · rw [e]; exact hm
    · exact hw c hc
  · intro c hc h0
    rcases (hmem c).1 hc with e | hc
    · rw [e] at h0 ⊢; exact hms h0
    · exact hsync c hc h0
  · intro x hx c hc hcx
    rcases (hmem c).1 hc with e | hc
    · rw [e] at hcx ⊢; exact hmf (hcx ▸ hx)
    · exact hfree x hx c hc hcx
  · rw [List.chain'_append]
    refine ⟨hcL, ?_, ?_⟩
    · rw [List.chain'_cons']
      refine ⟨?_, hcR⟩
      intro y hy hny
      exact nextAlloc_ne_zero (hb hny.1).2 y hy hny.2
    · intro x hx y hy hny
      simp only [List.head?_cons, Option.mem_def, Option.some.injEq] at hy
      rw [← hy] at hny
      exact prevAlloc_ne_zero (hb hny.2).1 x hx hny.1

theorem prev_cases (L : List Blk) (hw : ∀ c ∈ L, c.alloc ≤ 1) :
    prevAlloc L = 1 ∨ ∃ L' p, L = L' ++ [p] ∧ p.alloc = 0 := by
  rcases List.eq_nil_or_concat' L with rfl | ⟨L', p, rfl⟩
  · exact Or.inl rfl
  · rw [prevAlloc_concat]
    have := hw p (by simp)
    by_cases h0 : p.alloc = 0
    · exact Or.inr ⟨L', p, rfl, h0⟩
    · exact Or.inl (by omega)

theorem next_cases (R : List Blk) (hw : ∀ c ∈ R, c.alloc ≤ 1) :
    nextAlloc R = 1 ∨ ∃ n R', R = n :: R' ∧ n.alloc = 0 := by
  cases R with
  | nil => exact Or.inl rfl
  | cons n R' =>
    have := hw n (List.mem_cons_self _ _)
    by_cases h0 : n.alloc = 0
    · exact Or.inr ⟨n, R', rfl, h0⟩
    · exact Or.inl (by show n.alloc = 1; omega)

/-- When the previous block is not free, its address is not a node of the
free list. -/
theorem PreCo.prev_notin {s : State} {L R : List Blk} {b : Blk} {fl : List Nat}
    (pre : PreCo s L b R fl) (hp : prevAlloc L = 1) : prevBp L b.bp ∉ fl := by
  rcases List.eq_nil_or_concat' L with rfl | ⟨L', p, rfl⟩
  · exact pre.notin
  · rw [prevBp_concat]
    rw [prevAlloc_concat] at hp
    intro hm
    have := pre.free _ hm p (by simp) rfl
    omega

/-- When the next block is not free, its address is not a node of the free
list. -/
theorem PreCo.next_notin {s : State} {L R : List Blk} {b : Blk} {fl : List Nat}
    (pre : PreCo s L b R fl) (hn : nextAlloc R = 1) : b.bp + b.size ∉ fl := by
  obtain ⟨_, hsL, hsR, _, hb1, hb2, hb3, hb4, hb5⟩ := pre.heap.around
  intro hm
  cases R with
  | nil =>
    simp only [Seg] at hsR
    obtain ⟨d, hd, e1, _, h2, h3⟩ := pre.heap.node hm
    omega
  | cons n R' =>
    obtain ⟨n1, _⟩ := hsR
    have := pre.free _ hm n (by simp) n1
    have hn' : n.alloc = 1 := hn
    omega

/-- The payload of an allocated block lies apart from every node of the free
list and from the prologue word. -/
theorem PreCo.payload_away {s : State} {L R : List Blk} {b : Blk} {fl : List Nat}
    (pre : PreCo s L b R fl) {c : Blk} (hc : c ∈ L ++ R) (hc1 : c.alloc = 1) {a : Nat}
    (h1 : c.bp ≤ a) (h2 : a < c.bp + c.size - 8) :
    (∀ y ∈ fl, a < y ∨ y + 8 ≤ a) ∧ (a < s.heap_listp + 8 ∨ s.heap_listp + 12 ≤ a) ∧
      (c.bp + c.size ≤ b.bp ∨ b.bp + b.size ≤ c.bp) := by
  have hseg := pre.heap.layout.seg
  have hcB : c ∈ L ++ b :: R := by
    rcases List.mem_append.1 hc with h | h
    · exact List.mem_append_left _ h
    · exact List.mem_append_right _ (List.mem_cons_of_mem _ h)
  have hcm := Seg_mem hseg c hcB
  have hbB : b ∈ L ++ b :: R := by simp
  refine ⟨?_, by omega, ?_⟩
  · intro y hy
    obtain ⟨d, hd, e1, _, _, _⟩ := pre.heap.node hy
    have hdm := Seg_mem hseg d hd
    rcases Seg_apart hseg c hcB d hd with e | e | e
    · exfalso
      have hdLR : d ∈ L ++ R := e ▸ hc
      have := pre.free y hy d hdLR e1
      rw [← e] at this
      omega
    · omega
    · omega
  · rcases Seg_apart hseg c hcB b hbB with e | e | e
    · exfalso
      have := pre.bfree
      rw [← e] at this
      omega
    · exact Or.inl e
    · exact Or.inr e

theorem Blk.eta (b : Blk) : (⟨b.bp, b.size, b.alloc⟩ : Blk) = b := by cases b; rfl

theorem PreCo.ne_b {s : State} {L R : List Blk} {b : Blk} {fl : List Nat}
    (pre : PreCo s L b R fl) {c : Blk} (hc : c ∈ L ++ R) : c.bp ≠ b.bp := by
  obtain ⟨h1, h2, h3⟩ := Seg_split_bounds pre.heap.layout.seg
  have hcm := Seg_mem pre.heap.layout.seg c (by
    rcases List.mem_append.1 hc with h | h
    · exact List.mem_append_left _ h
    · exact List.mem_append_right _ (List.mem_cons_of_mem _ h))
  rcases List.mem_append.1 hc with h | h
  · have := h1 c h; omega
  · have := h2 c h; omega

theorem chain_tail_next {n : Blk} {R : List Blk} (h : (n :: R).Chain' NoAdj) (hn : n.alloc = 0) :
    nextAlloc R ≠ 0 := by
  cases R with
  | nil => exact (by decide : (1 : Nat) ≠ 0)
  | cons r R' =>
    rw [List.chain'_cons] at h
    intro h0
    exact h.1 ⟨hn, h0⟩

theorem chain_init_prev {p : Blk} {L : List Blk} (h : (L ++ [p]).Chain' NoAdj) (hp : p.alloc = 0) :
    prevAlloc L ≠ 0 := by
  rcases List.eq_nil_or_concat' L with rfl | ⟨L', q, rfl⟩
  · exact (by decide : (1 : Nat) ≠ 0)
  · rw [prevAlloc_concat]
    rw [List.chain'_append] at h
    have := h.2.2 q (by simp) p (by simp)
    intro h0
    exact this ⟨h0, hp⟩

/-- The invariant after `coalesce`, with the block it returns, the new block
sequence and the new free list. -/
theorem coalesce_rep {s : State} {L R : List Blk} {b : Blk} {fl : List Nat}
    (pre : PreCo s L b R fl) :
    ∃ s', coalesce s b.bp = .ok (mergedBp L b, s') ∧
      Rep s' (mergedBlocks L b R) (mergedFree L b fl) ∧ Regs s s' ∧
      (∀ c ∈ L ++ R, c.alloc = 1 → ∀ a, c.bp ≤ a → a < c.bp + c.size - 8 →
        s'.mem a = s.mem a) := by
  have hwL : ∀ c ∈ L, c.alloc ≤ 1 := fun c hc => pre.written c (List.mem_append_left _ hc)
  have hwR : ∀ c ∈ R, c.alloc ≤ 1 := fun c hc => pre.written c (List.mem_append_right _ hc)
  have hb1 : b.alloc ≤ 1 := by rw [pre.bfree]; omega
  have hseg := pre.heap.layout.seg
  obtain ⟨_, hsL, hsR, _, hbb1, hbb2, hbb3, hbb4, hbb5⟩ := pre.heap.around
  rcases prev_cases L hwL with hp | ⟨L', p, rfl, hp⟩ <;>
    rcases next_cases R hwR with hn | ⟨n, R', rfl, hn⟩
  · -- neither neighbour is free
    obtain ⟨s', e1, e2, e3, e4⟩ := coalesce_none pre.heap hb1 hwL hwR hp hn pre.notin
    have hB : mergedBlocks L b R = L ++ b :: R := by
      unfold mergedBlocks mergedBp mergedSize
      simp only [hp, hn, one_ne_zero, if_false, Nat.add_zero]
      rw [← pre.bfree, Blk.eta]
    have hF : mergedFree L b fl = b.bp :: fl := by
      unfold mergedFree mergedBp
      simp only [hp, one_ne_zero, if_false]
      rw [List.erase_of_not_mem (pre.prev_notin hp), List.erase_of_not_mem (pre.next_notin hn)]
    have hM : mergedBp L b = b.bp := by unfold mergedBp; simp [hp]
    rw [hB, hF, hM]
    refine ⟨s', e1, ?_, e3, ?_⟩
    · refine Rep_of_parts e2 hb1 (fun _ => List.mem_cons_self _ _) (fun _ => pre.bfree)
        pre.written (fun c hc h0 => List.mem_cons_of_mem _ (pre.sync c hc h0)) ?_
        pre.noadjL pre.noadjR (fun _ => ⟨by omega, by omega⟩)
      intro x hx c hc hcx
      rcases List.mem_cons.1 hx with e | hx
      · exact absurd (hcx.trans e) (pre.ne_b hc)
      · exact pre.free x hx c hc hcx
    · intro c hc hc1 a a1 a2
      obtain ⟨q1, q2, q3⟩ := pre.payload_away hc hc1 a1 a2
      exact e4 a (by omega) q1 q2
  · -- only the next block is free
    obtain ⟨n1, n2, n3, n4, n5⟩ := hsR
    have hnf : n.bp ∈ fl := pre.sync n (by simp) hn
    obtain ⟨s', e1, e2, e3, e4⟩ := coalesce_next pre.heap hb1 hwL hwR hp hn pre.notin hnf
    have hB : mergedBlocks L b (n :: R') = L ++ ⟨b.bp, b.size + n.size, 0⟩ :: R' := by
      unfold mergedBlocks mergedBp mergedSize
      simp [hp, hn, nextAlloc, nextSize]
    have hF : mergedFree L b fl = b.bp :: fl.erase n.bp := by
      unfold mergedFree mergedBp
      simp only [hp, one_ne_zero, if_false]
      rw [List.erase_of_not_mem (pre.prev_notin hp), n1]
    have hM : mergedBp L b = b.bp := by unfold mergedBp; simp [hp]
    rw [hB, hF, hM]
    have hsub : ∀ c ∈ L ++ R', c ∈ L ++ n :: R' := by
      intro c hc
      rcases List.mem_append.1 hc with h | h
      · exact List.mem_append_left _ h
      · exact List.mem_append_right _ (List.mem_cons_of_mem _ h)
    have hnb : ∀ c ∈ L ++ R', c.bp ≠ n.bp := by
      intro c hc
      obtain ⟨z1, z2, z3⟩ := Seg_split_bounds (X := L ++ [b]) (y := n) (Z := R')
        (by simpa using hseg)
      have hcm := Seg_mem hseg c (by
        rcases List.mem_append.1 hc with h | h
        · exact List.mem_append_left _ h
        · exact List.mem_append_right _ (List.mem_cons_of_mem _ (List.mem_cons_of_mem _ h)))
      rcases List.mem_append.1 hc with h | h
      · have := z1 c (by simp [h]); omega
      · have := z2 c h; omega
    refine ⟨s', e1, ?_, e3, ?_⟩
    · refine Rep_of_parts e2 (by show 0 ≤ 1; omega) (fun _ => List.mem_cons_self _ _)
        (fun _ => rfl) (fun c hc => pre.written c (hsub c hc)) ?_ ?_ pre.noadjL
        (List.Chain'.tail pre.noadjR)
        (fun _ => ⟨by omega, chain_tail_next pre.noadjR hn⟩)
      · intro c hc h0
        exact List.mem_cons_of_mem _ ((List.mem_erase_of_ne (hnb c hc)).2
          (pre.sync c (hsub c hc) h0))
      · intro x hx c hc hcx
        rcases List.mem_cons.1 hx with e | hx
        · exact absurd (hcx.trans e) (pre.ne_b (hsub c hc))
        · exact pre.free x (List.mem_of_mem_erase hx) c (hsub c hc) hcx
    · intro c hc hc1 a a1 a2
      obtain ⟨q1, q2, q3⟩ := pre.payload_away hc hc1 a1 a2
      have hcB : c ∈ L ++ b :: n :: R' := by
        rcases List.mem_append.1 hc with h | h
        · exact List.mem_append_left _ h
        · exact List.mem_append_right _ (List.mem_cons_of_mem _ h)
      have hcm := Seg_mem hseg c hcB
      have hnB : n ∈ L ++ b :: n :: R' := by simp
      have hcn : c.bp + c.size ≤ n.bp ∨ n.bp + n.size ≤ c.bp := by
        rcases Seg_apart hseg c hcB n hnB with e | e | e
        · rw [e] at hc1; omega
        · exact Or.inl e
        · exact Or.inr e
      exact e4 a (by omega) q1 q2
  · -- only the previous block is free
    rw [Seg_append] at hsL
    obtain ⟨c0, hsL', hsp⟩ := hsL
    obtain ⟨p1, p2, p3, p4, p5⟩ := hsp
    simp only [Seg] at p5
    have hpf : p.bp ∈ fl := pre.sync p (by simp) hp
    obtain ⟨s', e1, e2, e3, e4⟩ := coalesce_prev pre.heap hb1 hwL hwR hp hn pre.notin hpf
    have hB : mergedBlocks (L' ++ [p]) b R = L' ++ ⟨p.bp, b.size + p.size, 0⟩ :: R := by
      unfold mergedBlocks mergedBp mergedSize
      simp [hp, hn, prevAlloc, prevSize, prevBp]
    have hF : mergedFree (L' ++ [p]) b fl = p.bp :: fl.erase p.bp := by
      unfold mergedFree mergedBp
      rw [prevAlloc_concat, prevBp_concat]
      simp only [hp, if_true]
      rw [List.erase_of_not_mem (fun hm => pre.next_notin hn (List.mem_of_mem_erase hm))]
    have hM : mergedBp (L' ++ [p]) b = p.bp := by
      unfold mergedBp; rw [prevAlloc_concat, prevBp_concat]; simp [hp]
    rw [hB, hF, hM]
    have hsub : ∀ c ∈ L' ++ R, c ∈ (L' ++ [p]) ++ R := by
      intro c hc
      rcases List.mem_append.1 hc with h | h
      · exact List.mem_append_left _ (List.mem_append_left _ h)
      · exact List.mem_append_right _ h
    have hpb : ∀ c ∈ L' ++ R, c.bp ≠ p.bp := by
      intro c hc
      obtain ⟨z1, z2, z3⟩ := Seg_split_bounds (X := L') (y := p) (Z := b :: R)
        (by simpa using hseg)
      rcases List.mem_append.1 hc with h | h
      · have := z1 c h
        have hcm := Seg_mem hsL' c h
        omega
      · have := z2 c (List.mem_cons_of_mem _ h); omega
    refine ⟨s', e1, ?_, e3, ?_⟩
    · refine Rep_of_parts e2 (by show 0 ≤ 1; omega) (fun _ => List.mem_cons_self _ _)
        (fun _ => rfl) (fun c hc => pre.written c (hsub c hc)) ?_ ?_
        (List.Chain'.left_of_append pre.noadjL) pre.noadjR
        (fun _ => ⟨chain_init_prev pre.noadjL hp, by omega⟩)
      · intro c hc h0
        exact List.mem_cons_of_mem _ ((List.mem_erase_of_ne (hpb c hc)).2
          (pre.sync c (hsub c hc) h0))
      · intro x hx c hc hcx
        rcases List.mem_cons.1 hx with e | hx
        · exact absurd (hcx.trans e) (hpb c hc)
        · exact pre.free x (List.mem_of_mem_erase hx) c (hsub c hc) hcx
    · intro c hc hc1 a a1 a2
      obtain ⟨q1, q2, q3⟩ := pre.payload_away hc hc1 a1 a2
      have hcB : c ∈ (L' ++ [p]) ++ b :: R := by
        rcases List.mem_append.1 hc with h | h
        · exact List.mem_append_left _ h
        · exact List.mem_append_right _ (List.mem_cons_of_mem _ h)
      have hcm := Seg_mem hseg c hcB
      have hpB : p ∈ (L' ++ [p]) ++ b :: R := by simp
      have hcp : c.bp + c.size ≤ p.bp ∨ p.bp + p.size ≤ c.bp := by
        rcases Seg_apart hseg c hcB p hpB with e | e | e
        · rw [e] at hc1; omega
        · exact Or.inl e
        · exact Or.inr e
      exact e4 a (by omega) q1 q2
  · -- both neighbours are free
    rw [Seg_append] at hsL
    obtain ⟨c0, hsL', hsp⟩ := hsL
    obtain ⟨p1, p2, p3, p4, p5⟩ := hsp
    simp only [Seg] at p5
    obtain ⟨n1, n2, n3, n4, n5⟩ := hsR
    have hpf : p.bp ∈ fl := pre.sync p (by simp) hp
    have hnf : n.bp ∈ fl := pre.sync n (by simp) hn
    obtain ⟨s', e1, e2, e3, e4⟩ := coalesce_both pre.heap hb1 hwL hwR hp hn pre.notin hpf hnf
    have hB : mergedBlocks (L' ++ [p]) b (n :: R')
        = L' ++ ⟨p.bp, b.size + (p.size + n.size), 0⟩ :: R' := by
      unfold mergedBlocks mergedBp mergedSize
      simp [hp, hn, prevAlloc, prevSize, prevBp, nextAlloc, nextSize, Nat.add_assoc]
    have hF : mergedFree (L' ++ [p]) b fl = p.bp :: (fl.erase p.bp).erase n.bp := by
      unfold mergedFree mergedBp
      rw [prevAlloc_concat, prevBp_concat]
      simp only [hp, if_true]
      rw [n1]
    have hM : mergedBp (L' ++ [p]) b = p.bp := by
      unfold mergedBp; rw [prevAlloc_concat, prevBp_concat]; simp [hp]
    rw [hB, hF, hM]
    have hsub : ∀ c ∈ L' ++ R', c ∈ (L' ++ [p]) ++ n :: R' := by
      intro c hc
      rcases List.mem_append.1 hc with h | h
      · exact List.mem_append_left _ (List.mem_append_left _ h)
      · exact List.mem_append_right _ (List.mem_cons_of_mem _ h)
    obtain ⟨z1, z2, z3⟩ := Seg_split_bounds (X := L') (y := p) (Z := b :: n :: R')
      (by simpa using hseg)
    have hpb : ∀ c ∈ L' ++ R', c.bp ≠ p.bp ∧ c.bp ≠ n.bp ∧ c.bp ≠ b.bp := by
      intro c hc
      rcases List.mem_append.1 hc with h | h
      · have := z1 c h
        have hcm := Seg_mem hsL' c h
        omega
      · have := z2 c (List.mem_cons_of_mem _ (List.mem_cons_of_mem _ h))
        have hcm := Seg_mem n5 c h
        omega
    refine ⟨s', e1, ?_, e3, ?_⟩
    · refine Rep_of_parts e2 (by show 0 ≤ 1; omega) (fun _ => List.mem_cons_self _ _)
        (fun _ => rfl) (fun c hc => pre.written c (hsub c hc)) ?_ ?_
        (List.Chain'.left_of_append pre.noadjL) (List.Chain'.tail pre.noadjR)
        (fun _ => ⟨chain_init_prev pre.noadjL hp, chain_tail_next pre.noadjR hn⟩)
      · intro c hc h0
        exact List.mem_cons_of_mem _ ((List.mem_erase_of_ne (hpb c hc).2.1).2
          ((List.mem_erase_of_ne (hpb c hc).1).2 (pre.sync c (hsub c hc) h0)))
      · intro x hx c hc hcx
        rcases List.mem_cons.1 hx with e | hx
        · exact absurd (hcx.trans e) (hpb c hc).1
        · exact pre.free x (List.mem_of_mem_erase (List.mem_of_mem_erase hx)) c (hsub c hc) hcx
    · intro c hc hc1 a a1 a2
      obtain ⟨q1, q2, q3⟩ := pre.payload_away hc hc1 a1 a2
      have hcB : c ∈ (L' ++ [p]) ++ b :: n :: R' := by
        rcases List.mem_append.1 hc with h | h
        · exact List.mem_append_left _ h
        · exact List.mem_append_right _ (List.mem_cons_of_mem _ h)
      have hcm := Seg_mem hseg c hcB
      have hpB : p ∈ (L' ++ [p]) ++ b :: n :: R' := by simp
      have hnB : n ∈ (L' ++ [p]) ++ b :: n :: R' := by simp
      have hcp : c.bp + c.size ≤ p.bp ∨ p.bp + p.size ≤ c.bp := by
        rcases Seg_apart hseg c hcB p hpB with e | e | e
        · rw [e] at hc1; omega
        · exact Or.inl e
        · exact Or.inr e
      have hcn : c.bp + c.size ≤ n.bp ∨ n.bp + n.size ≤ c.bp := by
        rcases Seg_apart hseg c hcB n hnB with e | e | e
        · rw [e] at hc1; omega
        · exact Or.inl e
        · exact Or.inr e
      exact e4 a (by omega) q1 q2

/-! ## `mm_free` -/

theorem Rep.chainL {s : State} {L R : List Blk} {b : Blk} {fl : List Nat}
    (h : Rep s (L ++ b :: R) fl) : L.Chain' NoAdj ∧ R.Chain' NoAdj := by
  have := h.noadj
  rw [List.chain'_append] at this
  exact ⟨this.1, (List.chain'_cons'.1 this.2.1).2⟩

theorem mem_around {L R : List Blk} {b c : Blk} (hc : c ∈ L ++ R) : c ∈ L ++ b :: R := by
  rcases List.mem_append.1 hc with h | h
  · exact List.mem_append_left _ h
  · exact List.mem_append_right _ (List.mem_cons_of_mem _ h)

/-- Marking a block free, as `mm_free` does before it calls `coalesce`. -/
theorem PreCo_of_free {s : State} {L R : List Blk} {b : Blk} {fl : List Nat}
    (h : Rep s (L ++ b :: R) fl) (hb : b.alloc = 1) :
    PreCo (retag s b.bp b.size 0) L ⟨b.bp, b.size, 0⟩ R fl := by
  obtain ⟨_, hsL, hsR, _, hb1, hb2, hb3, hb4, hb5⟩ := h.heap.around
  have h0 : Heap s (L ++ (b :: []) ++ R) fl := by simpa using h.heap
  have htot : total (b :: []) = b.size := by simp [total]
  have k := Heap_retag h0 b.size 0 hb3 hb4 (by omega) (by rw [htot]) (by rw [htot]; omega)
    (by simp)
  have hrest : restBlk b.bp (total (b :: [])) b.size = [] := by simp [restBlk, htot]
  rw [hrest] at k
  refine ⟨by simpa using k, rfl, ?_, fun c hc => h.written c (mem_around hc),
    fun c hc h0 => h.sync c (mem_around hc) h0, fun x hx c hc e => h.free x hx c (mem_around hc) e,
    h.chainL.1, h.chainL.2⟩
  intro hm
  have := h.free b.bp hm b (by simp) rfl
  omega

/-- The function `mm_free` on an allocated block of a state that satisfies the
invariant. -/
theorem mm_free_rep {s : State} {L R : List Blk} {b : Blk} {fl : List Nat}
    (h : Rep s (L ++ b :: R) fl) (hb : b.alloc = 1) :
    ∃ s', mm_free s b.bp = .ok s' ∧
      Rep s' (mergedBlocks L ⟨b.bp, b.size, 0⟩ R) (mergedFree L ⟨b.bp, b.size, 0⟩ fl) ∧
      Regs s s' ∧
      (∀ c ∈ L ++ R, c.alloc = 1 → ∀ a, c.bp ≤ a → a < c.bp + c.size - 8 →
        s'.mem a = s.mem a) := by
  obtain ⟨_, hsL, hsR, _, hb1, hb2, hb3, hb4, hb5⟩ := h.heap.around
  obtain ⟨t1, t2, t3, t4⟩ := hb5 (by omega)
  have hlo := h.heap.layout.lo_le
  have hhi := h.heap.layout.hi_lt
  have hbrk := h.heap.layout.brk_le
  have r1 : GET_SIZE s (HDRP b.bp) = .ok b.size := by
    rw [GET_SIZE_hdr s _ ⟨by omega, by omega⟩ (by omega) (by omega), t1]
  obtain ⟨w1, w2, w3⟩ := retag_eval s b.bp b.size 0 (by omega) hb3 hb4 (by omega) (by omega)
    (by omega) (by omega)
  have pre := PreCo_of_free h hb
  obtain ⟨s', e1, e2, e3, e4⟩ := coalesce_rep pre
  have e1' : coalesce (retag s b.bp b.size 0) b.bp
      = .ok (mergedBp L ⟨b.bp, b.size, 0⟩, s') := e1
  have hne : b.bp ≠ 0 := by omega
  refine ⟨s', ?_, e2, Regs.trans (retag_regs _ _ _ _) e3, ?_⟩
  · unfold mm_free
    simp only [r1, ok_bind, hne, if_false, w1, w2, w3, e1']
    rfl
  · intro c hc hc1 a a1 a2
    rw [e4 c hc hc1 a a1 a2]
    have hcm := Seg_mem h.heap.layout.seg c (mem_around hc)
    have hbB : b ∈ L ++ b :: R := by simp
    have hcb : c.bp + c.size ≤ b.bp ∨ b.bp + b.size ≤ c.bp := by
      rcases Seg_apart h.heap.layout.seg c (mem_around hc) b hbB with e | e | e
      · exfalso
        have := (pre.ne_b hc)
        exact this (by rw [e])
      · exact Or.inl e
      · exact Or.inr e
    exact retag_mem_other _ _ _ _ _ (by omega) (by omega) (by omega)

/-! ## `place` -/

/-- The payload of an allocated block lies apart from every node of the free
list and from the prologue word. -/
theorem Rep.payload_apart {s : State} {B : List Blk} {fl : List Nat} (h : Rep s B fl)
    {c : Blk} (hc : c ∈ B) (hc1 : c.alloc = 1) {a : Nat}
    (h1 : c.bp ≤ a) (h2 : a < c.bp + c.size - 8) :
    (∀ y ∈ fl, a < y ∨ y + 8 ≤ a) ∧ (a < s.heap_listp + 8 ∨ s.heap_listp + 12 ≤ a) := by
  have hseg := h.heap.layout.seg
  have hcm := Seg_mem hseg c hc
  refine ⟨?_, by omega⟩
  intro y hy
  obtain ⟨d, hd, e1, _, _, _⟩ := h.heap.node hy
  have hdm := Seg_mem hseg d hd
  rcases Seg_apart hseg c hc d hd with e | e | e
  · exfalso
    have := h.free y hy d hd e1
    rw [← e] at this
    omega
  · omega
  · omega

theorem Rep.next_of_free {s : State} {L R : List Blk} {b : Blk} {fl : List Nat}
    (h : Rep s (L ++ b :: R) fl) (hb : b.alloc = 0) : nextAlloc R = 1 := by
  have hc := (List.chain'_append.1 h.noadj).2.1
  cases R with
  | nil => rfl
  | cons n R' =>
    rw [List.chain'_cons] at hc
    have hw := h.written n (by simp)
    show n.alloc = 1
    have : n.alloc ≠ 0 := fun h0 => hc.1 ⟨hb, h0⟩
    omega

theorem merged_none {s : State} {L R : List Blk} {b : Blk} {fl : List Nat}
    (pre : PreCo s L b R fl) (hp : prevAlloc L = 1) (hn : nextAlloc R = 1) :
    mergedBlocks L b R = L ++ b :: R ∧ mergedFree L b fl = b.bp :: fl ∧ mergedBp L b = b.bp := by
  refine ⟨?_, ?_, ?_⟩
  · unfold mergedBlocks mergedBp mergedSize
    simp only [hp, hn, one_ne_zero, if_false, Nat.add_zero]
    rw [← pre.bfree, Blk.eta]
  · unfold mergedFree mergedBp
    simp only [hp, one_ne_zero, if_false]
    rw [List.erase_of_not_mem (pre.prev_notin hp), List.erase_of_not_mem (pre.next_notin hn)]
  · unfold mergedBp; simp [hp]

/-- A block of the sequence other than `b` lies before or after `b`. -/
theorem around_apart {m : Nat → Nat} {L R : List Blk} {b c : Blk} {a e : Nat}
    (h : Seg m a (L ++ b :: R) e) (hc : c ∈ L ++ R) :
    c.bp ≠ b.bp ∧ (c.bp + c.size ≤ b.bp ∨ b.bp + b.size ≤ c.bp) ∧ 16 ≤ c.size := by
  obtain ⟨h1, h2, h3⟩ := Seg_split_bounds h
  have hcm := Seg_mem h c (mem_around hc)
  rcases List.mem_append.1 hc with h' | h'
  · have := h1 c h'; exact ⟨by omega, by omega, by omega⟩
  · have := h2 c h'; exact ⟨by omega, by omega, by omega⟩

/-- The function `place` when the whole block is handed out. -/
theorem place_whole {s : State} {L R : List Blk} {b : Blk} {fl : List Nat} {asize : Nat}
    (h : Rep s (L ++ b :: R) fl) (hb : b.alloc = 0) (hle : asize ≤ b.size)
    (hsmall : ¬ 16 ≤ b.size - asize) :
    ∃ s', place s b.bp asize = .ok s' ∧ Rep s' (L ++ ⟨b.bp, b.size, 1⟩ :: R) (fl.erase b.bp) ∧
      Regs s s' ∧
      (∀ c ∈ L ++ R, c.alloc = 1 → ∀ a, c.bp ≤ a → a < c.bp + c.size - 8 →
        s'.mem a = s.mem a) := by
  obtain ⟨_, hsL, hsR, _, hb1, hb2, hb3, hb4, hb5⟩ := h.heap.around
  obtain ⟨t1, t2, t3, t4⟩ := hb5 (by omega)
  have hlo := h.heap.layout.lo_le
  have hhi := h.heap.layout.hi_lt
  have hbrk := h.heap.layout.brk_le
  have hseg := h.heap.layout.seg
  have hbf : b.bp ∈ fl := h.sync b (by simp) hb
  have r1 : GET_SIZE s (HDRP b.bp) = .ok b.size := by
    rw [GET_SIZE_hdr s _ ⟨by omega, by omega⟩ (by omega) (by omega), t1]
  have esub : sub32 b.size asize = b.size - asize := sub32_eq _ _ hle (by omega)
  obtain ⟨w1, w2, w3⟩ := retag_eval s b.bp b.size 1 (by omega) hb3 hb4 (by omega) (by omega)
    (by omega) (by omega)
  have h0 : Heap s (L ++ (b :: []) ++ R) fl := by simpa using h.heap
  have htot : total (b :: []) = b.size := by simp [total]
  have k := Heap_retag h0 b.size 1 hb3 hb4 (by omega) (by rw [htot]) (by rw [htot]; omega)
    (by simp)
  have hrest : restBlk b.bp (total (b :: [])) b.size = [] := by simp [restBlk, htot]
  rw [hrest] at k
  have k1 : Heap (retag s b.bp b.size 1) (L ++ ⟨b.bp, b.size, 1⟩ :: R) fl := by simpa using k
  obtain ⟨s2, e2, k2, g2, f2⟩ := Heap_remove k1 hbf
  have hnot : ¬ (4 * WSIZE ≤ b.size - asize) := by unfold WSIZE; omega
  refine ⟨s2, ?_, ?_, Regs.trans (retag_regs _ _ _ _) g2, ?_⟩
  · unfold place
    simp only [r1, ok_bind, esub, ge_iff_le, hnot, if_false, w1, w2, w3, e2]
  · refine Rep_of_parts k2 (by show 1 ≤ 1; omega) (fun h1 => absurd h1 (by simp)) ?_
      (fun c hc => h.written c (mem_around hc)) ?_ ?_ h.chainL.1 h.chainL.2
      (fun h1 => absurd h1 (by simp))
    · intro hm
      exact absurd hm (List.Nodup.not_mem_erase h.heap.nodup)
    · intro c hc h0
      exact (List.mem_erase_of_ne (around_apart hseg hc).1).2 (h.sync c (mem_around hc) h0)
    · intro x hx c hc hcx
      exact h.free x (List.mem_of_mem_erase hx) c (mem_around hc) hcx
  · intro c hc hc1 a a1 a2
    obtain ⟨q1, q2⟩ := h.payload_apart (mem_around hc) hc1 a1 a2
    obtain ⟨z1, z2, z3⟩ := around_apart hseg hc
    have hcm := Seg_mem hseg c (mem_around hc)
    rw [f2 a (fun y hy _ => q1 y hy) q2]
    exact retag_mem_other _ _ _ _ _ (by omega) (by omega) (by omega)

/-- The function `place` when the block is split. -/
theorem place_split {s : State} {L R : List Blk} {b : Blk} {fl : List Nat} {asize : Nat}
    (h : Rep s (L ++ b :: R) fl) (hb : b.alloc = 0) (h16 : 16 ≤ asize) (h8 : asize % 8 = 0)
    (hle : asize ≤ b.size) (hbig : 16 ≤ b.size - asize) :
    ∃ s', place s b.bp asize = .ok s' ∧
      Rep s' (L ++ ⟨b.bp, asize, 1⟩ :: ⟨b.bp + asize, b.size - asize, 0⟩ :: R)
        ((b.bp + asize) :: fl.erase b.bp) ∧
      Regs s s' ∧
      (∀ c ∈ L ++ R, c.alloc = 1 → ∀ a, c.bp ≤ a → a < c.bp + c.size - 8 →
        s'.mem a = s.mem a) := by
  obtain ⟨_, hsL, hsR, _, hb1, hb2, hb3, hb4, hb5⟩ := h.heap.around
  obtain ⟨t1, t2, t3, t4⟩ := hb5 (by omega)
  have hlo := h.heap.layout.lo_le
  have hhi := h.heap.layout.hi_lt
  have hbrk := h.heap.layout.brk_le
  have hseg := h.heap.layout.seg
  have hbf : b.bp ∈ fl := h.sync b (by simp) hb
  have r1 : GET_SIZE s (HDRP b.bp) = .ok b.size := by
    rw [GET_SIZE_hdr s _ ⟨by omega, by omega⟩ (by omega) (by omega), t1]
  have esub : sub32 b.size asize = b.size - asize := sub32_eq _ _ hle (by omega)
  -- the allocated part
  obtain ⟨w1, w2, w3⟩ := retag_eval s b.bp asize 1 (by omega) h16 h8 (by omega) (by omega)
    (by omega) (by omega)
  have h0 : Heap s (L ++ (b :: []) ++ R) fl := by simpa using h.heap
  have htot : total (b :: []) = b.size := by simp [total]
  have k := Heap_retag h0 asize 1 h16 h8 (by omega) (by rw [htot]; exact hle)
    (by rw [htot]; omega) (by simp)
  have hrest : restBlk b.bp (total (b :: [])) asize = [⟨b.bp + asize, b.size - asize, 2⟩] := by
    have : ¬ (b.size - asize = 0) := by omega
    simp [restBlk, htot, this]
  rw [hrest] at k
  have k1 : Heap (retag s b.bp asize 1)
      (L ++ ⟨b.bp, asize, 1⟩ :: ⟨b.bp + asize, b.size - asize, 2⟩ :: R) fl := by simpa using k
  obtain ⟨s2, e2, k2, g2, f2⟩ := Heap_remove k1 hbf
  obtain ⟨g21, g22, g23, g24, g25, g26⟩ := g2
  -- the next block pointer is read from the new header
  have hA : Tagged s2.mem ⟨b.bp, asize, 1⟩ :=
    (Seg_mem k2.layout.seg ⟨b.bp, asize, 1⟩ (by simp)).2.2.2.2 (by show 1 ≤ 1; omega)
  have r2 : NEXT_BLKP s2 b.bp = .ok (b.bp + asize) :=
    NEXT_BLKP_ok s2 b.bp asize ⟨by rw [g21]; show s.lo ≤ _; omega, by rw [g22]; show _ ≤ s.brk; omega⟩
      (by omega) hA.1 (by omega)
  -- the remainder
  obtain ⟨v1, v2, v3⟩ := retag_eval s2 (b.bp + asize) (b.size - asize) 0 (by omega) hbig
    (by omega) (by omega) (by rw [g21]; show s.lo ≤ _; omega) (by rw [g22]; show _ ≤ s.brk; omega)
    (by rw [g22]; show s.brk < _; omega)
  have k2' : Heap s2 ((L ++ [⟨b.bp, asize, 1⟩]) ++ (⟨b.bp + asize, b.size - asize, 2⟩ :: []) ++ R)
      (fl.erase b.bp) := by simpa using k2
  have htot2 : total ((⟨b.bp + asize, b.size - asize, 2⟩ : Blk) :: []) = b.size - asize := by
    simp [total]
  have k3 := Heap_retag k2' (b.size - asize) 0 hbig (by omega) (by omega) (by rw [htot2])
    (by rw [htot2]; omega) (by simp)
  have hrest2 : restBlk (b.bp + asize)
      (total ((⟨b.bp + asize, b.size - asize, 2⟩ : Blk) :: [])) (b.size - asize) = [] := by
    simp [restBlk, htot2]
  rw [hrest2] at k3
  have k3' : Heap (retag s2 (b.bp + asize) (b.size - asize) 0)
      ((L ++ [⟨b.bp, asize, 1⟩]) ++ ⟨b.bp + asize, b.size - asize, 0⟩ :: R) (fl.erase b.bp) := by
    simpa using k3
  -- the remainder goes through `coalesce`
  have hnotin : b.bp + asize ∉ fl.erase b.bp := by
    intro hm
    obtain ⟨d, hd, e1, _, _, _⟩ := h.heap.node (List.mem_of_mem_erase hm)
    have hdm := Seg_mem hseg d hd
    rcases Seg_apart hseg d hd b (by simp) with e | e | e
    · rw [e] at e1; omega
    · omega
    · omega
  have hmemA : ∀ c, c ∈ (L ++ [⟨b.bp, asize, 1⟩]) ++ R →
      c = ⟨b.bp, asize, 1⟩ ∨ c ∈ L ++ R := by
    intro c hc
    simp only [List.mem_append, List.mem_singleton] at hc ⊢
    tauto
  have pre : PreCo (retag s2 (b.bp + asize) (b.size - asize) 0) (L ++ [⟨b.bp, asize, 1⟩])
      ⟨b.bp + asize, b.size - asize, 0⟩ R (fl.erase b.bp) := by
    refine ⟨k3', rfl, hnotin, ?_, ?_, ?_, ?_, h.chainL.2⟩
    · intro c hc
      rcases hmemA c hc with e | hc
      · rw [e]
      · exact h.written c (mem_around hc)
    · intro c hc h0
      rcases hmemA c hc with e | hc
      · rw [e] at h0; exact absurd h0 (by simp)
      · exact (List.mem_erase_of_ne (around_apart hseg hc).1).2 (h.sync c (mem_around hc) h0)
    · intro x hx c hc hcx
      rcases hmemA c hc with e | hc
      · rw [e] at hcx
        exact absurd (hcx ▸ hx) (List.Nodup.not_mem_erase h.heap.nodup)
      · exact h.free x (List.mem_of_mem_erase hx) c (mem_around hc) hcx
    · rw [List.chain'_append]
      refine ⟨h.chainL.1, List.chain'_singleton _, ?_⟩
      intro x _ y hy hxy
      simp only [List.head?_cons, Option.mem_def, Option.some.injEq] at hy
      rw [← hy] at hxy
      exact absurd hxy.2 (by simp)
  obtain ⟨s4, e4, k4, g4, f4⟩ := coalesce_rep pre
  have hpA : prevAlloc (L ++ [⟨b.bp, asize, 1⟩]) = 1 := by rw [prevAlloc_concat]
  obtain ⟨m1, m2, m3⟩ := merged_none pre hpA (h.next_of_free hb)
  rw [m1, m2] at k4
  rw [m3] at e4
  have e4' : coalesce (retag s2 (b.bp + asize) (b.size - asize) 0) (b.bp + asize)
      = .ok (b.bp + asize, s4) := e4
  have hyes : 4 * WSIZE ≤ b.size - asize := by unfold WSIZE; omega
  refine ⟨s4, ?_, by simpa using k4, ?_, ?_⟩
  · unfold place
    simp only [r1, ok_bind, esub, ge_iff_le, hyes, if_true, w1, w2, w3, e2, r2, v1, v2, v3, e4']
    rfl
  · exact Regs.trans (retag_regs _ _ _ _) (Regs.trans ⟨g21, g22, g23, g24, g25, g26⟩
      (Regs.trans (retag_regs _ _ _ _) g4))
  · intro c hc hc1 a a1 a2
    obtain ⟨q1, q2⟩ := h.payload_apart (mem_around hc) hc1 a1 a2
    obtain ⟨z1, z2, z3⟩ := around_apart hseg hc
    have hcm := Seg_mem hseg c (mem_around hc)
    have hcA : c ∈ (L ++ [⟨b.bp, asize, 1⟩]) ++ R := by
      rcases List.mem_append.1 hc with h' | h'
      · exact List.mem_append_left _ (List.mem_append_left _ h')
      · exact List.mem_append_right _ h'
    rw [f4 c hcA hc1 a a1 a2]
    rw [retag_mem_other _ _ _ _ _ (by omega) (by omega) (by omega)]
    rw [f2 a (fun y hy _ => q1 y hy) q2]
    exact retag_mem_other _ _ _ _ _ (by omega) (by omega) (by omega)

/-- The function `place` on a free block of a state that satisfies the
invariant, for an aligned size that fits. -/
theorem place_rep {s : State} {L R : List Blk} {b : Blk} {fl : List Nat} {asize : Nat}
    (h : Rep s (L ++ b :: R) fl) (hb : b.alloc = 0) (h16 : 16 ≤ asize) (h8 : asize % 8 = 0)
    (hle : asize ≤ b.size) :
    ∃ s', place s b.bp asize = .ok s' ∧
      Rep s' (placedBlocks L b R asize) (placedFree b fl asize) ∧ Regs s s' ∧
      (∀ c ∈ L ++ R, c.alloc = 1 → ∀ a, c.bp ≤ a → a < c.bp + c.size - 8 →
        s'.mem a = s.mem a) := by
  by_cases hbig : 16 ≤ b.size - asize
  · obtain ⟨s', e1, e2, e3, e4⟩ := place_split h hb h16 h8 hle hbig
    refine ⟨s', e1, ?_, e3, e4⟩
    unfold placedBlocks placedFree
    simpa [hbig] using e2
  · obtain ⟨s', e1, e2, e3, e4⟩ := place_whole h hb hle hbig
    refine ⟨s', e1, ?_, e3, e4⟩
    unfold placedBlocks placedFree
    simpa [hbig] using e2

/-! ## `extend_heap` -/

theorem extSize_bounds (words : Nat) :
    16 ≤ extSize words ∧ extSize words % 8 = 0 ∧ extSize words < 4294967296 := by
  simp only [extSize, mul32, add32, WSIZE]
  split_ifs <;> omega

theorem toInt32_ne_neg_one (x : Nat) (h : x < 4294967295) : toInt32 x ≠ -1 := by
  unfold toInt32
  split <;> omega

theorem Rep.toPreExt {s : State} {B : List Blk} {fl : List Nat} (h : Rep s B fl) :
    PreExt s B fl :=
  ⟨h.heap.layout.lo_le, h.heap.layout.hi_lt, h.heap.layout.brk_le, h.heap.layout.seg,
    h.heap.layout.gap, h.heap.layout.prologue, h.heap.links, h.heap.head, h.heap.nodup,
    h.written, h.sync, fun x hx => by
      obtain ⟨b, hb, e⟩ := h.heap.sub x hx
      exact ⟨b, hb, e, h.free x hx b hb e⟩, h.noadj⟩

theorem extend_heap_fail (s : State) (words : Nat) (h : ¬ (s.brk + extSize words ≤ s.hi)) :
    extend_heap s words = .ok (0, s) := by
  unfold extend_heap
  have e : (if (if words % 2 ≠ 0 then mul32 (add32 words 1) WSIZE else mul32 words WSIZE) < 16
      then 16 else (if words % 2 ≠ 0 then mul32 (add32 words 1) WSIZE else mul32 words WSIZE))
      = extSize words := rfl
  simp only [e, mem_sbrk, h, if_false]
  have : toInt32 4294967295 = -1 := by decide
  simp [this]

/-- The state right after the three stores of `extend_heap`. -/
theorem extend_heap_eval (s : State) (words : Nat) (h : s.brk + extSize words ≤ s.hi)
    (h4 : s.lo + 4 ≤ s.brk) (hhi : s.hi < 4294967296) :
    extend_heap s words =
      coalesce (putw (retag { s with brk := s.brk + extSize words } s.brk (extSize words) 0)
        (s.brk + extSize words - 4) 0 1) s.brk := by
  obtain ⟨b1, b2, b3⟩ := extSize_bounds words
  unfold extend_heap
  have e : (if (if words % 2 ≠ 0 then mul32 (add32 words 1) WSIZE else mul32 words WSIZE) < 16
      then 16 else (if words % 2 ≠ 0 then mul32 (add32 words 1) WSIZE else mul32 words WSIZE))
      = extSize words := rfl
  have hne := toInt32_ne_neg_one s.brk (by omega)
  obtain ⟨w1, w2, w3⟩ := retag_eval { s with brk := s.brk + extSize words } s.brk
    (extSize words) 0 (by omega) b1 b2 (by omega) (by show s.lo ≤ _; omega)
    (by show _ ≤ s.brk + extSize words; omega) (by show s.brk + extSize words < _; omega)
  have r1 : NEXT_BLKP (retag { s with brk := s.brk + extSize words } s.brk (extSize words) 0)
      s.brk = .ok (s.brk + extSize words) :=
    NEXT_BLKP_ok _ _ _ ⟨by show s.lo ≤ _; omega, by show _ ≤ s.brk + extSize words; omega⟩
      (by omega)
      (retag_tagged _ _ _ _ (by omega) b1 b2 (by omega) b3).1 (by omega)
  have r2 : PUT (retag { s with brk := s.brk + extSize words } s.brk (extSize words) 0)
      (HDRP (s.brk + extSize words)) (PACK 0 1)
      = .ok (putw (retag { s with brk := s.brk + extSize words } s.brk (extSize words) 0)
        (s.brk + extSize words - 4) 0 1) := by
    rw [HDRP_eq _ (by omega) (by omega)]
    exact PUT_putw _ _ 0 1 ⟨by show s.lo ≤ _; omega, by show _ ≤ s.brk + extSize words; omega⟩
      (by omega) (by omega)
  simp only [e, mem_sbrk, h, if_true, hne, if_false, w1, w2, w3, r1, r2, ok_bind]

/-- The state in which `extend_heap` calls `coalesce`. -/
theorem PreCo_of_extend {s : State} {B : List Blk} {fl : List Nat} (h : PreExt s B fl)
    (n : Nat) (hn16 : 16 ≤ n) (hn8 : n % 8 = 0) (hok : s.brk + n ≤ s.hi) :
    PreCo (putw (retag { s with brk := s.brk + n } s.brk n 0) (s.brk + n - 4) 0 1)
      B ⟨s.brk, n, 0⟩ [] fl := by
  have hb := Seg_le h.seg
  have hlo := h.lo_le
  have hhi := h.hi_lt
  have hsub : ∀ x ∈ fl, ∃ b ∈ B, b.bp = x := fun x hx => by
    obtain ⟨b, hb, e, _⟩ := h.free x hx
    exact ⟨b, hb, e⟩
  have hnode : ∀ y ∈ fl, s.heap_listp + 32 ≤ y ∧ y + 16 ≤ s.brk := by
    intro y hy
    obtain ⟨b, hb, e, _⟩ := h.free y hy
    have := Seg_mem h.seg b hb
    omega
  -- the three stores
  have hmem : (putw (retag { s with brk := s.brk + n } s.brk n 0) (s.brk + n - 4) 0 1).mem
      = store32 (store32 (store32 s.mem (s.brk - 4) (n + 0 + 2 * (load32 s.mem (s.brk - 4) / 2 % 2)))
          (s.brk + n - 8) (n + 0 + 2 * (load32 (store32 s.mem (s.brk - 4)
            (n + 0 + 2 * (load32 s.mem (s.brk - 4) / 2 % 2))) (s.brk + n - 8) / 2 % 2)))
          (s.brk + n - 4) (0 + 1 + 2 * (load32 (retag { s with brk := s.brk + n } s.brk n 0).mem
            (s.brk + n - 4) / 2 % 2)) := rfl
  have hoth : ∀ q, q + 4 ≤ s.brk - 4 →
      load32 (putw (retag { s with brk := s.brk + n } s.brk n 0) (s.brk + n - 4) 0 1).mem q
        = load32 s.mem q := by
    intro q hq
    rw [putw_other _ _ _ _ _ (by omega), retag_load_other _ _ _ _ _ (by omega) (by omega)
      (by omega)]
  have htag : Tagged (putw (retag { s with brk := s.brk + n } s.brk n 0) (s.brk + n - 4) 0 1).mem
      ⟨s.brk, n, 0⟩ := by
    obtain ⟨t1, t2, t3, t4⟩ := retag_tagged { s with brk := s.brk + n } s.brk n 0 (by omega)
      hn16 hn8 (by omega) (by omega)
    unfold Tagged
    simp only
    rw [putw_other _ _ _ _ _ (by omega), putw_other _ _ _ _ _ (by omega)]
    exact ⟨t1, t2, t3, t4⟩
  have hheap : Heap (putw (retag { s with brk := s.brk + n } s.brk n 0) (s.brk + n - 4) 0 1)
      (B ++ ⟨s.brk, n, 0⟩ :: []) fl := by
    refine ⟨⟨hlo, hhi, hok, ?_, ?_, ?_, ?_⟩, ?_, h.head, h.nodup, ?_⟩
    · show Seg _ (s.heap_listp + 32) _ (s.brk + n)
      rw [Seg_append]
      refine ⟨s.brk, ?_, ⟨rfl, hn16, hn8, fun _ => htag, rfl⟩⟩
      rw [hmem]
      exact Seg_store_above _ _ (by omega) (by omega) (Seg_store_above _ _ (by omega) (by omega)
        (Seg_store_above _ _ (by omega) (by omega) h.seg))
    · show load32 _ (s.heap_listp + 24) / 8 * 8 = 0
      rw [hoth _ (by omega)]; exact h.gap
    · show load32 _ (s.heap_listp + 4) % 2 = 1
      rw [hoth _ (by omega)]; exact h.prologue
    · show load32 (putw (retag { s with brk := s.brk + n } s.brk n 0) (s.brk + n - 4) 0 1).mem
          (s.brk + n - 4) / 8 * 8 = 0 ∧
        load32 (putw (retag { s with brk := s.brk + n } s.brk n 0) (s.brk + n - 4) 0 1).mem
          (s.brk + n - 4) % 2 = 1
      exact putw_same _ _ 0 1 (by omega) (by omega) (by omega)
    · show Links _ (s.heap_listp + 8) 0 fl
      rw [hmem]
      apply Links_store
      · intro y hy; have := hnode y hy; omega
      · apply Links_store
        · intro y hy; have := hnode y hy; omega
        · apply Links_store _ _ _ h.links
          intro y hy; have := hnode y hy; omega
    · intro x hx
      obtain ⟨b, hb, e⟩ := hsub x hx
      exact ⟨b, List.mem_append_left _ hb, e⟩
  refine ⟨hheap, rfl, ?_, ?_, ?_, ?_, h.noadj, List.chain'_nil⟩
  · intro hm
    have := hnode s.brk hm
    omega
  · intro c hc
    exact h.written c (by simpa using hc)
  · intro c hc h0
    exact h.sync c (by simpa using hc) h0
  · intro x hx c hc e
    obtain ⟨d, hd, e1, e2⟩ := h.free x hx
    have hc' : c ∈ B := by simpa using hc
    have := Seg_bp_inj h.seg hc' hd (e.trans e1.symm)
    rw [this]; exact e2

/-- The function `extend_heap` when the provider grants the request: the new
stretch becomes a free block, merged with a free last block. -/
theorem extend_heap_rep {s : State} {B : List Blk} {fl : List Nat} (h : PreExt s B fl)
    (words : Nat) (hok : s.brk + extSize words ≤ s.hi) :
    ∃ s', extend_heap s words = .ok (mergedBp B ⟨s.brk, extSize words, 0⟩, s') ∧
      Rep s' (mergedBlocks B ⟨s.brk, extSize words, 0⟩ [])
        (mergedFree B ⟨s.brk, extSize words, 0⟩ fl) ∧
      Grown s s' (extSize words) ∧
      (∀ c ∈ B, c.alloc = 1 → ∀ a, c.bp ≤ a → a < c.bp + c.size - 8 → s'.mem a = s.mem a) := by
  obtain ⟨b1, b2, b3⟩ := extSize_bounds words
  have hb := Seg_le h.seg
  have hlo := h.lo_le
  have pre := PreCo_of_extend h (extSize words) b1 b2 hok
  obtain ⟨s', e1, e2, e3, e4⟩ := coalesce_rep pre
  obtain ⟨g1, g2, g3, g4, g5, g6⟩ := e3
  refine ⟨s', ?_, e2, ⟨g1, g2, g3, g4, g5, g6⟩, ?_⟩
  · rw [extend_heap_eval s words hok (by omega) h.hi_lt]
    exact e1
  · intro c hc hc1 a a1 a2
    rw [e4 c (by simpa using hc) hc1 a a1 a2]
    have := Seg_mem h.seg c hc
    rw [putw_mem_other _ _ _ _ _ (by omega), retag_mem_other _ _ _ _ _ (by omega) (by omega)
      (by omega)]

/-! ## `fit` -/

theorem Rep_congr {s s' : State} {B : List Blk} {fl : List Nat} (hs : SameHeap s s')
    (h : Rep s B fl) : Rep s' B fl := by
  obtain ⟨e1, e2, e3, e4, e5, e6⟩ := hs
  have hl := h.heap.layout
  refine ⟨⟨⟨?_, ?_, ?_, ?_, ?_, ?_, ?_⟩, ?_, ?_, h.heap.nodup, h.heap.sub⟩, h.written, h.sync,
    h.free, h.noadj⟩
  · rw [e2, e5]; exact hl.lo_le
  · rw [e4]; exact hl.hi_lt
  · rw [e3, e4]; exact hl.brk_le
  · rw [e1, e5, e3]; exact hl.seg
  · rw [e1, e5]; exact hl.gap
  · rw [e1, e5]; exact hl.prologue
  · rw [e1, e3]; exact hl.epilogue
  · rw [e1, e5]; exact h.heap.links
  · rw [e6, e5]; exact h.heap.head

theorem firstFit_nil (s : State) (asize : Nat) : firstFit s [] asize = 0 := rfl

theorem firstFit_cons (s : State) (y : Nat) (R : List Nat) (asize : Nat) :
    firstFit s (y :: R) asize
      = if asize ≤ load32 s.mem (y - 4) / 8 * 8 then y else firstFit s R asize := by
  unfold firstFit
  rw [List.find?_cons]
  by_cases h : asize ≤ load32 s.mem (y - 4) / 8 * 8
  · simp [h]
  · simp [h]

theorem firstFit_spec (s : State) (asize : Nat) : ∀ (R : List Nat), (∀ y ∈ R, y ≠ 0) →
    (firstFit s R asize = 0 ∧ ∀ y ∈ R, ¬ asize ≤ load32 s.mem (y - 4) / 8 * 8) ∨
    (firstFit s R asize ∈ R ∧ asize ≤ load32 s.mem (firstFit s R asize - 4) / 8 * 8)
  | [], _ => Or.inl ⟨rfl, by simp⟩
  | y :: R, hne => by
    rw [firstFit_cons]
    by_cases h : asize ≤ load32 s.mem (y - 4) / 8 * 8
    · rw [if_pos h]
      exact Or.inr ⟨List.mem_cons_self _ _, h⟩
    · rw [if_neg h]
      rcases firstFit_spec s asize R (fun z hz => hne z (List.mem_cons_of_mem _ hz)) with h1 | h1
      · refine Or.inl ⟨h1.1, ?_⟩
        intro z hz
        rcases List.mem_cons.1 hz with e | hz
        · rw [e]; exact h
        · exact h1.2 z hz
      · exact Or.inr ⟨List.mem_cons_of_mem _ h1.1, h1.2⟩

/-- The scan loop of `fit` from a node of the free list on. -/
theorem fit_scan_spec {s : State} {B : List Blk} {fl : List Nat} (h : Rep s B fl)
    (asize : Nat) : ∀ (R : List Nat) (p fuel : Nat), (∀ y ∈ R, y ∈ fl) →
    Links s.mem (s.heap_listp + 8) p R → R.length < fuel →
    fit_scan s asize fuel (R.headD (s.heap_listp + 8))
      = .ok (firstFit s R asize,
          if firstFit s R asize = 0 then s else { s with lm_size := toInt32 asize })
  | [], p, fuel, _, _, hf => by
    obtain ⟨f, rfl⟩ : ∃ f, fuel = f + 1 := ⟨fuel - 1, by simp at hf; omega⟩
    have hb := h.heap.layout.base_le
    have hlo := h.heap.layout.lo_le
    have hhi := h.heap.layout.hi_lt
    have hbrk := h.heap.layout.brk_le
    have r1 : GET_ALLOC s (HDRP (s.heap_listp + 8)) = .ok 1 := by
      rw [GET_ALLOC_hdr s _ ⟨by omega, by omega⟩ (by omega) (by omega)]
      have : s.heap_listp + 8 - 4 = s.heap_listp + 4 := by omega
      rw [this, h.heap.layout.prologue]
    simp [fit_scan, r1, firstFit_nil]
  | y :: R, p, fuel, hsub, hl, hf => by
    obtain ⟨f, rfl⟩ : ∃ f, fuel = f + 1 := ⟨fuel - 1, by simp at hf; omega⟩
    have hlo := h.heap.layout.lo_le
    have hhi := h.heap.layout.hi_lt
    have hbrk := h.heap.layout.brk_le
    obtain ⟨b, hb, e1, y1, y2, y3⟩ := h.heap.node (hsub y (List.mem_cons_self _ _))
    have hb0 : b.alloc = 0 := h.free y (hsub y (List.mem_cons_self _ _)) b hb e1
    obtain ⟨t1, t2, t3, t4⟩ := (Seg_mem h.heap.layout.seg b hb).2.2.2.2 (by omega)
    rw [e1] at t1 t2
    obtain ⟨k1, k2, k3⟩ := hl
    have r1 : GET_ALLOC s (HDRP y) = .ok 0 := by
      rw [GET_ALLOC_hdr s _ ⟨by omega, by omega⟩ (by omega) (by omega), t2, hb0]
    have r2 : GET_SIZE s (HDRP y) = .ok (load32 s.mem (y - 4) / 8 * 8) :=
      GET_SIZE_hdr s _ ⟨by omega, by omega⟩ (by omega) (by omega)
    have r3 : NEXT s y = .ok (R.headD (s.heap_listp + 8)) := by
      unfold NEXT
      rw [add32_eq _ _ (by unfold WSIZE; omega)]
      show GET s (y + 4) = _
      rw [GET_ok s _ ⟨by omega, by omega⟩, k2]
    have ih := fit_scan_spec h asize R y f (fun z hz => hsub z (List.mem_cons_of_mem _ hz)) k3
      (by simp at hf; omega)
    rw [firstFit_cons]
    have hy0 : y ≠ 0 := by omega
    by_cases hfit : asize ≤ load32 s.mem (y - 4) / 8 * 8
    · simp [fit_scan, r1, r2, hfit, hy0]
    · simp only [fit_scan, r1, r2, ok_bind, if_true, hfit, if_false, r3, List.headD_cons]
      exact ih

theorem Rep.length_le {s : State} {B : List Blk} {fl : List Nat} (h : Rep s B fl) :
    fl.length ≤ s.brk - s.lo := by
  have hsub : fl ⊆ List.range' s.lo (s.brk - s.lo) := by
    intro y hy
    obtain ⟨b, hb, e1, y1, y2, y3⟩ := h.heap.node hy
    have := h.heap.layout.lo_le
    rw [List.mem_range'_1]
    omega
  have := (List.Nodup.subperm h.heap.nodup hsub).length_le
  simpa using this

/-! ### The arithmetic of the request sizes -/

theorem ALIGN_eq (x : Nat) (h : x + 7 < 4294967296) : ALIGN x = (x + 7) / 8 * 8 := by
  unfold ALIGN ALIGNMENT
  rw [add32_eq _ _ (by omega), and_mask_eq _ (by omega)]

/-- The adjusted size of a request that does not wrap around. -/
theorem adjust_bounds (size : Nat) (h0 : 0 < size) (h1 : size ≤ 4294967280) :
    16 ≤ adjust size ∧ adjust size % 8 = 0 ∧ size + 8 ≤ adjust size ∧
      adjust size < 4294967296 := by
  unfold adjust DSIZE
  by_cases h : size ≤ 8
  · rw [if_pos h]; omega
  · rw [if_neg h, add32_eq _ _ (by omega), ALIGN_eq _ (by omega)]
    omega

/-- The word count that the repeat-size escape passes to `extend_heap` makes it
ask for exactly the adjusted size. -/
theorem escape_size (asize : Nat) (h16 : 16 ≤ asize) (h8 : asize % 8 = 0)
    (h32 : asize < 4294967296) :
    extSize (ofInt32 (Int.tdiv (toInt32 (MAX asize (4 * WSIZE))) 4)) = asize := by
  have hmax : MAX asize (4 * WSIZE) = asize := by
    unfold MAX WSIZE
    split <;> omega
  rw [hmax]
  unfold toInt32
  have hm : asize % 4294967296 = asize := Nat.mod_eq_of_lt h32
  rw [hm]
  by_cases hlt : asize < 2147483648
  · rw [if_pos hlt, Int.tdiv_eq_ediv (by omega) (by omega)]
    have e : ofInt32 ((asize : Int) / 4) = asize / 4 := by
      unfold ofInt32
      omega
    rw [e]
    simp only [extSize, mul32, add32, WSIZE]
    split_ifs <;> omega
  · rw [if_neg hlt]
    have e1 : ((asize : Nat) : Int) - 4294967296 = -(((4294967296 - asize : Nat)) : Int) := by
      omega
    rw [e1, Int.neg_tdiv, Int.tdiv_eq_ediv (by omega) (by omega)]
    have e : ofInt32 (-(((4294967296 - asize : Nat) : Int) / 4)) = 4294967296 - (4294967296 - asize) / 4 := by
      unfold ofInt32
      omega
    rw [e]
    simp only [extSize, mul32, add32, WSIZE]
    split_ifs <;> omega

/-- The words that `mm_malloc` passes to `extend_heap` make it ask for the
larger of the adjusted size and the chunk size. -/
theorem chunk_size (asize : Nat) (h8 : asize % 8 = 0) (h32 : asize < 4294967296) :
    extSize (MAX asize CHUNKSIZE / WSIZE) = MAX asize CHUNKSIZE ∧ asize ≤ MAX asize CHUNKSIZE := by
  have hmax : MAX asize CHUNKSIZE = asize ∨ (MAX asize CHUNKSIZE = 4096 ∧ asize ≤ 4096) := by
    unfold MAX CHUNKSIZE
    split <;> omega
  simp only [extSize, mul32, add32, WSIZE]
  rcases hmax with e | ⟨e, h⟩
  · rw [e]
    unfold MAX CHUNKSIZE at e
    split at e <;> (split_ifs <;> omega)
  · rw [e]
    simp
    omega

/-! ## `mm_malloc` -/

theorem dropLast_concat' (L : List Blk) (p : Blk) : (L ++ [p]).dropLast = L := by
  simp

/-- The allocated blocks are the same before and after `coalesce`. -/
theorem merged_alloc {L R : List Blk} {b : Blk} (hwL : ∀ c ∈ L, c.alloc ≤ 1)
    (hwR : ∀ c ∈ R, c.alloc ≤ 1) (c : Blk) (hc : c.alloc = 1) :
    c ∈ mergedBlocks L b R ↔ c ∈ L ++ R := by
  have hmb : c ≠ ⟨mergedBp L b, mergedSize L b R, 0⟩ := by
    intro e; rw [e] at hc; exact absurd hc (by simp)
  have hL : c ∈ (if prevAlloc L = 0 then L.dropLast else L) ↔ c ∈ L := by
    rcases prev_cases L hwL with hp | ⟨L', p, rfl, hp⟩
    · rw [hp]; simp
    · rw [prevAlloc_concat, hp]
      simp only [if_true, dropLast_concat', List.mem_append, List.mem_singleton]
      constructor
      · exact Or.inl
      · rintro (h | h)
        · exact h
        · rw [h] at hc; omega
  have hR : c ∈ (if nextAlloc R = 0 then R.tail else R) ↔ c ∈ R := by
    rcases next_cases R hwR with hn | ⟨n, R', rfl, hn⟩
    · rw [hn]; simp
    · rw [nextAlloc_cons, hn]
      simp only [if_true, List.tail_cons, List.mem_cons]
      constructor
      · exact Or.inr
      · rintro (h | h)
        · rw [h] at hc; omega
        · exact h
  unfold mergedBlocks
  simp only [List.mem_append, List.mem_cons, hL, hR, hmb, false_or]

/-- The allocated blocks after `place`: those before, and the block handed
out. -/
theorem placed_alloc (L R : List Blk) (b : Blk) (asize : Nat) (c : Blk) (hc : c.alloc = 1) :
    c ∈ placedBlocks L b R asize ↔ c ∈ L ++ R ∨ c = ⟨b.bp, placedSize b asize, 1⟩ := by
  unfold placedBlocks placedSize
  by_cases h : 16 ≤ b.size - asize
  · simp only [h, if_true, List.mem_append, List.mem_cons]
    have : c ≠ ⟨b.bp + asize, b.size - asize, 0⟩ := by
      intro e; rw [e] at hc; exact absurd hc (by simp)
    tauto
  · simp only [h, if_false, List.mem_append, List.mem_cons]
    tauto

theorem placedSize_ge (b : Blk) (asize : Nat) (h : asize ≤ b.size) :
    asize ≤ placedSize b asize ∧ placedSize b asize ≤ b.size := by
  unfold placedSize
  split <;> omega

theorem placed_mem (L R : List Blk) (b : Blk) (asize : Nat) :
    (⟨b.bp, placedSize b asize, 1⟩ : Blk) ∈ placedBlocks L b R asize :=
  (placed_alloc L R b asize _ rfl).2 (Or.inr rfl)

/-- The function `fit` when the repeat-size escape does not fire: the first
node of the free list that is large enough, or `NULL`. -/
theorem fit_scan_rep {s : State} {B : List Blk} {fl : List Nat} (h : Rep s B fl)
    (asize : Nat) (hne : ¬ escapes s asize) :
    ∃ s', fit s asize = .ok (firstFit s fl asize, s') ∧ SameHeap s s' := by
  have hlen := h.length_le
  have key : ∀ rc : Int, ∃ s', fit_scan { s with repcount := rc } asize (s.brk - s.lo + 1) s.lstart
      = .ok (firstFit s fl asize, s') ∧ SameHeap s s' := by
    intro rc
    have h1 : Rep { s with repcount := rc } B fl :=
      @Rep_congr s { s with repcount := rc } B fl ⟨rfl, rfl, rfl, rfl, rfl, rfl⟩ h
    have := fit_scan_spec h1 asize fl 0 (s.brk - s.lo + 1) (fun y hy => hy) h1.heap.links
      (by omega)
    have key2 : ∀ l, l = fl.headD (s.heap_listp + 8) →
        fit_scan { s with repcount := rc } asize (s.brk - s.lo + 1) l
        = .ok (firstFit s fl asize, if firstFit s fl asize = 0 then { s with repcount := rc }
            else { s with repcount := rc, lm_size := toInt32 asize }) := by
      intro l hl
      subst hl
      exact this
    refine ⟨_, key2 s.lstart h.heap.head, ?_⟩
    split
    · exact ⟨rfl, rfl, rfl, rfl, rfl, rfl⟩
    · exact ⟨rfl, rfl, rfl, rfl, rfl, rfl⟩
  unfold fit
  by_cases h1 : s.lm_size = toInt32 asize
  · have h2 : ¬ s.repcount > 30 := fun h2 => hne ⟨h1, h2⟩
    simp only [h1, if_true, h2, if_false]
    rw [← h1]
    exact key _
  · simp only [h1, if_false]
    exact key _

/-- The function `fit` when the repeat-size escape fires. -/
theorem fit_escape (s : State) (asize : Nat) (he : escapes s asize) :
    fit s asize = extend_heap s (ofInt32 (Int.tdiv (toInt32 (MAX asize (4 * WSIZE))) 4)) := by
  unfold fit
  simp only [he.1, if_true, he.2]

theorem mem_split_alloc {L R : List Blk} {b c : Blk} (hc : c ∈ L ++ b :: R) (hne : c ≠ b) :
    c ∈ L ++ R := by
  simp only [List.mem_append, List.mem_cons] at hc ⊢
  tauto

/-- The function `place` on a free block that is large enough. -/
theorem post_place {s : State} {B : List Blk} {fl : List Nat} (h : Rep s B fl) {b : Blk}
    (hb : b ∈ B) (hb0 : b.alloc = 0) {asize : Nat} (h16 : 16 ≤ asize) (h8 : asize % 8 = 0)
    (hle : asize ≤ b.size) :
    ∃ s', place s b.bp asize = .ok s' ∧ MallocPost s B asize b.bp s' ∧ s'.brk = s.brk := by
  obtain ⟨L, R, rfl⟩ := List.append_of_mem hb
  obtain ⟨s', e1, e2, e3, e4⟩ := place_rep h hb0 h16 h8 hle
  obtain ⟨g1, g2, g3, g4, g5, g6⟩ := e3
  have hne : b.bp ≠ 0 := by
    have := h.heap.around.choose_spec.2.2.2.1
    omega
  refine ⟨s', e1, ⟨g1, g3, g4, by omega, _, _, e2, ?_, fun h0 => absurd h0 hne, fun _ => ?_⟩, g2⟩
  · intro c hc hc1
    have hcb : c ≠ b := by intro e; rw [e] at hc1; omega
    have hc' := mem_split_alloc hc hcb
    exact ⟨(placed_alloc L R b asize c hc1).2 (Or.inl hc'), e4 c hc' hc1⟩
  · refine ⟨placedSize b asize, (placedSize_ge b asize hle).1, placed_mem L R b asize, ?_, ?_⟩
    · intro c hc hcb hc1
      have := Seg_bp_inj h.heap.layout.seg hc (List.mem_append_right _ (List.mem_cons_self _ _)) hcb
      rw [this] at hc1
      omega
    intro c hc hc1
    rcases (placed_alloc L R b asize c hc1).1 hc with h' | h'
    · exact Or.inl (mem_around h')
    · exact Or.inr h'

theorem MallocPost_of_same {s s1 s' : State} {B : List Blk} {asize r : Nat}
    (hs : SameHeap s s1) (h : MallocPost s1 B asize r s') : MallocPost s B asize r s' := by
  obtain ⟨e1, e2, e3, e4, e5, e6⟩ := hs
  obtain ⟨a1, a2, a3, a4, B', fl', a5, a6, a7, a8⟩ := h
  refine ⟨a1.trans e2, a2.trans e4, a3.trans e5, by omega, B', fl', a5, ?_, a7, a8⟩
  intro c hc hc1
  obtain ⟨q1, q2⟩ := a6 c hc hc1
  refine ⟨q1, fun a b1 b2 => ?_⟩
  rw [q2 a b1 b2, e1]

theorem post_same {s s' : State} {B : List Blk} {fl : List Nat} (h : Rep s B fl)
    (hs : SameHeap s s') (asize : Nat) : MallocPost s B asize 0 s' := by
  obtain ⟨e1, e2, e3, e4, e5, e6⟩ := hs
  refine ⟨e2, e4, e5, by omega, B, fl, Rep_congr ⟨e1, e2, e3, e4, e5, e6⟩ h, ?_, fun _ c hc _ => hc,
    fun h0 => absurd rfl h0⟩
  intro c hc _
  exact ⟨hc, fun a _ _ => by rw [e1]⟩

/-- The function `extend_heap` granted by the provider, followed by `place`. -/
theorem post_extend_place {s : State} {B : List Blk} {fl : List Nat} (h : Rep s B fl)
    (words : Nat) (hok : s.brk + extSize words ≤ s.hi) {asize : Nat} (h16 : 16 ≤ asize)
    (h8 : asize % 8 = 0) (hle : asize ≤ extSize words) :
    ∃ r s1 s2, extend_heap s words = .ok (r, s1) ∧ r ≠ 0 ∧ place s1 r asize = .ok s2 ∧
      MallocPost s B asize r s2 := by
  obtain ⟨s1, e1, e2, e3, e4⟩ := extend_heap_rep h.toPreExt words hok
  obtain ⟨g1, g2, g3, g4, g5, g6⟩ := e3
  have hmb : (⟨mergedBp B ⟨s.brk, extSize words, 0⟩, mergedSize B ⟨s.brk, extSize words, 0⟩ [], 0⟩ : Blk)
      ∈ mergedBlocks B ⟨s.brk, extSize words, 0⟩ [] := by
    unfold mergedBlocks; simp
  have hsz : asize ≤ mergedSize B ⟨s.brk, extSize words, 0⟩ [] := by
    unfold mergedSize
    show asize ≤ extSize words + _ + _
    omega
  obtain ⟨s2, f1, f2, f3⟩ := post_place e2 hmb rfl h16 h8 hsz
  obtain ⟨a1, a2, a3, a4, B', fl', a5, a6, a7, a8⟩ := f2
  have hr0 : mergedBp B ⟨s.brk, extSize words, 0⟩ ≠ 0 := by
    have := (Seg_mem e2.heap.layout.seg _ hmb).1
    show mergedBp B ⟨s.brk, extSize words, 0⟩ ≠ 0
    have h2 : s1.heap_listp + 32 ≤ mergedBp B ⟨s.brk, extSize words, 0⟩ := this
    omega
  have hal : ∀ c : Blk, c.alloc = 1 → (c ∈ mergedBlocks B ⟨s.brk, extSize words, 0⟩ [] ↔ c ∈ B) := by
    intro c hc
    rw [merged_alloc h.written (by simp) c hc]
    simp
  refine ⟨_, s1, s2, e1, hr0, f1, a1.trans g1, a2.trans g3, a3.trans g4, by omega, B', fl', a5,
    ?_, fun h0 => absurd h0 hr0, fun hne => ?_⟩
  · intro c hc hc1
    obtain ⟨q1, q2⟩ := a6 c ((hal c hc1).2 hc) hc1
    refine ⟨q1, fun a b1 b2 => ?_⟩
    rw [q2 a b1 b2, e4 c hc hc1 a b1 b2]
  · obtain ⟨sz, z1, z2, z4, z3⟩ := a8 hne
    refine ⟨sz, z1, z2, fun c hc hcb hc1 => z4 c ((hal c hc1).2 hc) hcb hc1, fun c hc hc1 => ?_⟩
    rcases z3 c hc hc1 with h' | h'
    · exact Or.inl ((hal c hc1).1 h')
    · exact Or.inr h'

theorem mm_malloc_unfold (s : State) (size : Nat) (h0 : size ≠ 0) :
    mm_malloc s size = (do
      let r ← fit s (adjust size)
      if r.1 ≠ 0 then do
        let s ← place r.2 r.1 (adjust size)
        pure (r.1, s)
      else do
        let r ← extend_heap r.2 (MAX (adjust size) CHUNKSIZE / WSIZE)
        if r.1 = 0 then pure (0, r.2)
        else do
          let s ← place r.2 r.1 (adjust size)
          pure (r.1, s)) := by
  unfold mm_malloc adjust
  simp only [h0, if_false]

/-- What `mm_malloc` does after `fit` has returned `NULL`. -/
theorem malloc_grow {s : State} {B : List Blk} {fl : List Nat} (h : Rep s B fl) {asize : Nat}
    (h16 : 16 ≤ asize) (h8 : asize % 8 = 0) (h32 : asize < 4294967296) :
    ∃ r s', (do
        let r ← extend_heap s (MAX asize CHUNKSIZE / WSIZE)
        if r.1 = 0 then pure (0, r.2)
        else do
          let s ← place r.2 r.1 asize
          pure (r.1, s)) = Except.ok (r, s') ∧ MallocPost s B asize r s' := by
  obtain ⟨c1, c2⟩ := chunk_size asize h8 h32
  by_cases hok : s.brk + extSize (MAX asize CHUNKSIZE / WSIZE) ≤ s.hi
  · obtain ⟨r, s1, s2, e1, e2, e3, e4⟩ := post_extend_place h _ hok h16 h8 (by rw [c1]; exact c2)
    refine ⟨r, s2, ?_, e4⟩
    simp only [e1, ok_bind, e2, if_false, e3]
    rfl
  · refine ⟨0, s, ?_, post_same h ⟨rfl, rfl, rfl, rfl, rfl, rfl⟩ asize⟩
    simp only [extend_heap_fail s _ hok, ok_bind, if_true]
    rfl

/-- The function `mm_malloc` on a state that satisfies the invariant, for a
request whose adjusted size does not wrap around. -/
theorem mm_malloc_rep {s : State} {B : List Blk} {fl : List Nat} (h : Rep s B fl)
    (size : Nat) (h0 : 0 < size) (h1 : size ≤ 4294967280) :
    ∃ r s', mm_malloc s size = .ok (r, s') ∧ MallocPost s B (adjust size) r s' ∧
      (¬ escapes s (adjust size) → firstFit s fl (adjust size) ≠ 0 →
        r = firstFit s fl (adjust size) ∧ s'.brk = s.brk) := by
  obtain ⟨a16, a8, age, a32⟩ := adjust_bounds size h0 h1
  rw [mm_malloc_unfold s size (by omega)]
  by_cases hesc : escapes s (adjust size)
  · -- the repeat-size escape extends the heap
    rw [fit_escape s _ hesc]
    have hs := escape_size (adjust size) a16 a8 a32
    by_cases hok : s.brk + extSize (ofInt32 (Int.tdiv (toInt32 (MAX (adjust size) (4 * WSIZE))) 4))
        ≤ s.hi
    · obtain ⟨r, s1, s2, e1, e2, e3, e4⟩ := post_extend_place h _ hok a16 a8 (by rw [hs])
      refine ⟨r, s2, ?_, e4, fun hne => absurd hesc hne⟩
      simp only [e1, ok_bind, ne_eq, e2, not_false_eq_true, if_true, e3]
      rfl
    · obtain ⟨r, s', e1, e2⟩ := malloc_grow h a16 a8 a32
      refine ⟨r, s', ?_, e2, fun hne => absurd hesc hne⟩
      simp only [extend_heap_fail s _ hok, ok_bind, ne_eq, not_true_eq_false, if_false]
      exact e1
  · -- the scan of the free list
    obtain ⟨s1, e1, hs1⟩ := fit_scan_rep h (adjust size) hesc
    have h1' : Rep s1 B fl := Rep_congr hs1 h
    have hnz : ∀ y ∈ fl, y ≠ 0 := by
      intro y hy
      obtain ⟨_, _, _, hy1, _, _⟩ := h.heap.node hy
      omega
    rcases firstFit_spec s (adjust size) fl hnz with ⟨hz, _⟩ | ⟨hm, hfit⟩
    · -- no fit
      obtain ⟨r, s', f1, f2⟩ := malloc_grow h1' a16 a8 a32
      refine ⟨r, s', ?_, MallocPost_of_same hs1 f2, fun _ hne => absurd hz hne⟩
      simp only [e1, ok_bind, hz, ne_eq, not_true_eq_false, if_false]
      exact f1
    · -- the first fit
      obtain ⟨b, hb, eb, _, _, _⟩ := h.heap.node hm
      have hb0 : b.alloc = 0 := h.free _ hm b hb eb
      obtain ⟨t1, _, _, _⟩ := (Seg_mem h.heap.layout.seg b hb).2.2.2.2 (by omega)
      rw [eb] at t1
      obtain ⟨s2, f1, f2, f3⟩ := post_place h1' hb hb0 a16 a8 (by rw [← t1]; exact hfit)
      rw [eb] at f1 f2
      refine ⟨_, s2, ?_, MallocPost_of_same hs1 f2, fun _ _ => ⟨rfl, by rw [f3, hs1.2.2.1]⟩⟩
      have hne : firstFit s fl (adjust size) ≠ 0 := hnz _ hm
      simp only [e1, ok_bind, ne_eq, hne, not_false_eq_true, if_true, f1]
      rfl

/-! ## Stores of the application, and what the headers show -/

theorem Links_congr {m m' : Nat → Nat} {t : Nat} : ∀ {fl : List Nat} {p : Nat},
    (∀ x ∈ fl, load32 m' x = load32 m x ∧ load32 m' (x + 4) = load32 m (x + 4)) →
    Links m t p fl → Links m' t p fl
  | [], _, _, _ => trivial
  | x :: rest, p, hw, h => by
    obtain ⟨h1, h2, h3⟩ := h
    have hx := hw x (List.mem_cons_self _ _)
    refine ⟨?_, ?_, Links_congr (fun y hy => hw y (List.mem_cons_of_mem _ hy)) h3⟩
    · rw [hx.1]; exact h1
    · rw [hx.2]; exact h2

/-- A change of the memory that leaves every word outside the payloads of the
allocated blocks as it was keeps the invariant. -/
theorem Rep_frame {s s' : State} {B : List Blk} {fl : List Nat} (h : Rep s B fl)
    (hr : Regs s s') (hl : s'.lstart = s.lstart)
    (hm : ∀ q, (∀ c ∈ B, c.alloc = 1 → q + 4 ≤ c.bp ∨ c.bp + c.size - 8 ≤ q) →
      load32 s'.mem q = load32 s.mem q) : Rep s' B fl := by
  obtain ⟨g1, g2, g3, g4, g5, g6⟩ := hr
  have hlay := h.heap.layout
  have hseg := hlay.seg
  have hbase := hlay.base_le
  have e1 : load32 s'.mem (s.heap_listp + 24) = load32 s.mem (s.heap_listp + 24) := by
    apply hm
    intro c hc _
    have := Seg_mem hseg c hc
    omega
  have e2 : load32 s'.mem (s.heap_listp + 4) = load32 s.mem (s.heap_listp + 4) := by
    apply hm
    intro c hc _
    have := Seg_mem hseg c hc
    omega
  have e3 : load32 s'.mem (s.brk - 4) = load32 s.mem (s.brk - 4) := by
    apply hm
    intro c hc _
    have := Seg_mem hseg c hc
    omega
  have e4 : Seg s'.mem (s.heap_listp + 32) B s.brk := by
    refine Seg_congr ?_ hseg
    intro b hb _
    have hbm := Seg_mem hseg b hb
    constructor
    · apply hm
      intro c hc _
      have hcm := Seg_mem hseg c hc
      rcases Seg_apart hseg b hb c hc with e | e | e
      · rw [← e]; omega
      · omega
      · omega
    · apply hm
      intro c hc _
      have hcm := Seg_mem hseg c hc
      rcases Seg_apart hseg b hb c hc with e | e | e
      · rw [← e]; omega
      · omega
      · omega
  have e5 : Links s'.mem (s.heap_listp + 8) 0 fl := by
    refine Links_congr ?_ h.heap.links
    intro x hx
    obtain ⟨d, hd, hdx, _, _, _⟩ := h.heap.node hx
    have hd0 := h.free x hx d hd hdx
    have hdm := Seg_mem hseg d hd
    constructor
    · apply hm
      intro c hc hc1
      have hcm := Seg_mem hseg c hc
      rcases Seg_apart hseg d hd c hc with e | e | e
      · rw [e] at hd0; omega
      · omega
      · omega
    · apply hm
      intro c hc hc1
      have hcm := Seg_mem hseg c hc
      rcases Seg_apart hseg d hd c hc with e | e | e
      · rw [e] at hd0; omega
      · omega
      · omega
  refine ⟨⟨⟨?_, ?_, ?_, ?_, ?_, ?_, ?_⟩, ?_, ?_, h.heap.nodup, h.heap.sub⟩, h.written, h.sync,
    h.free, h.noadj⟩
  · rw [g1, g4]; exact hlay.lo_le
  · rw [g3]; exact hlay.hi_lt
  · rw [g2, g3]; exact hlay.brk_le
  · rw [g4, g2]; exact e4
  · rw [g4, e1]; exact hlay.gap
  · rw [g4, e2]; exact hlay.prologue
  · rw [g2, e3]; exact hlay.epilogue
  · rw [g4]; exact e5
  · rw [hl, g4]; exact h.heap.head

theorem poke_load (s : State) (a v q : Nat) (h : a < q ∨ q + 4 ≤ a) :
    load32 (poke s a v).mem q = load32 s.mem q := by
  have e : ∀ x, x ≠ a → (poke s a v).mem x = s.mem x := by
    intro x hx
    show (if x = a then v % 256 else s.mem x) = s.mem x
    rw [if_neg hx]
  unfold load32
  rw [e q (by omega), e (q + 1) (by omega), e (q + 2) (by omega), e (q + 3) (by omega)]

/-- A store of the application into the payload of an allocated block keeps
the invariant. -/
theorem poke_rep {s : State} {B : List Blk} {fl : List Nat} (h : Rep s B fl) {c : Blk}
    (hc : c ∈ B) (hc1 : c.alloc = 1) {a : Nat} (h1 : c.bp ≤ a) (h2 : a < c.bp + c.size - 8)
    (v : Nat) : Rep (poke s a v) B fl := by
  refine Rep_frame h ⟨rfl, rfl, rfl, rfl, rfl, rfl⟩ rfl ?_
  intro q hq
  have := hq c hc hc1
  exact poke_load s a v q (by omega)

/-- The header of a block of the sequence shows its size and allocated bit. -/
theorem Rep.header {s : State} {B : List Blk} {fl : List Nat} (h : Rep s B fl) {b : Blk}
    (hb : b ∈ B) : blockSize s b.bp = b.size ∧ allocBit s b.bp = b.alloc := by
  have hbm := Seg_mem h.heap.layout.seg b hb
  have hhi := h.heap.layout.hi_lt
  have hbrk := h.heap.layout.brk_le
  obtain ⟨t1, t2, _, _⟩ := hbm.2.2.2.2 (h.written b hb)
  unfold blockSize allocBit
  rw [HDRP_eq _ (by omega) (by omega), and_mask_eq _ (load32_lt _ _), and_one_eq]
  exact ⟨t1, t2⟩

/-- Every block of the sequence starts at a multiple of 8 from its beginning. -/
theorem Seg_aligned {m : Nat → Nat} : ∀ {B : List Blk} {a e : Nat}, Seg m a B e →
    ∀ b ∈ B, b.bp % 8 = a % 8
  | [], _, _, _ => by simp
  | c :: cs, a, e, h => by
    obtain ⟨h1, h2, h3, h4, h5⟩ := h
    intro b hb
    rcases List.mem_cons.1 hb with hbc | hb
    · rw [hbc, h1]
    · have := Seg_aligned h5 b hb
      omega

/-- The forward walk by header sizes visits the blocks of the sequence. -/
theorem walk_seg {s : State} : ∀ {B : List Blk} {a : Nat} (fuel : Nat),
    Seg s.mem a B s.brk → (∀ b ∈ B, b.alloc ≤ 1) → 4 ≤ a → s.brk < 4294967296 →
    load32 s.mem (s.brk - 4) / 8 * 8 = 0 → B.length < fuel →
    walk s fuel a = B.map Blk.bp
  | [], a, fuel, h, _, h4, h32, hep, hf => by
    have ha : a = s.brk := h
    obtain ⟨n, rfl⟩ : ∃ n, fuel = n + 1 := ⟨fuel - 1, by simp at hf; omega⟩
    have : blockSize s a = 0 := by
      unfold blockSize
      rw [HDRP_eq _ h4 (by omega), and_mask_eq _ (load32_lt _ _), ha]
      exact hep
    simp [walk, this]
  | b :: bs, a, fuel, h, hw, h4, h32, hep, hf => by
    obtain ⟨h1, h2, h3, h5, h6⟩ := h
    obtain ⟨n, rfl⟩ : ∃ n, fuel = n + 1 := ⟨fuel - 1, by simp at hf; omega⟩
    have hle := Seg_le h6
    obtain ⟨t1, _, _, _⟩ := h5 (hw b (List.mem_cons_self _ _))
    have hsz : blockSize s a = b.size := by
      unfold blockSize
      rw [HDRP_eq _ h4 (by omega), and_mask_eq _ (load32_lt _ _), ← h1]
      exact t1
    have ih := walk_seg n h6 (fun c hc => hw c (List.mem_cons_of_mem _ hc)) (by omega) h32 hep
      (by simp at hf; omega)
    have hne : ¬ (b.size = 0) := by omega
    simp only [walk, hsz, hne, if_false, List.map_cons, ih, h1]

theorem Seg_length {m : Nat → Nat} : ∀ {B : List Blk} {a e : Nat}, Seg m a B e →
    a + 16 * B.length ≤ e
  | [], _, _, h => by simp [Seg] at h; simp; omega
  | b :: bs, a, e, h => by
    obtain ⟨h1, h2, h3, h4, h5⟩ := h
    have := Seg_length h5
    simp only [List.length_cons]
    omega

/-- The blocks found by walking the heap are the blocks of the sequence. -/
theorem Rep.walk_eq {s : State} {B : List Blk} {fl : List Nat} (h : Rep s B fl) :
    heapBlocks s = B.map Blk.bp := by
  have hl := h.heap.layout
  have := Seg_length hl.seg
  have := hl.lo_le
  have := hl.brk_le
  have := hl.hi_lt
  exact walk_seg _ hl.seg h.written (by omega) (by omega) hl.epilogue.1 (by omega)

/-! ## `mm_init` -/

theorem initPre_preExt {s : State} (hf : Fresh s) (h32 : s.brk + 32 ≤ s.hi) :
    PreExt (initPre s) [] [] := by
  obtain ⟨f1, f2, f3, f4⟩ := hf
  have hgap : load32 (initPre s).mem (s.brk + 24) = load32 s.mem (s.brk + 24) := by
    show load32 (putw _ (s.brk + 12) 0 1).mem _ = _
    rw [putw_other _ _ _ _ _ (by omega), putw_other _ _ _ _ _ (by omega),
      putw_other _ _ _ _ _ (by omega), putw_other _ _ _ _ _ (by omega)]
  have hpro : load32 (initPre s).mem (s.brk + 4) % 2 = 1 := by
    show load32 (putw _ (s.brk + 12) 0 1).mem _ % 2 = 1
    rw [putw_other _ _ _ _ _ (by omega), putw_other _ _ _ _ _ (by omega)]
    exact (putw_same _ _ 8 1 (by omega) (by omega) (by omega)).2
  refine ⟨f1, f3, h32, rfl, ?_, hpro, trivial, rfl, List.nodup_nil, ?_, ?_, ?_, List.chain'_nil⟩
  · show load32 (initPre s).mem (s.brk + 24) / 8 * 8 = 0
    rw [hgap, ← and_mask_eq _ (load32_lt _ _)]
    exact f4
  · intro b hb; simp at hb
  · intro b hb; simp at hb
  · intro x hx; simp at hx

/-- The stores of `mm_init` up to its call of `extend_heap`. -/
theorem mm_init_eval (s : State) (hf : Fresh s) (h0 : s.brk ≠ 0) (h32 : s.brk + 32 ≤ s.hi) :
    mm_init s = (do
      let r ← extend_heap (initPre s) 4
      if r.1 = 0 then pure (-1, r.2) else pure (0, r.2)) := by
  obtain ⟨f1, f2, f3, f4⟩ := hf
  have p0 : (0 : Nat) = PACK 0 0 := rfl
  have p1 : PACK DSIZE 1 = PACK 8 1 := rfl
  have a1 : add32 s.brk (1 * WSIZE) = s.brk + 4 := add32_eq _ _ (by unfold WSIZE; omega)
  have a2 : add32 s.brk (2 * WSIZE) = s.brk + 8 := add32_eq _ _ (by unfold WSIZE; omega)
  have a3 : add32 s.brk (3 * WSIZE) = s.brk + 12 := add32_eq _ _ (by unfold WSIZE; omega)
  have w1 : PUT { s with brk := s.brk + 32, heap_listp := s.brk } s.brk 0
      = .ok (putw { s with brk := s.brk + 32, heap_listp := s.brk } s.brk 0 0) := by
    nth_rewrite 3 [p0]
    exact PUT_putw _ _ 0 0 ⟨f1, by show s.brk + 4 ≤ s.brk + 32; omega⟩ (by omega) (by omega)
  have w2 : PUT (putw { s with brk := s.brk + 32, heap_listp := s.brk } s.brk 0 0) (s.brk + 4)
      (PACK 8 1) = .ok (putw (putw { s with brk := s.brk + 32, heap_listp := s.brk } s.brk 0 0)
        (s.brk + 4) 8 1) :=
    PUT_putw _ _ 8 1 ⟨by show s.lo ≤ _; omega, by show _ ≤ s.brk + 32; omega⟩ (by omega)
      (by omega)
  have w3 : PUT (putw (putw { s with brk := s.brk + 32, heap_listp := s.brk } s.brk 0 0)
      (s.brk + 4) 8 1) (s.brk + 8) (PACK 8 1)
      = .ok (putw (putw (putw { s with brk := s.brk + 32, heap_listp := s.brk } s.brk 0 0)
        (s.brk + 4) 8 1) (s.brk + 8) 8 1) :=
    PUT_putw _ _ 8 1 ⟨by show s.lo ≤ _; omega, by show _ ≤ s.brk + 32; omega⟩ (by omega)
      (by omega)
  have w4 : PUT (putw (putw (putw { s with brk := s.brk + 32, heap_listp := s.brk } s.brk 0 0)
      (s.brk + 4) 8 1) (s.brk + 8) 8 1) (s.brk + 12) (PACK 0 1)
      = .ok (putw (putw (putw (putw { s with brk := s.brk + 32, heap_listp := s.brk } s.brk 0 0)
        (s.brk + 4) 8 1) (s.brk + 8) 8 1) (s.brk + 12) 0 1) :=
    PUT_putw _ _ 0 1 ⟨by show s.lo ≤ _; omega, by show _ ≤ s.brk + 32; omega⟩ (by omega)
      (by omega)
  have e8 : 8 * WSIZE = 32 := rfl
  unfold mm_init
  simp only [mem_sbrk, e8, h32, if_true, h0, if_false, p1, w1, ok_bind, putw_heap_listp, a1, w2,
    a2, w3, a3, w4]
  rfl

/-- The function `mm_init` on a fresh arena with room for the first 48 bytes:
it returns 0, and the heap is one free block of 16 bytes. -/
theorem mm_init_rep {s : State} (hf : Fresh s) (h0 : s.brk ≠ 0) (h48 : s.brk + 48 ≤ s.hi) :
    ∃ s', mm_init s = .ok (0, s') ∧ Rep s' [⟨s.brk + 32, 16, 0⟩] [s.brk + 32] ∧
      s'.lo = s.lo ∧ s'.hi = s.hi ∧ s'.heap_listp = s.brk ∧ s'.brk = s.brk + 48 := by
  have pre := initPre_preExt hf (by omega)
  have hx : extSize 4 = 16 := by decide
  obtain ⟨s', e1, e2, e3, _⟩ := extend_heap_rep pre 4 (by rw [hx]; show s.brk + 32 + 16 ≤ s.hi; omega)
  obtain ⟨g1, g2, g3, g4, _, _⟩ := e3
  rw [hx] at e1 e2 g2
  have hb : mergedBp [] ⟨(initPre s).brk, 16, 0⟩ = s.brk + 32 := rfl
  have hB : mergedBlocks [] ⟨(initPre s).brk, 16, 0⟩ [] = [⟨s.brk + 32, 16, 0⟩] := rfl
  have hF : mergedFree [] ⟨(initPre s).brk, 16, 0⟩ [] = [s.brk + 32] := rfl
  rw [hb] at e1
  rw [hB, hF] at e2
  refine ⟨s', ?_, e2, g1, g3, g4, by rw [g2]; show s.brk + 32 + 16 = _; omega⟩
  rw [mm_init_eval s hf h0 (by omega), e1]
  simp

/-- When `mm_init` returns 0 the provider has granted both requests. -/
theorem mm_init_ok {s : State} (hf : Fresh s) {s' : State} (h : mm_init s = .ok (0, s')) :
    s.brk ≠ 0 ∧ s.brk + 48 ≤ s.hi := by
  obtain ⟨f1, f2, f3, f4⟩ := hf
  by_cases h32 : s.brk + 32 ≤ s.hi
  · by_cases h0 : s.brk = 0
    · exfalso
      have e8 : 8 * WSIZE = 32 := rfl
      unfold mm_init at h
      simp only [mem_sbrk, e8, h32, if_true] at h
      simp [h0] at h
    · refine ⟨h0, ?_⟩
      by_contra h48
      rw [mm_init_eval s ⟨f1, f2, f3, f4⟩ h0 h32, extend_heap_fail _ _ (by
        have hx : extSize 4 = 16 := by decide
        rw [hx]; show ¬ (s.brk + 32 + 16 ≤ s.hi); omega)] at h
      simp at h
  · exfalso
    have hr : ¬ inRegion { s with heap_listp := 4294967295 } 4294967295 := by
      intro hr
      have : 4294967295 + 4 ≤ s.brk := hr.2
      omega
    have e8 : 8 * WSIZE = 32 := rfl
    unfold mm_init at h
    simp only [mem_sbrk, e8, h32, if_false] at h
    simp [PUT, GET_TAG, GET, hr] at h
    cases h

/-! ## The calls of the interface keep the invariant -/

/-- The next-link chain from the head of the free list visits its nodes. -/
theorem chain_links {s : State} {B : List Blk} {fl : List Nat} (h : Rep s B fl) :
    ∀ (R : List Nat) (p fuel : Nat), (∀ y ∈ R, y ∈ fl) →
    Links s.mem (s.heap_listp + 8) p R → R.length < fuel →
    chain s fuel (R.headD (s.heap_listp + 8)) = R
  | [], p, fuel, _, _, hf => by
    obtain ⟨f, rfl⟩ : ∃ f, fuel = f + 1 := ⟨fuel - 1, by simp at hf; omega⟩
    have hb := h.heap.layout.base_le
    have hhi := h.heap.layout.hi_lt
    have hbrk := h.heap.layout.brk_le
    have : allocBit s (s.heap_listp + 8) = 1 := by
      unfold allocBit
      rw [HDRP_eq _ (by omega) (by omega), and_one_eq]
      have e : s.heap_listp + 8 - 4 = s.heap_listp + 4 := by omega
      rw [e, h.heap.layout.prologue]
    simp [chain, this]
  | y :: R, p, fuel, hsub, hl, hf => by
    obtain ⟨f, rfl⟩ : ∃ f, fuel = f + 1 := ⟨fuel - 1, by simp at hf; omega⟩
    obtain ⟨b, hb, e1, y1, y2, y3⟩ := h.heap.node (hsub y (List.mem_cons_self _ _))
    have hb0 : b.alloc = 0 := h.free y (hsub y (List.mem_cons_self _ _)) b hb e1
    have hh := (h.header hb).2
    rw [e1, hb0] at hh
    obtain ⟨k1, k2, k3⟩ := hl
    have ih := chain_links h R y f (fun z hz => hsub z (List.mem_cons_of_mem _ hz)) k3
      (by simp at hf; omega)
    simp only [List.headD_cons, chain, hh, if_true, k2, ih]

/-- The nodes reachable from `lstart` are the nodes of the free list. -/
theorem Rep.chain_eq {s : State} {B : List Blk} {fl : List Nat} (h : Rep s B fl) :
    freeList s = fl := by
  have := h.length_le
  unfold freeList
  rw [h.heap.head]
  exact chain_links h fl 0 _ (fun y hy => hy) h.heap.links (by omega)

/-- The first node found by the model of the scan is the first node of the
free list whose header shows a size of at least `asize`. -/
theorem firstFit_find {s : State} {B : List Blk} {fl : List Nat} (h : Rep s B fl)
    (asize : Nat) :
    fl.find? (fun y => decide (asize ≤ load32 s.mem (y - 4) / 8 * 8))
      = fl.find? (fun y => decide (asize ≤ blockSize s y)) := by
  have key : ∀ (R : List Nat), (∀ y ∈ R, y ∈ fl) →
      R.find? (fun y => decide (asize ≤ load32 s.mem (y - 4) / 8 * 8))
        = R.find? (fun y => decide (asize ≤ blockSize s y)) := by
    intro R
    induction R with
    | nil => intro _; rfl
    | cons y R ih =>
      intro hsub
      obtain ⟨b, hb, e1, y1, y2, y3⟩ := h.heap.node (hsub y (List.mem_cons_self _ _))
      have hhi := h.heap.layout.hi_lt
      have hbrk := h.heap.layout.brk_le
      have e : blockSize s y = load32 s.mem (y - 4) / 8 * 8 := by
        unfold blockSize
        rw [HDRP_eq _ (by omega) (by omega), and_mask_eq _ (load32_lt _ _)]
      simp only [List.find?_cons, e, ih (fun z hz => hsub z (List.mem_cons_of_mem _ hz))]
  exact key fl (fun y hy => hy)

/-- The live pointers and the allocated blocks. -/
theorem live_block {s : State} {live : List Nat} {B : List Blk} {fl : List Nat}
    (h : Rep s B fl) (hl : ∀ p, p ∈ live ↔ ∃ b ∈ B, b.bp = p ∧ b.alloc = 1) {p : Nat}
    (hp : p ∈ live) :
    ∃ b ∈ B, b.bp = p ∧ b.alloc = 1 ∧ blockSize s p = b.size ∧ 16 ≤ b.size ∧
      p + (blockSize s p - 8) = b.bp + b.size - 8 := by
  obtain ⟨b, hb, e, hb1⟩ := (hl p).1 hp
  have hs := (h.header hb).1
  have hm := Seg_mem h.heap.layout.seg b hb
  rw [e] at hs
  exact ⟨b, hb, e, hb1, hs, hm.2.2.1, by rw [hs, ← e]; omega⟩

/-- What `mm_malloc` does on a state that satisfies the invariant with live
pointers `live`, for a request that does not wrap around. -/
theorem malloc_step {s : State} {live : List Nat} (h : InvLive s live) (size : Nat)
    (h1 : size ≤ 4294967280) :
    ∃ r s', mm_malloc s size = .ok (r, s') ∧
      InvLive s' (if r = 0 then live else r :: live) ∧
      s'.lo = s.lo ∧ s'.hi = s.hi ∧ s'.heap_listp = s.heap_listp ∧ s.brk ≤ s'.brk ∧
      (∀ p ∈ live, blockSize s' p = blockSize s p ∧
        ∀ a, p ≤ a → a < p + (blockSize s p - 8) → s'.mem a = s.mem a) ∧
      (r ≠ 0 → 0 < size ∧ r ∉ live ∧ allocBit s' r = 1 ∧ blockSize s' r % 8 = 0 ∧
        16 ≤ blockSize s' r ∧ adjust size ≤ blockSize s' r ∧
        r % 8 = s.heap_listp % 8) := by
  obtain ⟨B, fl, hrep, hnd, hl⟩ := h
  by_cases h0 : size = 0
  · refine ⟨0, s, by unfold mm_malloc; simp [h0], ?_, rfl, rfl, rfl, le_refl _, ?_, ?_⟩
    · simp only [if_true]
      exact ⟨B, fl, hrep, hnd, hl⟩
    · intro p _
      exact ⟨rfl, fun _ _ _ => rfl⟩
    · intro hne; exact absurd rfl hne
  obtain ⟨r, s', e1, e2, _⟩ := mm_malloc_rep hrep size (by omega) h1
  obtain ⟨a1, a2, a3, a4, B', fl', a5, a6, a7, a8⟩ := e2
  obtain ⟨b16, b8, bge, b32⟩ := adjust_bounds size (by omega) h1
  refine ⟨r, s', e1, ?_, a1, a2, a3, a4, ?_, ?_⟩
  · by_cases hr : r = 0
    · simp only [hr, if_true]
      refine ⟨B', fl', a5, hnd, fun p => ?_⟩
      rw [hl p]
      constructor
      · rintro ⟨b, hb, e, hb1⟩
        exact ⟨b, (a6 b hb hb1).1, e, hb1⟩
      · rintro ⟨b, hb, e, hb1⟩
        exact ⟨b, a7 hr b hb hb1, e, hb1⟩
    · simp only [hr, if_false]
      obtain ⟨sz, z1, z2, z3, z4⟩ := a8 hr
      refine ⟨B', fl', a5, ?_, fun p => ?_⟩
      · refine List.nodup_cons.2 ⟨?_, hnd⟩
        intro hm
        obtain ⟨b, hb, e, hb1⟩ := (hl r).1 hm
        exact z3 b hb e hb1
      · rw [List.mem_cons, hl p]
        constructor
        · rintro (e | ⟨b, hb, e, hb1⟩)
          · exact ⟨_, z2, e.symm, rfl⟩
          · exact ⟨b, (a6 b hb hb1).1, e, hb1⟩
        · rintro ⟨b, hb, e, hb1⟩
          rcases z4 b hb hb1 with h' | h'
          · exact Or.inr ⟨b, h', e, hb1⟩
          · left; rw [← e, h']
  · intro p hp
    obtain ⟨b, hb, e, hb1, hs, h16, hend⟩ := live_block hrep hl hp
    obtain ⟨q1, q2⟩ := a6 b hb hb1
    have hs' := (a5.header q1).1
    rw [e] at hs'
    refine ⟨by rw [hs, hs'], fun a x1 x2 => ?_⟩
    exact q2 a (by omega) (by omega)
  · intro hr
    obtain ⟨sz, z1, z2, z3, z4⟩ := a8 hr
    obtain ⟨k1, k2⟩ := a5.header z2
    have km := Seg_mem a5.heap.layout.seg _ z2
    have ka := Seg_aligned a5.heap.layout.seg _ z2
    have k1' : blockSize s' r = sz := k1
    have k2' : allocBit s' r = 1 := k2
    refine ⟨Nat.pos_of_ne_zero h0, ?_, k2', ?_, ?_, ?_, ?_⟩
    · intro hm
      obtain ⟨b, hb, e, hb1⟩ := (hl r).1 hm
      exact z3 b hb e hb1
    · rw [k1']; exact km.2.2.2.1
    · rw [k1']; exact km.2.2.1
    · rw [k1']; exact z1
    · have : r % 8 = (s'.heap_listp + 32) % 8 := ka
      omega

/-- What `mm_free` does on a live pointer. -/
theorem free_step {s : State} {live : List Nat} (h : InvLive s live) {p : Nat}
    (hp : p ∈ live) :
    ∃ s', mm_free s p = .ok s' ∧ InvLive s' (live.erase p) ∧ Regs s s' ∧
      (∀ q ∈ live, q ≠ p → blockSize s' q = blockSize s q ∧
        ∀ a, q ≤ a → a < q + (blockSize s q - 8) → s'.mem a = s.mem a) := by
  obtain ⟨B, fl, hrep, hnd, hl⟩ := h
  obtain ⟨b, hb, e, hb1⟩ := (hl p).1 hp
  obtain ⟨L, R, rfl⟩ := List.append_of_mem hb
  obtain ⟨s', e1, e2, e3, e4⟩ := mm_free_rep hrep hb1
  have hw : ∀ c ∈ L ++ R, c.alloc ≤ 1 := fun c hc => hrep.written c (mem_around hc)
  have hal : ∀ c : Blk, c.alloc = 1 →
      (c ∈ mergedBlocks L ⟨b.bp, b.size, 0⟩ R ↔ c ∈ L ++ R) := fun c hc =>
    merged_alloc (fun c hc => hw c (List.mem_append_left _ hc))
      (fun c hc => hw c (List.mem_append_right _ hc)) c hc
  rw [e] at e1
  refine ⟨s', e1, ⟨_, _, e2, hnd.erase p, fun q => ?_⟩, e3, ?_⟩
  · rw [hnd.mem_erase_iff, hl q]
    constructor
    · rintro ⟨hne, c, hc, ec, hc1⟩
      refine ⟨c, (hal c hc1).2 (mem_split_alloc hc ?_), ec, hc1⟩
      intro hcb
      rw [hcb] at ec
      exact hne (ec.symm.trans e)
    · rintro ⟨c, hc, ec, hc1⟩
      have hc' := (hal c hc1).1 hc
      have := (around_apart hrep.heap.layout.seg hc').1
      exact ⟨by rw [← ec, ← e]; exact this, c, mem_around hc', ec, hc1⟩
  · intro q hq hne
    obtain ⟨c, hc, ec, hc1, hs, h16, hend⟩ := live_block hrep hl hq
    have hcb : c ≠ b := by
      intro hcb
      rw [hcb] at ec
      exact hne (ec.symm.trans e)
    have hc' := mem_split_alloc hc hcb
    have hs' := (e2.header ((hal c hc1).2 hc')).1
    rw [ec] at hs'
    refine ⟨by rw [hs, hs'], fun a x1 x2 => ?_⟩
    exact e4 c hc' hc1 a (by omega) (by omega)

/-- A store of the application into a live payload. -/
theorem write_step {s : State} {live : List Nat} (h : InvLive s live) {a : Nat}
    (ha : inLive s live a = true) (v : Nat) : InvLive (poke s a v) live := by
  obtain ⟨B, fl, hrep, hnd, hl⟩ := h
  unfold inLive at ha
  rw [List.any_eq_true] at ha
  obtain ⟨p, hp, hpa⟩ := ha
  rw [decide_eq_true_eq] at hpa
  obtain ⟨b, hb, e, hb1, hs, h16, hend⟩ := live_block hrep hl hp
  exact ⟨B, fl, poke_rep hrep hb hb1 (by omega) (by omega) v, hnd, hl⟩

/-- Every plain action keeps the invariant; the only way it fails is a misuse
of the interface by the application. -/
theorem step_plain {s : State} {live : List Nat} (h : InvLive s live) (c : Call)
    (hc : c.plain = true) :
    step s live c = .error .misuse ∨
      ∃ s' live', step s live c = .ok (s', live') ∧ InvLive s' live' ∧
        s'.lo = s.lo ∧ s'.hi = s.hi ∧ s'.heap_listp = s.heap_listp := by
  cases c with
  | malloc size =>
    have h1 : size ≤ 4294967280 := by simpa [Call.plain] using hc
    obtain ⟨r, s', e1, e2, e3, e4, e5, _⟩ := malloc_step h size h1
    refine Or.inr ⟨s', _, ?_, e2, e3, e4, e5⟩
    simp only [step, e1, ok_bind]
    rfl
  | free p =>
    by_cases hp : p ∈ live
    · obtain ⟨s', e1, e2, e3, _⟩ := free_step h hp
      refine Or.inr ⟨s', _, ?_, e2, e3.1, e3.2.2.1, e3.2.2.2.1⟩
      simp only [step, hp, if_true, e1, ok_bind]
      rfl
    · left
      simp only [step, hp, if_false]
  | realloc p size => simp [Call.plain] at hc
  | write a v =>
    by_cases ha : inLive s live a = true
    · refine Or.inr ⟨poke s a v, live, ?_, write_step h ha v, rfl, rfl, rfl⟩
      simp only [step, ha, if_true]
      rfl
    · left
      simp only [step, ha]
      rfl

/-- A sequence of plain actions keeps the invariant. -/
theorem run_plain : ∀ (cs : List Call) {s : State} {live : List Nat}, InvLive s live →
    (∀ c ∈ cs, c.plain = true) →
    run s live cs = .error .misuse ∨
      ∃ s' live', run s live cs = .ok (s', live') ∧ InvLive s' live' ∧
        s'.lo = s.lo ∧ s'.hi = s.hi ∧ s'.heap_listp = s.heap_listp
  | [], s, live, h, _ => Or.inr ⟨s, live, rfl, h, rfl, rfl, rfl⟩
  | c :: cs, s, live, h, hc => by
    rcases step_plain h c (hc c (List.mem_cons_self _ _)) with e | ⟨s1, l1, e, h1, g1, g2, g3⟩
    · left
      simp only [run, e]
      rfl
    · rcases run_plain cs h1 (fun d hd => hc d (List.mem_cons_of_mem _ hd)) with e' |
        ⟨s2, l2, e', h2, k1, k2, k3⟩
      · left
        simp only [run, e, ok_bind]
        exact e'
      · refine Or.inr ⟨s2, l2, ?_, h2, k1.trans g1, k2.trans g2, k3.trans g3⟩
        simp only [run, e, ok_bind]
        exact e'

/-- The state after a successful `mm_init` on a fresh arena satisfies the
invariant, with no live pointer. -/
theorem init_inv {s s1 : State} (hf : Fresh s) (h : mm_init s = .ok (0, s1)) :
    InvLive s1 [] ∧ s1.lo = s.lo ∧ s1.hi = s.hi ∧ s1.heap_listp = s.brk := by
  obtain ⟨h0, h48⟩ := mm_init_ok hf h
  obtain ⟨s', e1, e2, e3, e4, e5, _⟩ := mm_init_rep hf h0 h48
  rw [h] at e1
  have : s1 = s' := by injection e1 with e1; injection e1
  subst this
  refine ⟨⟨_, _, e2, List.nodup_nil, fun p => ?_⟩, e3, e4, e5⟩
  simp

/-- The states reached from a fresh arena by `mm_init` and plain actions. -/
theorem reach_inv {s0 s1 s : State} {cs : List Call} {live : List Nat} (hf : Fresh s0)
    (hi : mm_init s0 = .ok (0, s1)) (hc : ∀ c ∈ cs, c.plain = true)
    (hr : run s1 [] cs = .ok (s, live)) :
    InvLive s live ∧ s.lo = s0.lo ∧ s.hi = s0.hi ∧ s.heap_listp = s0.brk := by
  obtain ⟨i1, i2, i3, i4⟩ := init_inv hf hi
  rcases run_plain cs i1 hc with e | ⟨s', l', e, h2, k1, k2, k3⟩
  · rw [e] at hr; cases hr
  · rw [e] at hr
    injection hr with hr
    injection hr with hr1 hr2
    subst hr1; subst hr2
    exact ⟨h2, k1.trans i2, k2.trans i3, k3.trans i4⟩

/-! ## Facts shared by the theorems about the interface -/

/-- The header at the end of the region is the epilogue. -/
theorem Rep.epilogue {s : State} {B : List Blk} {fl : List Nat} (h : Rep s B fl) :
    blockSize s s.brk = 0 ∧ allocBit s s.brk = 1 := by
  have hl := h.heap.layout
  have := hl.base_le
  have := hl.brk_le
  have := hl.hi_lt
  unfold blockSize allocBit
  rw [HDRP_eq _ (by omega) (by omega), and_mask_eq _ (load32_lt _ _), and_one_eq]
  exact hl.epilogue

/-- The block that physically follows a block of the sequence: the epilogue,
or the next block of the sequence. -/
theorem Rep.next_block {s : State} {L R : List Blk} {b : Blk} {fl : List Nat}
    (h : Rep s (L ++ b :: R) fl) :
    (R = [] ∧ b.bp + b.size = s.brk) ∨ ∃ n R', R = n :: R' ∧ n.bp = b.bp + b.size := by
  obtain ⟨_, _, hsR, _, _, _, _, _, _⟩ := h.heap.around
  cases R with
  | nil => exact Or.inl ⟨rfl, hsR⟩
  | cons n R' => exact Or.inr ⟨n, R', rfl, hsR.1⟩

/-- No block of a state that satisfies the invariant is free together with
the block that physically follows it. -/
theorem Rep.no_adjacent {s : State} {B : List Blk} {fl : List Nat} (h : Rep s B fl) :
    ∀ p ∈ heapBlocks s, ¬ (allocBit s p = 0 ∧ allocBit s (p + blockSize s p) = 0) := by
  intro p hp
  rw [h.walk_eq, List.mem_map] at hp
  obtain ⟨b, hb, rfl⟩ := hp
  obtain ⟨L, R, rfl⟩ := List.append_of_mem hb
  obtain ⟨e1, e2⟩ := h.header hb
  rw [e1, e2]
  rcases h.next_block with ⟨_, e⟩ | ⟨n, R', rfl, e⟩
  · rw [e, h.epilogue.2]
    omega
  · have hn : n ∈ L ++ b :: n :: R' := by simp
    have := (h.header hn).2
    rw [e] at this
    rw [this]
    have hc := (List.chain'_append.1 h.noadj).2.1
    exact (List.chain'_cons.1 hc).1

/-- In a state that satisfies the invariant a block of the heap is reachable
from `lstart` exactly when its header shows it free. -/
theorem Rep.free_iff {s : State} {B : List Blk} {fl : List Nat} (h : Rep s B fl) :
    ∀ p ∈ heapBlocks s, (p ∈ freeList s ↔ allocBit s p = 0) := by
  intro p hp
  rw [h.walk_eq, List.mem_map] at hp
  obtain ⟨b, hb, rfl⟩ := hp
  rw [h.chain_eq, (h.header hb).2]
  exact ⟨fun hm => h.free _ hm b hb rfl, fun h0 => h.sync b hb h0⟩

/-- Two different live pointers have disjoint payloads. -/
theorem InvLive.disjoint {s : State} {live : List Nat} (h : InvLive s live) {p q : Nat}
    (hp : p ∈ live) (hq : q ∈ live) (hpq : p ≠ q) : disjointPayload s p q := by
  obtain ⟨B, fl, hrep, _, hl⟩ := h
  obtain ⟨b, hb, e1, _, s1, _, _⟩ := live_block hrep hl hp
  obtain ⟨c, hc, e2, _, s2, _, _⟩ := live_block hrep hl hq
  unfold disjointPayload
  rw [s1, s2, ← e1, ← e2]
  have hbm := Seg_mem hrep.heap.layout.seg b hb
  have hcm := Seg_mem hrep.heap.layout.seg c hc
  rcases Seg_apart hrep.heap.layout.seg b hb c hc with e | e | e
  · exact absurd (by rw [← e1, ← e2, e]) hpq
  · left; omega
  · right; omega

theorem fresh_arena (base hi : Nat) (h1 : base ≤ hi) (h2 : hi < 4294967296) :
    Fresh (arena base hi) :=
  ⟨le_refl _, h1, h2, by simp [arena, load32]⟩

/-! ## `mm_realloc`: the merge with a free next block -/

theorem toInt32_pos (size : Nat) (h0 : 0 < size) (h31 : size < 2147483648) :
    ¬ toInt32 size ≤ 0 := by
  unfold toInt32
  rw [Nat.mod_eq_of_lt (by omega), if_pos h31]
  omega

/-- The bytes that `remove_from_list` writes on a node of the free list: the
next link of the node before it, when there is one, and the previous link of
what follows it. -/
theorem Heap_remove_tight {s : State} {B : List Blk} {fl : List Nat} (h : Heap s B fl)
    {x : Nat} (hx : x ∈ fl) {s' : State} (e : remove_from_list s x = .ok s') :
    ∀ a, (load32 s.mem x = 0 ∨ a < load32 s.mem x + 4 ∨ load32 s.mem x + 8 ≤ a) →
      (a < load32 s.mem (x + 4) ∨ load32 s.mem (x + 4) + 4 ≤ a) → s'.mem a = s.mem a := by
  obtain ⟨L, R, rfl⟩ := List.append_of_mem hx
  have hnd := h.nodup
  have hxL : x ∉ L := fun hxl => (List.nodup_append.1 hnd).2.2 hxl (List.mem_cons_self _ _)
  have hb := h.layout.base_le
  have hlo := h.layout.lo_le
  have hhi := h.layout.hi_lt
  have hbrk := h.layout.brk_le
  obtain ⟨bx, hbx, ex, hx1, hx2, hx3⟩ := h.node hx
  have hrx : inRegion s x := ⟨by omega, by omega⟩
  have hrx4 : inRegion s (x + 4) := ⟨by omega, by omega⟩
  obtain ⟨hrn, _⟩ := h.next_ok R (fun y hy => by simp [hy])
  have hl := h.links
  rcases List.eq_nil_or_concat' L with rfl | ⟨L', p, rfl⟩
  · simp only [List.nil_append] at hl
    obtain ⟨k1, k2, _⟩ := hl
    rw [remove_eval_head s x _ hrx hrx4 (by omega) hrn k1 k2] at e
    injection e with e
    subst e
    intro a _ h2
    rw [k2] at h2
    exact store32_other _ _ _ _ (by omega)
  · simp only [List.append_assoc, List.singleton_append] at hl h hx hxL
    have hpm : p ∈ L' ++ p :: x :: R := by simp
    obtain ⟨bp', hbp', ep, hp1, hp2, hp3⟩ := h.node hpm
    have hpx : p ≠ x := by
      intro e'
      apply hxL
      simp [e']
    have hsp := h.sep p hpm x hx hpx
    rw [Links_append] at hl
    obtain ⟨_, _, _, k1, k2, _⟩ := hl
    have hrp : inRegion s (p + 4) := ⟨by omega, by omega⟩
    rw [remove_eval_mid s x p _ hrx hrx4 (by omega) hrp (by omega) hrn hsp (by omega) k1 k2] at e
    injection e with e
    subst e
    intro a h1 h2
    rw [k1] at h1
    rw [k2] at h2
    show store32 (store32 s.mem (p + 4) (R.headD (s.heap_listp + 8)))
      (R.headD (s.heap_listp + 8)) p a = s.mem a
    rw [store32_other _ _ _ _ (by omega), store32_other _ _ _ _ (by omega)]

/-- The function `mm_realloc` on an allocated block that is too small for the
request and is followed by a free block that makes up for it. -/
theorem realloc_merge {s : State} {L R : List Blk} {b n : Blk} {fl : List Nat}
    (h : Rep s (L ++ b :: n :: R) fl) (hb : b.alloc = 1) (hn : n.alloc = 0) (size : Nat)
    (h0 : 0 < size) (h31 : size < 2147483648) (hgt : b.size < size + 8)
    (hle : size + 8 ≤ b.size + n.size) :
    ∃ s', mm_realloc s b.bp size = .ok (b.bp, s') ∧
      Rep s' (L ++ ⟨b.bp, b.size + n.size, 1⟩ :: R) (fl.erase n.bp) ∧ Regs s s' ∧
      (∀ c ∈ L ++ b :: R, c.alloc = 1 → ∀ a, c.bp ≤ a → a < c.bp + c.size - 8 →
        s'.mem a = s.mem a) ∧
      (∀ a, (a < b.bp - 4 ∨ b.bp ≤ a) →
        (a < b.bp + (b.size + n.size) - 8 ∨ b.bp + (b.size + n.size) - 4 ≤ a) →
        (load32 s.mem n.bp = 0 ∨ a < load32 s.mem n.bp + 4 ∨ load32 s.mem n.bp + 8 ≤ a) →
        (a < load32 s.mem (n.bp + 4) ∨ load32 s.mem (n.bp + 4) + 4 ≤ a) →
        s'.mem a = s.mem a) := by
  obtain ⟨_, hsL, hsR, _, hb1, hb2, hb3, hb4, hb5⟩ := h.heap.around
  obtain ⟨t1, t2, t3, t4⟩ := hb5 (by omega)
  obtain ⟨n1, n2, n3, n4, n5⟩ := hsR
  obtain ⟨u1, u2, u3, u4⟩ := n4 (by omega)
  have hR1 := Seg_le n5
  have hlo := h.heap.layout.lo_le
  have hhi := h.heap.layout.hi_lt
  have hbrk := h.heap.layout.brk_le
  have hseg := h.heap.layout.seg
  have hnB : n ∈ L ++ b :: n :: R := by simp
  have hbB : b ∈ L ++ b :: n :: R := by simp
  have hnf : n.bp ∈ fl := h.sync n hnB hn
  have hsplit : L ++ b :: n :: R = (L ++ [b]) ++ n :: R := by simp
  have hbnd := Seg_split_bounds (hsplit ▸ hseg)
  have hmemLR : ∀ c, c ∈ L ++ R → c ∈ L ++ b :: n :: R := by
    intro c hc
    simp only [List.mem_append, List.mem_cons] at hc ⊢
    tauto
  have hneLR : ∀ c, c ∈ L ++ R → c.bp ≠ n.bp := by
    intro c hc
    have := (Seg_mem hseg c (hmemLR c hc)).2.2.1
    rcases List.mem_append.1 hc with h' | h'
    · have := hbnd.1 c (List.mem_append_left _ h'); omega
    · have := hbnd.2.1 c h'
      omega
  -- the reads
  have r0 := toInt32_pos size h0 h31
  have r1 : GET_SIZE s (HDRP b.bp) = .ok b.size := by
    rw [GET_SIZE_hdr s _ ⟨by omega, by omega⟩ (by omega) (by omega), t1]
  have r2 : add32 size (2 * WSIZE) = size + 8 := add32_eq _ _ (by unfold WSIZE; omega)
  have r3 : NEXT_BLKP s b.bp = .ok n.bp := by
    rw [NEXT_BLKP_ok s b.bp b.size ⟨by omega, by omega⟩ (by omega) t1 (by omega), n1]
  have r4 : GET_ALLOC s (HDRP n.bp) = .ok 0 := by
    rw [GET_ALLOC_hdr s _ ⟨by omega, by omega⟩ (by omega) (by omega), u2, hn]
  have r5 : GET_SIZE s (HDRP n.bp) = .ok n.size := by
    rw [GET_SIZE_hdr s _ ⟨by omega, by omega⟩ (by omega) (by omega), u1]
  have r6 : add32 b.size n.size = b.size + n.size := add32_eq _ _ (by omega)
  -- the node of the next block leaves the free list
  obtain ⟨s1, e1, k1, g1, f1⟩ := Heap_remove h.heap hnf
  obtain ⟨gl, gb, gh, _, _, _⟩ := g1
  -- header and footer of the merged block
  obtain ⟨w1, w2, w3⟩ := retag_eval s1 b.bp (b.size + n.size) 1 (by omega) (by omega)
    (by omega) (by omega) (by rw [gl]; omega) (by rw [gb]; omega) (by rw [gb]; omega)
  have h0' : Heap s1 (L ++ (b :: [n]) ++ R) (fl.erase n.bp) := by simpa using k1
  have htot : total (b :: [n]) = b.size + n.size := by simp [total]
  have k := Heap_retag h0' (b.size + n.size) 1 (by omega) (by omega) (by omega)
    (by rw [htot]) (by rw [htot]; omega) (by
      intro d hd
      rw [List.mem_singleton] at hd
      rw [hd]
      exact List.Nodup.not_mem_erase h.heap.nodup)
  have hrest : restBlk b.bp (total (b :: [n])) (b.size + n.size) = [] := by
    simp [restBlk, htot]
  rw [hrest] at k
  have k2 : Heap (retag s1 b.bp (b.size + n.size) 1)
      (L ++ ⟨b.bp, b.size + n.size, 1⟩ :: R) (fl.erase n.bp) := by simpa using k
  have hcL : L.Chain' NoAdj := (List.chain'_append.1 h.noadj).1
  have hcR : R.Chain' NoAdj := by
    have := (List.chain'_append.1 h.noadj).2.1
    exact (List.chain'_cons'.1 (List.chain'_cons'.1 this).2).2
  have hpos : ¬ (size + 8 ≤ b.size) := by omega
  refine ⟨retag s1 b.bp (b.size + n.size) 1, ?_, ?_,
    Regs.trans ⟨gl, gb, gh, by assumption, by assumption, by assumption⟩ (retag_regs _ _ _ _), ?_,
    ?_⟩
  · unfold mm_realloc
    simp only [r0, if_false, h0, gt_iff_lt, if_true, r1, ok_bind, r2, hpos, r3, r4, r5, r6,
      ge_iff_le, hle, and_self, e1, w1, w2, w3]
    rfl
  · refine Rep_of_parts k2 (by show 1 ≤ 1; omega) (fun h1 => absurd h1 (by simp)) ?_
      (fun c hc => h.written c (hmemLR c hc)) ?_ ?_ hcL hcR (fun h1 => absurd h1 (by simp))
    · intro hm
      have := h.free b.bp (List.mem_of_mem_erase hm) b hbB rfl
      omega
    · intro c hc hc0
      exact (List.mem_erase_of_ne (hneLR c hc)).2 (h.sync c (hmemLR c hc) hc0)
    · intro x hx c hc hcx
      exact h.free x (List.mem_of_mem_erase hx) c (hmemLR c hc) hcx
  · clear r0 r1 r2 r3 r4 r5 r6 w1 w2 w3 e1 k k1 k2 h0' hcL hcR t1 t2 t3 t4 u1 u2 u3 u4 hrest htot
      hpos hneLR hmemLR hnf hsplit hb5 n4 hgt hle h31 h0
    intro c hc hc1 a a1 a2
    have hcB : c ∈ L ++ b :: n :: R := by
      simp only [List.mem_append, List.mem_cons] at hc ⊢
      tauto
    obtain ⟨q1, q2⟩ := h.payload_apart hcB hc1 a1 a2
    have hcm := Seg_mem hseg c hcB
    have hfar : c = b ∨ c.bp + c.size ≤ b.bp ∨ b.bp + b.size + n.size ≤ c.bp := by
      rcases List.mem_append.1 hc with h' | h'
      · have := hbnd.1 c (List.mem_append_left _ h')
        have := (Seg_split_bounds hseg).1 c h'
        omega
      · rcases List.mem_cons.1 h' with h'' | h''
        · exact Or.inl h''
        · have := hbnd.2.1 c h''
          omega
    rw [retag_mem_other _ _ _ _ _ (by omega) (by
      rcases hfar with e | e | e
      · rw [e] at a1; omega
      · omega
      · omega) (by
      rcases hfar with e | e | e
      · rw [e] at a2; omega
      · omega
      · omega)]
    exact f1 a (fun y hy _ => q1 y hy) q2
  · intro a a1 a2 a3 a4
    rw [retag_mem_other _ _ _ _ _ (by omega) a1 a2]
    exact Heap_remove_tight h.heap hnf e1 a a3 a4

/-! ## The contract of `mm_malloc` and `mm_free` -/

theorem boot_ok : mm_init (arena 1000 100000) = .ok (0, boot 1000 100000) := rfl

theorem fresh_small : Fresh (arena 1000 100000) :=
  fresh_arena 1000 100000 (by decide) (by decide)

/-- C1, as the claim states it, fails: on the zero-filled arena from 1000 to
100000 the calls `mm_malloc(8)`, `mm_malloc(4294967288)`, `mm_free(1032)`,
`mm_malloc(100)` leave the two live pointers 1032 and 1048, whose headers
record the sizes 112 and 4096, so the ranges `[1032, 1136)` and `[1048, 5136)`
intersect.  The adjusted size of the second request wraps around to 0. -/
theorem no_overlap_counterexample :
    mm_init (arena 1000 100000) = .ok (0, boot 1000 100000) ∧
    run (boot 1000 100000) []
        [.malloc 8, .malloc 4294967288, .free 1032, .malloc 100]
      = .ok ((after (boot 1000 100000) []
          [.malloc 8, .malloc 4294967288, .free 1032, .malloc 100]).1, [1032, 1048]) ∧
    blockSize (after (boot 1000 100000) []
      [.malloc 8, .malloc 4294967288, .free 1032, .malloc 100]).1 1032 = 112 ∧
    blockSize (after (boot 1000 100000) []
      [.malloc 8, .malloc 4294967288, .free 1032, .malloc 100]).1 1048 = 4096 ∧
    ¬ disjointPayload (after (boot 1000 100000) []
      [.malloc 8, .malloc 4294967288, .free 1032, .malloc 100]).1 1032 1048 :=
  ⟨rfl, rfl, rfl, rfl, by decide⟩

/-- C1, amended: after a successful `mm_init` on a fresh arena and any
sequence of `mm_malloc` calls with requests of at most `2^32 - 16` bytes,
`mm_free` calls on live pointers and stores into live payloads, any two
distinct live pointers `p` and `q` have disjoint byte ranges
`[p, p + blockSize p - 8)` and `[q, q + blockSize q - 8)`. -/
theorem no_overlap (s0 s1 s : State) (cs : List Call) (live : List Nat) (hf : Fresh s0)
    (hi : mm_init s0 = .ok (0, s1)) (hc : ∀ c ∈ cs, c.plain = true)
    (hr : run s1 [] cs = .ok (s, live)) (p q : Nat) (hp : p ∈ live) (hq : q ∈ live)
    (hpq : p ≠ q) : disjointPayload s p q :=
  (reach_inv hf hi hc hr).1.disjoint hp hq hpq

theorem no_overlap_witness :
    Fresh (arena 1000 100000) ∧
    mm_init (arena 1000 100000) = .ok (0, boot 1000 100000) ∧
    run (boot 1000 100000) [] [.malloc 100, .malloc 200]
      = .ok ((after (boot 1000 100000) [] [.malloc 100, .malloc 200]).1, [1144, 1032]) ∧
    disjointPayload (after (boot 1000 100000) [] [.malloc 100, .malloc 200]).1 1032 1144 :=
  ⟨fresh_small, rfl, rfl,
    no_overlap (arena 1000 100000) (boot 1000 100000) _ [.malloc 100, .malloc 200] [1144, 1032]
      fresh_small rfl (by decide) rfl 1032 1144 (by decide) (by decide) (by decide)⟩

/-- C2, as the claim states it, fails: right after `mm_init` on the
zero-filled arena from 1000 to 100000 the call `mm_malloc(4294967288)`, whose
adjusted size wraps around to 0, returns 1032, and the header of that block
shows it free with a size of 16: a usable payload of 8 bytes. -/
theorem malloc_usable_counterexample :
    mm_init (arena 1000 100000) = .ok (0, boot 1000 100000) ∧
    (mm_malloc (boot 1000 100000) 4294967288).map (fun r => (r.1, allocBit r.2 r.1,
      blockSize r.2 r.1)) = .ok (1032, 0, 16) ∧
    adjust 4294967288 = 0 :=
  ⟨rfl, rfl, rfl⟩

/-- C2, amended: in every state reached from a successful `mm_init` on a fresh
arena by plain actions, `mm_malloc(size)` with `0 < size ≤ 2^32 - 16` returns,
and when the address `r` it returns is not `NULL` the block at `r` is marked
allocated, its recorded size is a multiple of 8, at least 16 and at least the
adjusted size, which is at least `size + 8`; the adjusted size is 16 when
`size ≤ 8` and `ALIGN(size + 8)` in 32-bit arithmetic otherwise. -/
theorem malloc_usable (s0 s1 s : State) (cs : List Call) (live : List Nat) (hf : Fresh s0)
    (hi : mm_init s0 = .ok (0, s1)) (hc : ∀ c ∈ cs, c.plain = true)
    (hr : run s1 [] cs = .ok (s, live)) (size : Nat) (h0 : 0 < size)
    (h1 : size ≤ 4294967280) :
    ∃ r s', mm_malloc s size = .ok (r, s') ∧
      (r ≠ 0 → allocBit s' r = 1 ∧ blockSize s' r % 8 = 0 ∧ 16 ≤ blockSize s' r ∧
        adjust size ≤ blockSize s' r ∧ size ≤ blockSize s' r - 8) ∧
      adjust size = (if size ≤ 8 then 16 else ALIGN (add32 size 8)) := by
  obtain ⟨r, s', e1, _, _, _, _, _, _, e2⟩ := malloc_step (reach_inv hf hi hc hr).1 size h1
  obtain ⟨_, _, a3, _⟩ := adjust_bounds size h0 h1
  refine ⟨r, s', e1, fun hr0 => ?_, rfl⟩
  obtain ⟨_, _, k1, k2, k3, k4, _⟩ := e2 hr0
  exact ⟨k1, k2, k3, k4, by omega⟩

theorem malloc_usable_witness :
    Fresh (arena 1000 100000) ∧
    mm_init (arena 1000 100000) = .ok (0, boot 1000 100000) ∧
    run (boot 1000 100000) [] [.malloc 100, .free 1032]
      = .ok ((after (boot 1000 100000) [] [.malloc 100, .free 1032]).1, []) ∧
    ∃ r s', mm_malloc (after (boot 1000 100000) [] [.malloc 100, .free 1032]).1 100
        = .ok (r, s') ∧
      (r ≠ 0 → allocBit s' r = 1 ∧ blockSize s' r % 8 = 0 ∧ 16 ≤ blockSize s' r ∧
        adjust 100 ≤ blockSize s' r ∧ 100 ≤ blockSize s' r - 8) ∧
      adjust 100 = (if 100 ≤ 8 then 16 else ALIGN (add32 100 8)) :=
  ⟨fresh_small, rfl, rfl,
    malloc_usable (arena 1000 100000) (boot 1000 100000) _ [.malloc 100, .free 1032] []
      fresh_small rfl (by decide) rfl 100 (by decide) (by decide)⟩

/-- C3, as the claim states it, fails: on the zero-filled arena that starts at
1000 (a multiple of 8), after `mm_malloc(8)` and `mm_malloc(4294967288)`
(which returns 1048, a block that is still in the free list), the application
stores a next link and a header into the payload it was handed, and after
`mm_malloc(4072)` the call `mm_malloc(24)` returns 1061, which is not a
multiple of 8. -/
theorem malloc_aligned_counterexample :
    (arena 1000 100000).brk % 8 = 0 ∧
    mm_init (arena 1000 100000) = .ok (0, boot 1000 100000) ∧
    run (boot 1000 100000) []
        [.malloc 8, .malloc 4294967288, .write 1057 32, .write 1065 240, .write 1066 3,
          .write 1052 37, .write 1053 4, .malloc 4072]
      = .ok ((after (boot 1000 100000) []
        [.malloc 8, .malloc 4294967288, .write 1057 32, .write 1065 240, .write 1066 3,
          .write 1052 37, .write 1053 4, .malloc 4072]).1, [1048, 1048, 1032]) ∧
    (mm_malloc (after (boot 1000 100000) []
        [.malloc 8, .malloc 4294967288, .write 1057 32, .write 1065 240, .write 1066 3,
          .write 1052 37, .write 1053 4, .malloc 4072]).1 24).map (fun r => r.1) = .ok 1061 ∧
    1061 % 8 = 5 :=
  ⟨rfl, rfl, rfl, rfl, rfl⟩

/-- C3, amended: when the region of the provider starts at a multiple of 8,
then in every state reached from a successful `mm_init` on a fresh arena by
plain actions (requests of at most `2^32 - 16` bytes), `mm_malloc(size)` with
`size ≤ 2^32 - 16` returns, and the address it returns is a multiple of 8. -/
theorem malloc_aligned (s0 s1 s : State) (cs : List Call) (live : List Nat) (hf : Fresh s0)
    (h8 : s0.brk % 8 = 0) (hi : mm_init s0 = .ok (0, s1)) (hc : ∀ c ∈ cs, c.plain = true)
    (hr : run s1 [] cs = .ok (s, live)) (size : Nat) (h1 : size ≤ 4294967280) :
    ∃ r s', mm_malloc s size = .ok (r, s') ∧ r % 8 = 0 := by
  obtain ⟨hinv, _, _, hh⟩ := reach_inv hf hi hc hr
  obtain ⟨r, s', e1, _, _, _, _, _, _, e2⟩ := malloc_step hinv size h1
  refine ⟨r, s', e1, ?_⟩
  by_cases hr0 : r = 0
  · rw [hr0]
  · have := (e2 hr0).2.2.2.2.2.2
    rw [this, hh]
    exact h8

theorem malloc_aligned_witness :
    Fresh (arena 1000 100000) ∧ (arena 1000 100000).brk % 8 = 0 ∧
    mm_init (arena 1000 100000) = .ok (0, boot 1000 100000) ∧
    run (boot 1000 100000) [] [.malloc 100, .free 1032, .malloc 3]
      = .ok ((after (boot 1000 100000) [] [.malloc 100, .free 1032, .malloc 3]).1, [1032]) ∧
    ∃ r s', mm_malloc (after (boot 1000 100000) [] [.malloc 100, .free 1032, .malloc 3]).1 21
      = .ok (r, s') ∧ r % 8 = 0 :=
  ⟨fresh_small, rfl, rfl, rfl,
    malloc_aligned (arena 1000 100000) (boot 1000 100000) _
      [.malloc 100, .free 1032, .malloc 3] [1032] fresh_small rfl rfl (by decide) rfl 21
      (by decide)⟩

set_option maxRecDepth 100000 in
/-- C5, as the claim states it, fails: on the zero-filled arena from 1000 to
100000 the calls `mm_malloc(8)`, `mm_malloc(4294967288)`, `mm_free(1032)`,
`mm_malloc(100)`, `mm_free(1048)`, `mm_malloc(5000)` leave the blocks at 1144
(size 4000) and at 5144 = 1144 + 4000 both free. -/
theorem no_adjacent_free_counterexample :
    mm_init (arena 1000 100000) = .ok (0, boot 1000 100000) ∧
    (run (boot 1000 100000) []
        [.malloc 8, .malloc 4294967288, .free 1032, .malloc 100, .free 1048,
          .malloc 5000]).map (fun r => blocks r.1)
      = .ok [(1032, 112, 1), (1144, 4000, 0), (5144, 5008, 0)] :=
  ⟨rfl, rfl⟩

/-- C5, amended: in every state reached from a successful `mm_init` on a fresh
arena by `mm_malloc` calls with requests of at most `2^32 - 16` bytes,
`mm_free` calls on live pointers and stores into live payloads, no block of
the heap is free together with the block that physically follows it. -/
theorem no_adjacent_free (s0 s1 s : State) (cs : List Call) (live : List Nat)
    (hf : Fresh s0) (hi : mm_init s0 = .ok (0, s1)) (hc : ∀ c ∈ cs, c.plain = true)
    (hr : run s1 [] cs = .ok (s, live)) :
    ∀ p ∈ heapBlocks s, ¬ (allocBit s p = 0 ∧ allocBit s (p + blockSize s p) = 0) := by
  obtain ⟨⟨B, fl, hrep, _, _⟩, _, _, _⟩ := reach_inv hf hi hc hr
  exact hrep.no_adjacent

theorem no_adjacent_free_witness :
    Fresh (arena 1000 100000) ∧
    mm_init (arena 1000 100000) = .ok (0, boot 1000 100000) ∧
    run (boot 1000 100000) [] [.malloc 50, .malloc 50, .free 1032]
      = .ok ((after (boot 1000 100000) [] [.malloc 50, .malloc 50, .free 1032]).1, [1096]) ∧
    blocks (after (boot 1000 100000) [] [.malloc 50, .malloc 50, .free 1032]).1
      = [(1032, 64, 0), (1096, 64, 1), (1160, 3984, 0)] ∧
    ∀ p ∈ heapBlocks (after (boot 1000 100000) [] [.malloc 50, .malloc 50, .free 1032]).1,
      ¬ (allocBit (after (boot 1000 100000) [] [.malloc 50, .malloc 50, .free 1032]).1 p = 0 ∧
        allocBit (after (boot 1000 100000) [] [.malloc 50, .malloc 50, .free 1032]).1
          (p + blockSize (after (boot 1000 100000) []
            [.malloc 50, .malloc 50, .free 1032]).1 p) = 0) :=
  ⟨fresh_small, rfl, rfl, rfl,
    no_adjacent_free (arena 1000 100000) (boot 1000 100000) _
      [.malloc 50, .malloc 50, .free 1032] [1096] fresh_small rfl (by decide) rfl⟩

/-- C6, as the claim states it, fails: on the zero-filled arena from 1000 to
100000, after `mm_malloc(8)`, `mm_malloc(4294967288)`, `mm_free(1032)`,
`mm_malloc(100)` the pointers 1032 (an allocated block of 112 bytes) and 1048
are live, and `mm_free(1048)` writes a free-list link at 1052, inside the
payload `[1032, 1136)` of 1032: the byte there changes from 240 to 120. -/
theorem payload_durable_counterexample :
    mm_init (arena 1000 100000) = .ok (0, boot 1000 100000) ∧
    run (boot 1000 100000) []
        [.malloc 8, .malloc 4294967288, .free 1032, .malloc 100]
      = .ok ((after (boot 1000 100000) []
          [.malloc 8, .malloc 4294967288, .free 1032, .malloc 100]).1, [1032, 1048]) ∧
    allocBit (after (boot 1000 100000) []
      [.malloc 8, .malloc 4294967288, .free 1032, .malloc 100]).1 1032 = 1 ∧
    blockSize (after (boot 1000 100000) []
      [.malloc 8, .malloc 4294967288, .free 1032, .malloc 100]).1 1032 = 112 ∧
    (after (boot 1000 100000) []
      [.malloc 8, .malloc 4294967288, .free 1032, .malloc 100]).1.mem 1052 = 240 ∧
    (mm_free (after (boot 1000 100000) []
      [.malloc 8, .malloc 4294967288, .free 1032, .malloc 100]).1 1048).map
        (fun s => s.mem 1052) = .ok 120 :=
  ⟨rfl, rfl, rfl, rfl, rfl, rfl⟩

/-- C6, amended: in every state reached from a successful `mm_init` on a fresh
arena by plain actions (requests of at most `2^32 - 16` bytes), for every live
pointer `p`, a call `mm_malloc(size)` with `size ≤ 2^32 - 16` or a call
`mm_free(q)` on a live pointer `q ≠ p` completes, keeps `p` live with the same
recorded size and leaves every byte of `[p, p + blockSize p - 8)` as it
was. -/
theorem payload_durable (s0 s1 s : State) (cs : List Call) (live : List Nat)
    (hf : Fresh s0) (hi : mm_init s0 = .ok (0, s1)) (hc : ∀ c ∈ cs, c.plain = true)
    (hr : run s1 [] cs = .ok (s, live)) (p : Nat) (hp : p ∈ live) (c : Call)
    (hcall : (∃ size, c = .malloc size ∧ size ≤ 4294967280) ∨
      (∃ q, c = .free q ∧ q ∈ live ∧ q ≠ p)) :
    ∃ s' live', step s live c = .ok (s', live') ∧ p ∈ live' ∧
      blockSize s' p = blockSize s p ∧
      ∀ a, p ≤ a → a < p + (blockSize s p - 8) → s'.mem a = s.mem a := by
  have hinv := (reach_inv hf hi hc hr).1
  rcases hcall with ⟨size, rfl, h1⟩ | ⟨q, rfl, hq, hqp⟩
  · obtain ⟨r, s', e1, _, _, _, _, _, e2, _⟩ := malloc_step hinv size h1
    refine ⟨s', if r = 0 then live else r :: live, ?_, ?_, (e2 p hp).1, (e2 p hp).2⟩
    · simp only [step, e1, ok_bind]
      rfl
    · split
      · exact hp
      · exact List.mem_cons_of_mem _ hp
  · obtain ⟨s', e1, _, _, e2⟩ := free_step hinv hq
    refine ⟨s', live.erase q, ?_, (List.mem_erase_of_ne (Ne.symm hqp)).2 hp,
      (e2 p hp (Ne.symm hqp)).1, (e2 p hp (Ne.symm hqp)).2⟩
    simp only [step, hq, if_true, e1, ok_bind]
    rfl

theorem payload_durable_witness :
    Fresh (arena 1000 100000) ∧
    mm_init (arena 1000 100000) = .ok (0, boot 1000 100000) ∧
    run (boot 1000 100000) [] [.malloc 100, .malloc 200]
      = .ok ((after (boot 1000 100000) [] [.malloc 100, .malloc 200]).1, [1144, 1032]) ∧
    ∃ s' live', step (after (boot 1000 100000) [] [.malloc 100, .malloc 200]).1 [1144, 1032]
        (.free 1032) = .ok (s', live') ∧ 1144 ∈ live' ∧
      blockSize s' 1144
        = blockSize (after (boot 1000 100000) [] [.malloc 100, .malloc 200]).1 1144 ∧
      ∀ a, 1144 ≤ a →
        a < 1144 + (blockSize (after (boot 1000 100000) []
          [.malloc 100, .malloc 200]).1 1144 - 8) →
        s'.mem a = (after (boot 1000 100000) [] [.malloc 100, .malloc 200]).1.mem a :=
  ⟨fresh_small, rfl, rfl,
    payload_durable (arena 1000 100000) (boot 1000 100000) _ [.malloc 100, .malloc 200]
      [1144, 1032] fresh_small rfl (by decide) rfl 1144 (by decide) (.free 1032)
      (Or.inr ⟨1032, rfl, by decide, by decide⟩)⟩

/-! ## `coalesce` -/

theorem merged_mem (L : List Blk) (b : Blk) (R : List Blk) :
    (⟨mergedBp L b, mergedSize L b R, 0⟩ : Blk) ∈ mergedBlocks L b R := by
  unfold mergedBlocks; simp

theorem PreCo.mergedBp_le {s : State} {L R : List Blk} {b : Blk} {fl : List Nat}
    (pre : PreCo s L b R fl) : mergedBp L b ≤ b.bp := by
  unfold mergedBp
  split
  · rcases List.eq_nil_or_concat' L with rfl | ⟨L', p, rfl⟩
    · rw [prevBp_nil]
    · rw [prevBp_concat]
      have := (Seg_split_bounds pre.heap.layout.seg).1 p (by simp)
      omega
  · exact le_refl _

/-- The state of the scenario of C7 before the last call: the blocks of `a` and
of the rest are free, the block of `b` is allocated. -/
theorem scenario_rep :
    Rep (after (boot 1000 100000) [] [.malloc 50, .malloc 50, .free 1032]).1
      ([⟨1032, 64, 0⟩] ++ ⟨1096, 64, 1⟩ :: [⟨1160, 3984, 0⟩]) [1032, 1160] := by
  refine ⟨⟨⟨?_, ?_, ?_, ?_, ?_, ?_, ?_⟩, ?_, ?_, ?_, ?_⟩, ?_, ?_, ?_, ?_⟩
  · decide
  · decide
  · decide
  · simp only [Seg, Tagged, List.cons_append, List.nil_append]
    decide
  · rfl
  · rfl
  · exact ⟨rfl, rfl⟩
  · simp only [Links]
    decide
  · rfl
  · decide
  · decide
  · decide
  · decide
  · decide
  · simp [NoAdj]

/-- C7: in a heap that satisfies the invariant around a block `b` that was
just marked free (the blocks `L` before it and `R` after it), `coalesce(bp)`
returns; the block it returns starts at the previous block when that one is
free and at `bp` otherwise (`mergedBp`), it is free and its recorded size is
the size of `b` plus the sizes of the free neighbours (`mergedSize`); the
invariant holds again for the merged block sequence, the free list is the old
one without the merged neighbours and with the result in front, the result
occurs in it exactly once, and a merged next block is no longer in it. -/
theorem coalesce_merges (s : State) (L : List Blk) (b : Blk) (R : List Blk) (fl : List Nat)
    (pre : PreCo s L b R fl) :
    ∃ s', coalesce s b.bp = .ok (mergedBp L b, s') ∧
      Rep s' (mergedBlocks L b R) (mergedFree L b fl) ∧
      allocBit s' (mergedBp L b) = 0 ∧
      blockSize s' (mergedBp L b) = mergedSize L b R ∧
      freeList s' = mergedFree L b fl ∧
      (mergedFree L b fl).count (mergedBp L b) = 1 ∧
      (nextAlloc R = 0 → b.bp + b.size ∉ mergedFree L b fl) ∧
      (prevAlloc L = 0 → mergedBp L b = prevBp L b.bp ∧
        (mergedFree L b fl).count (prevBp L b.bp) = 1) := by
  obtain ⟨s', e1, e2, _, _⟩ := coalesce_rep pre
  obtain ⟨k1, k2⟩ := e2.header (merged_mem L b R)
  have hnd := e2.heap.nodup
  have hcount : (mergedFree L b fl).count (mergedBp L b) = 1 :=
    List.count_eq_one_of_mem hnd (by unfold mergedFree; exact List.mem_cons_self _ _)
  refine ⟨s', e1, e2, k2, k1, e2.chain_eq, hcount, ?_, ?_⟩
  · intro _ hm
    unfold mergedFree at hm
    rcases List.mem_cons.1 hm with h | h
    · have := pre.mergedBp_le
      have := (Seg_split_bounds pre.heap.layout.seg).2.2
      omega
    · exact absurd h (List.Nodup.not_mem_erase (pre.heap.nodup.erase _))
  · intro hp
    have : mergedBp L b = prevBp L b.bp := by unfold mergedBp; rw [if_pos hp]
    exact ⟨this, this ▸ hcount⟩

/-- The scenario of C7 on the zero-filled arena from 1000 to 100000: after
`a = mm_malloc(50)`, `b = mm_malloc(50)`, `mm_free(a)` the call `mm_free(b)`
marks the block of `b` free and calls `coalesce` between the free block of `a`
and the free rest of the heap; the result is the one block at `a` of 4112
bytes, the whole heap, and it is the only node of the free list. -/
theorem coalesce_merges_witness :
    PreCo (retag (after (boot 1000 100000) [] [.malloc 50, .malloc 50, .free 1032]).1 1096 64 0)
      [⟨1032, 64, 0⟩] ⟨1096, 64, 0⟩ [⟨1160, 3984, 0⟩] [1032, 1160] ∧
    (∃ s', coalesce (retag (after (boot 1000 100000) []
          [.malloc 50, .malloc 50, .free 1032]).1 1096 64 0) 1096 = .ok (1032, s') ∧
      Rep s' [⟨1032, 4112, 0⟩] [1032] ∧
      allocBit s' 1032 = 0 ∧ blockSize s' 1032 = 4112 ∧ freeList s' = [1032] ∧
      [1032].count 1032 = 1 ∧
      (nextAlloc [⟨1160, 3984, 0⟩] = 0 → 1096 + 64 ∉ [1032]) ∧
      (prevAlloc [⟨1032, 64, 0⟩] = 0 → 1032 = 1032 ∧ [1032].count 1032 = 1)) ∧
    (run (boot 1000 100000) [] [.malloc 50, .malloc 50, .free 1032, .free 1096]).map
      (fun r => (blocks r.1, freeList r.1)) = .ok ([(1032, 4112, 0)], [1032]) :=
  ⟨PreCo_of_free scenario_rep rfl,
    coalesce_merges _ [⟨1032, 64, 0⟩] ⟨1096, 64, 0⟩ [⟨1160, 3984, 0⟩] [1032, 1160]
      (PreCo_of_free scenario_rep rfl), rfl⟩

/-! ## `place` with the adjusted size 0 -/

theorem load32_congr {m m' : Nat → Nat} {q : Nat}
    (h : ∀ a, q ≤ a → a < q + 4 → m' a = m a) : load32 m' q = load32 m q := by
  unfold load32
  rw [h q (le_refl _) (by omega), h (q + 1) (by omega) (by omega),
    h (q + 2) (by omega) (by omega), h (q + 3) (by omega) (by omega)]

/-- A sequence of blocks none of which is taken as written lies in every
memory. -/
theorem Seg_unwritten {m m' : Nat → Nat} : ∀ {B : List Blk} {a e : Nat}, Seg m a B e →
    Seg m' a (B.map (fun d => (⟨d.bp, d.size, 2⟩ : Blk))) e
  | [], _, _, h => h
  | b :: bs, a, e, h => by
    obtain ⟨h1, h2, h3, _, h5⟩ := h
    exact ⟨h1, h2, h3, fun h2' => absurd h2' (by show ¬ (2 ≤ 1); omega), Seg_unwritten h5⟩

/-- The function `place` with the size 0, which is the adjusted size of a
request of `2^32 - 15` to `2^32 - 8` bytes, on a free block of a state that
satisfies the invariant: the call returns and leaves the registers of the
provider as they were.  (It writes a header of size 0, writes the footer
that belongs to it into the word before the header, unlinks the block, takes
the block itself for the remainder of the split, gives it its old header and
footer back and links it in again through `coalesce`.) -/
theorem place_zero_of {s : State} {L R : List Blk} {b : Blk} {fl : List Nat}
    (h : Rep s (L ++ b :: R) fl) (hb : b.alloc = 0) {asize : Nat} (hz : asize = 0) :
    ∃ s', place s b.bp asize = .ok s' ∧ Regs s s' := by
  obtain ⟨_, hsL, hsR, _, hb1, hb2, hb3, hb4, hb5⟩ := h.heap.around
  obtain ⟨t1, t2, t3, t4⟩ := hb5 (by omega)
  have hlo := h.heap.layout.lo_le
  have hhi := h.heap.layout.hi_lt
  have hbrk := h.heap.layout.brk_le
  have hseg := h.heap.layout.seg
  have hbf : b.bp ∈ fl := h.sync b (by simp) hb
  have hnext := h.next_of_free hb
  have hwR : ∀ c ∈ R, c.alloc ≤ 1 := fun c hc => h.written c (by simp [hc])
  -- where the first block lies
  have hfirst : b.bp = s.heap_listp + 32 ∨ s.heap_listp + 48 ≤ b.bp := by
    cases L with
    | nil => left; simp only [Seg] at hsL; omega
    | cons d L' =>
      right
      have := Seg_length hsL
      simp only [List.length_cons] at this
      omega
  -- the nodes of the free list lie apart from the two words before the payload
  have hnode : ∀ y ∈ fl, y = b.bp ∨ y + 16 ≤ b.bp ∨ b.bp + b.size ≤ y := by
    intro y hy
    obtain ⟨d, hd, e1, _, _, _⟩ := h.heap.node hy
    have hdm := Seg_mem hseg d hd
    rcases Seg_apart hseg d hd b (by simp) with e | e | e
    · left; rw [← e1, e]
    · right; left; omega
    · right; right; omega
  clear t2 t3 t4
  -- the reads and writes before the node is unlinked
  have r1 : GET_SIZE s (HDRP b.bp) = .ok b.size := by
    rw [GET_SIZE_hdr s _ ⟨by omega, by omega⟩ (by omega) (by omega), t1]
  have esub : sub32 b.size 0 = b.size := sub32_eq _ _ (by omega) (by omega)
  have p1 : PUT s (HDRP b.bp) (PACK 0 1) = .ok (putw s (b.bp - 4) 0 1) := by
    rw [HDRP_eq _ (by omega) (by omega)]
    exact PUT_putw s _ 0 1 ⟨by omega, by omega⟩ (by omega) (by omega)
  have q1 := (putw_same s (b.bp - 4) 0 1 (by omega) (by omega) (by omega)).1
  have p2 : FTRP (putw s (b.bp - 4) 0 1) b.bp = .ok (b.bp - 8) := by
    have := FTRP_ok (putw s (b.bp - 4) 0 1) b.bp 0
      ⟨by show s.lo ≤ _; omega, by show _ ≤ s.brk; omega⟩ (by omega) q1 (by omega)
      (by omega)
    simpa using this
  have p3 : PUT (putw s (b.bp - 4) 0 1) (b.bp - 8) (PACK 0 1)
      = .ok (putw (putw s (b.bp - 4) 0 1) (b.bp - 8) 0 1) :=
    PUT_putw _ _ 0 1 ⟨by show s.lo ≤ _; omega, by show _ ≤ s.brk; omega⟩ (by omega)
      (by omega)
  have q2 := (putw_same (putw s (b.bp - 4) 0 1) (b.bp - 8) 0 1 (by omega) (by omega)
    (by omega)).1
  have q1' : load32 (putw (putw s (b.bp - 4) 0 1) (b.bp - 8) 0 1).mem (b.bp - 4) / 8 * 8 = 0 := by
    rw [putw_other _ _ _ _ _ (by omega)]
    exact q1
  -- the heap in the state that `remove_from_list` is called in
  have k2 : Heap (putw (putw s (b.bp - 4) 0 1) (b.bp - 8) 0 1)
      (L.map (fun d => (⟨d.bp, d.size, 2⟩ : Blk)) ++ ⟨b.bp, b.size, 2⟩ :: R) fl := by
    refine ⟨⟨hlo, hhi, hbrk, ?_, ?_, ?_, ?_⟩, ?_, h.heap.head, h.heap.nodup, ?_⟩
    · rw [Seg_append]
      refine ⟨b.bp, Seg_unwritten hsL, rfl, hb3, hb4,
        fun h2' => absurd h2' (by show ¬ (2 ≤ 1); omega), ?_⟩
      have sR1 : Seg (store32 s.mem (b.bp - 4) (0 + 1 + 2 * (load32 s.mem (b.bp - 4) / 2 % 2)))
          (b.bp + b.size) R s.brk :=
        Seg_store_below (b.bp - 4) _ (by omega) (by omega) hsR
      exact Seg_store_below (b.bp - 8) _ (by omega) (by omega) sR1
    · rcases hfirst with e | e
      · have : s.heap_listp + 24 = b.bp - 8 := by omega
        show load32 (putw (putw s (b.bp - 4) 0 1) (b.bp - 8) 0 1).mem (s.heap_listp + 24)
          / 8 * 8 = 0
        rw [this]
        exact q2
      · show load32 (putw (putw s (b.bp - 4) 0 1) (b.bp - 8) 0 1).mem (s.heap_listp + 24)
          / 8 * 8 = 0
        rw [putw_other _ _ _ _ _ (by omega), putw_other _ _ _ _ _ (by omega)]
        exact h.heap.layout.gap
    · show load32 (putw (putw s (b.bp - 4) 0 1) (b.bp - 8) 0 1).mem (s.heap_listp + 4) % 2 = 1
      rw [putw_other _ _ _ _ _ (by omega), putw_other _ _ _ _ _ (by omega)]
      exact h.heap.layout.prologue
    · show load32 (putw (putw s (b.bp - 4) 0 1) (b.bp - 8) 0 1).mem (s.brk - 4) / 8 * 8 = 0 ∧
        load32 (putw (putw s (b.bp - 4) 0 1) (b.bp - 8) 0 1).mem (s.brk - 4) % 2 = 1
      rw [putw_other _ _ _ _ _ (by omega), putw_other _ _ _ _ _ (by omega)]
      exact h.heap.layout.epilogue
    · refine Links_store _ _ ?_ (Links_store _ _ ?_ h.heap.links)
      · intro y hy
        have := hnode y hy
        omega
      · intro y hy
        have := hnode y hy
        omega
    · intro x hx
      obtain ⟨d, hd, e1⟩ := h.heap.sub x hx
      simp only [List.mem_append, List.mem_cons] at hd
      rcases hd with hd | hd | hd
      · exact ⟨⟨d.bp, d.size, 2⟩, by
          simp only [List.mem_append, List.mem_map, List.mem_cons]
          exact Or.inl ⟨d, hd, rfl⟩, e1⟩
      · exact ⟨⟨b.bp, b.size, 2⟩, by simp, by rw [← e1, hd]⟩
      · exact ⟨d, by simp [hd], e1⟩
  obtain ⟨s3, e3, k3, g3, f3⟩ := Heap_remove k2 hbf
  obtain ⟨g31, g32, g33, g34, g35, g36⟩ := g3
  have g31' : s3.lo = s.lo := g31
  have g32' : s3.brk = s.brk := g32
  have g34' : s3.heap_listp = s.heap_listp := g34
  -- the two words before the payload are as they were written
  have z1 : load32 s3.mem (b.bp - 4) / 8 * 8 = 0 := by
    rw [load32_congr (fun a a1 a2 => f3 a (fun y hy hne => by
      have := hnode y hy
      omega) (by
      show a < s.heap_listp + 8 ∨ s.heap_listp + 12 ≤ a
      omega))]
    exact q1'
  have z2 : load32 s3.mem (b.bp - 8) / 8 * 8 = 0 := by
    rw [load32_congr (fun a a1 a2 => f3 a (fun y hy hne => by
      have := hnode y hy
      omega) (by
      show a < s.heap_listp + 8 ∨ s.heap_listp + 12 ≤ a
      omega))]
    exact q2
  have r2 : NEXT_BLKP s3 b.bp = .ok b.bp := by
    have := NEXT_BLKP_ok s3 b.bp 0 ⟨by omega, by omega⟩ (by omega) z1 (by omega)
    simpa using this
  -- the block gets its header and footer back
  obtain ⟨v1, v2, v3⟩ := retag_eval s3 b.bp b.size 0 (by omega) hb3 hb4 (by omega) (by omega)
    (by omega) (by omega)
  have k3' : Heap s3 (L.map (fun d => (⟨d.bp, d.size, 2⟩ : Blk))
      ++ ((⟨b.bp, b.size, 2⟩ : Blk) :: []) ++ R) (fl.erase b.bp) := by simpa using k3
  have htot : total ((⟨b.bp, b.size, 2⟩ : Blk) :: []) = b.size := by simp [total]
  have k4 := Heap_retag k3' b.size 0 hb3 hb4 (by omega) (by rw [htot]) (by rw [htot]; omega)
    (by simp)
  have hrest : restBlk b.bp (total ((⟨b.bp, b.size, 2⟩ : Blk) :: [])) b.size = [] := by
    simp [restBlk, htot]
  have k4a : Heap (retag s3 b.bp b.size 0) (L.map (fun d => (⟨d.bp, d.size, 2⟩ : Blk))
      ++ (⟨b.bp, b.size, 0⟩
        :: restBlk b.bp (total ((⟨b.bp, b.size, 2⟩ : Blk) :: [])) b.size)
      ++ R) (fl.erase b.bp) := k4
  rw [hrest] at k4a
  have k5 : Heap (retag s3 b.bp b.size 0)
      (L.map (fun d => (⟨d.bp, d.size, 2⟩ : Blk)) ++ ⟨b.bp, b.size, 0⟩ :: R)
      (fl.erase b.bp) := by simpa using k4a
  -- `coalesce` finds no free neighbour
  obtain ⟨_, _, hsR5, _, _, _, _, _, hb5'⟩ := k5.around
  obtain ⟨y1, y2, y3, y4⟩ := hb5' (by show 0 ≤ 1; omega)
  have y1' : load32 (retag s3 b.bp b.size 0).mem (b.bp - 4) / 8 * 8 = b.size := y1
  have y4' : load32 (retag s3 b.bp b.size 0).mem (b.bp + b.size - 8) % 2 = 0 := y4
  have hsR5' : Seg (retag s3 b.bp b.size 0).mem (b.bp + b.size) R s3.brk := hsR5
  have hep := k5.layout.epilogue.2
  have hep' : load32 (retag s3 b.bp b.size 0).mem (s3.brk - 4) % 2 = 1 := hep
  have z2' : load32 (retag s3 b.bp b.size 0).mem (b.bp - 8) / 8 * 8 = 0 := by
    rw [retag_load_other _ _ _ _ _ (by omega) (by omega) (by omega)]
    exact z2
  clear y1 y2 y3 y4 hb5' hsR5 hep k4 k4a k3' k3 k2 f3 z1 z2 q1 q2 q1' t1 hsL hsR hseg
  have inr : ∀ q, s.lo ≤ q → q + 4 ≤ s.brk → inRegion (retag s3 b.bp b.size 0) q := by
    intro q h1 h2
    exact ⟨by show s3.lo ≤ q; omega, by show q + 4 ≤ s3.brk; omega⟩
  have c1 : NEXT_BLKP (retag s3 b.bp b.size 0) b.bp = .ok (b.bp + b.size) :=
    NEXT_BLKP_ok _ b.bp b.size (inr _ (by omega) (by omega)) (by omega) y1' (by omega)
  have c2 : GET_ALLOC (retag s3 b.bp b.size 0) (HDRP (b.bp + b.size)) = .ok 1 := by
    rw [GET_ALLOC_hdr _ _ (inr _ (by omega) (by omega)) (by omega) (by omega)]
    cases R with
    | nil =>
      simp only [Seg] at hsR5'
      rw [hsR5', hep']
    | cons n R' =>
      obtain ⟨n1, n2, n3, n4, n5⟩ := hsR5'
      obtain ⟨u1, u2, u3, u4⟩ := n4 (hwR n (List.mem_cons_self _ _))
      rw [n1] at u2
      rw [u2]
      exact congrArg _ hnext
  have c3 : PREV_BLKP (retag s3 b.bp b.size 0) b.bp = .ok b.bp := by
    have := PREV_BLKP_ok (retag s3 b.bp b.size 0) b.bp 0 (inr _ (by omega) (by omega))
      (by omega) z2' (by omega) (by omega)
    simpa using this
  have c4 : FTRP (retag s3 b.bp b.size 0) b.bp = .ok (b.bp + b.size - 8) :=
    FTRP_ok _ b.bp b.size (inr _ (by omega) (by omega)) (by omega) y1' (by omega) (by omega)
  have c5 : GET_ALLOC (retag s3 b.bp b.size 0) (b.bp + b.size - 8) = .ok 0 := by
    rw [GET_ALLOC_ok _ _ (inr _ (by omega) (by omega)), y4']
  have c6 : GET_SIZE (retag s3 b.bp b.size 0) (HDRP b.bp) = .ok b.size := by
    rw [GET_SIZE_hdr _ _ (inr _ (by omega) (by omega)) (by omega) (by omega), y1']
  obtain ⟨s6, e6, _, g6, _⟩ := Heap_add k5 ⟨⟨b.bp, b.size, 0⟩, by simp, rfl⟩
    (List.Nodup.not_mem_erase h.heap.nodup)
  have ec : coalesce (retag s3 b.bp b.size 0) b.bp = .ok (b.bp, s6) := by
    unfold coalesce
    simp only [c1, c2, c3, c4, c5, c6, ok_bind, e6]
    simp
  have hyes : 4 * WSIZE ≤ b.size := by unfold WSIZE; omega
  have esub' : sub32 b.size asize = b.size := by rw [hz]; exact esub
  have p1' : PUT s (HDRP b.bp) (PACK asize 1) = .ok (putw s (b.bp - 4) 0 1) := by
    rw [hz]; exact p1
  have p3' : PUT (putw s (b.bp - 4) 0 1) (b.bp - 8) (PACK asize 1)
      = .ok (putw (putw s (b.bp - 4) 0 1) (b.bp - 8) 0 1) := by
    rw [hz]; exact p3
  refine ⟨s6, ?_, ?_⟩
  · unfold place
    simp only [r1, ok_bind, esub', ge_iff_le, hyes, if_true, p1', p2, p3', e3, r2, v1, v2, v3, ec]
    rfl
  · have hA : Regs s s3 := ⟨g31, g32, g33, g34, g35, g36⟩
    have hB : Regs s3 s6 := g6
    exact Regs.trans hA hB

/-- The adjusted size of a request above `2^32 - 16` bytes wraps around: it
is 0 for requests up to `2^32 - 8` and 8 for larger ones. -/
theorem adjust_wrap (size : Nat) (h1 : 4294967280 < size) (h2 : size < 4294967296) :
    (size ≤ 4294967288 ∧ adjust size = 0) ∨ (4294967288 < size ∧ adjust size = 8) := by
  interval_cases size
  · exact Or.inl ⟨by omega, rfl⟩
  · exact Or.inl ⟨by omega, rfl⟩
  · exact Or.inl ⟨by omega, rfl⟩
  · exact Or.inl ⟨by omega, rfl⟩
  · exact Or.inl ⟨by omega, rfl⟩
  · exact Or.inl ⟨by omega, rfl⟩
  · exact Or.inl ⟨by omega, rfl⟩
  · exact Or.inl ⟨by omega, rfl⟩
  · exact Or.inr ⟨by omega, rfl⟩
  · exact Or.inr ⟨by omega, rfl⟩
  · exact Or.inr ⟨by omega, rfl⟩
  · exact Or.inr ⟨by omega, rfl⟩
  · exact Or.inr ⟨by omega, rfl⟩
  · exact Or.inr ⟨by omega, rfl⟩
  · exact Or.inr ⟨by omega, rfl⟩

/-- The function `mm_malloc` for a request whose adjusted size has wrapped
around, when the repeat-size escape does not fire and the scan finds a node:
the node is returned and the end of the region stays where it was, provided
that for the adjusted size 8 the node is a block of 16 bytes, which `place`
hands out whole. -/
theorem malloc_wrapped {s : State} {B : List Blk} {fl : List Nat} (h : Rep s B fl)
    (size : Nat) (h1 : 4294967280 < size) (h2 : size < 4294967296)
    (hesc : ¬ escapes s (adjust size)) (hne : firstFit s fl (adjust size) ≠ 0)
    (hsplit : adjust size = 8 → load32 s.mem (firstFit s fl (adjust size) - 4) / 8 * 8 = 16) :
    ∃ s', mm_malloc s size = .ok (firstFit s fl (adjust size), s') ∧ s'.brk = s.brk := by
  obtain ⟨s1, e1, hs1⟩ := fit_scan_rep h (adjust size) hesc
  have h1' : Rep s1 B fl := Rep_congr hs1 h
  have hnz : ∀ y ∈ fl, y ≠ 0 := by
    intro y hy
    obtain ⟨_, _, _, hy1, _, _⟩ := h.heap.node hy
    omega
  rcases firstFit_spec s (adjust size) fl hnz with ⟨hz, _⟩ | ⟨hm, hfit⟩
  · exact absurd hz hne
  obtain ⟨b, hb, eb, _, _, _⟩ := h.heap.node hm
  have hb0 : b.alloc = 0 := h.free _ hm b hb eb
  obtain ⟨t1, _, _, _⟩ := (Seg_mem h.heap.layout.seg b hb).2.2.2.2 (by omega)
  rw [eb] at t1
  obtain ⟨L, R, rfl⟩ := List.append_of_mem hb
  have key : ∃ s', place s1 b.bp (adjust size) = .ok s' ∧ Regs s1 s' := by
    rcases adjust_wrap size h1 h2 with ⟨_, ha⟩ | ⟨_, ha⟩
    · exact place_zero_of h1' hb0 ha
    · have h16 := hsplit ha
      rw [t1] at h16
      obtain ⟨s', f1, _, f3, _⟩ := @place_whole s1 L R b fl (adjust size) h1' hb0
        (by rw [ha, h16]; omega) (by rw [ha, h16]; omega)
      exact ⟨s', f1, f3⟩
  obtain ⟨s', f1, f3⟩ := key
  rw [eb] at f1
  refine ⟨s', ?_, by rw [f3.2.1, hs1.2.2.1]⟩
  rw [mm_malloc_unfold s size (by omega)]
  simp only [e1, ok_bind, ne_eq, hne, not_false_eq_true, if_true, f1]
  rfl

/-! ## First fit, and `mm_realloc` -/

/-- C8, as the claim states it, fails.  On the zero-filled arena from 1000 to
100000, `mm_malloc(8)` returns 1032 and `mm_malloc(4294967288)`, whose
adjusted size wraps around to 0, returns 1048 but leaves that block of 4096
bytes free and at the head of the free list; the application stores the byte
1 at 1048, the first byte of the payload it was handed, which is the previous
link of the node.  Now the repeat-size escape does not fire for
`mm_malloc(100)` and 1048 is the first node that is large enough, but the
call does not return it: `place` unlinks the node, `remove_from_list` reads
the previous link 1 and stores the next link through it, at the address 5
outside the region.  Also, with nothing but `mm_init` done, the free list
holds the block at 1032 of 16 bytes, which is what `mm_malloc` asks for when
the request is at most 8 bytes, but `mm_malloc(0)` returns `NULL`. -/
theorem first_fit_reuse_counterexample :
    mm_init (arena 1000 100000) = .ok (0, boot 1000 100000) ∧
    run (boot 1000 100000) [] [.malloc 8, .malloc 4294967288, .write 1048 1]
      = .ok ((after (boot 1000 100000) []
          [.malloc 8, .malloc 4294967288, .write 1048 1]).1, [1048, 1032]) ∧
    adjust 4294967288 = 0 ∧
    blocks (after (boot 1000 100000) [] [.malloc 8, .malloc 4294967288, .write 1048 1]).1
      = [(1032, 16, 1), (1048, 4096, 0)] ∧
    freeList (after (boot 1000 100000) [] [.malloc 8, .malloc 4294967288, .write 1048 1]).1
      = [1048] ∧
    ¬ escapes (after (boot 1000 100000) [] [.malloc 8, .malloc 4294967288, .write 1048 1]).1
      (adjust 100) ∧
    (freeList
        (after (boot 1000 100000) [] [.malloc 8, .malloc 4294967288, .write 1048 1]).1).find?
      (fun y => decide (adjust 100 ≤ blockSize
        (after (boot 1000 100000) [] [.malloc 8, .malloc 4294967288, .write 1048 1]).1 y))
      = some 1048 ∧
    (mm_malloc (after (boot 1000 100000) []
        [.malloc 8, .malloc 4294967288, .write 1048 1]).1 100).map (fun r => r.1)
      = .error .fault ∧
    ¬ escapes (boot 1000 100000) (adjust 0) ∧
    (freeList (boot 1000 100000)).find?
      (fun y => decide (adjust 0 ≤ blockSize (boot 1000 100000) y)) = some 1032 ∧
    (mm_malloc (boot 1000 100000) 0).map (fun r => r.1) = .ok 0 :=
  ⟨rfl, rfl, rfl, rfl, rfl, by decide, rfl, rfl, by decide, rfl, rfl⟩

/-- A request of `2^32 - 7` bytes or more has the adjusted size 8, less than
the smallest block.  When its first fit has 24 bytes or more, `place` splits
it, and the footer of the 8-byte block is the word at `bp` itself, the
previous link of the node that `remove_from_list` reads next.  In this model,
where a word reads back what was last stored there, the call then stores
through the address `9 + 4` and does not return: on the zero-filled arena
from 1000 to 100000, after `mm_malloc(100)`, the first fit of
`mm_malloc(4294967295)` is the block at 1144 of 4000 bytes, and the call
faults.  (The store goes through `unsigned int *` and the read through
`char **`, so a compiled build may order them differently.) -/
theorem undersized_split_faults :
    run (boot 1000 100000) [] [.malloc 100]
      = .ok ((after (boot 1000 100000) [] [.malloc 100]).1, [1032]) ∧
    adjust 4294967295 = 8 ∧
    ¬ escapes (after (boot 1000 100000) [] [.malloc 100]).1 (adjust 4294967295) ∧
    (freeList (after (boot 1000 100000) [] [.malloc 100]).1).find?
      (fun y => decide (adjust 4294967295
        ≤ blockSize (after (boot 1000 100000) [] [.malloc 100]).1 y)) = some 1144 ∧
    blockSize (after (boot 1000 100000) [] [.malloc 100]).1 1144 = 4000 ∧
    (mm_malloc (after (boot 1000 100000) [] [.malloc 100]).1 4294967295).map
      (fun r => r.1) = .error .fault :=
  ⟨rfl, rfl, by decide, rfl, rfl, rfl⟩

/-- C8, amended: in every state reached from a successful `mm_init` on a fresh
arena by plain actions, for every request `size > 0`, when the repeat-size
escape does not fire for the adjusted size and `y` is the first node of the
free list, in list order from `lstart`, whose recorded size is at least the
adjusted size, `mm_malloc(size)` returns `y` and the end of the region is the
same as before (no memory was obtained from the provider).  This includes the
requests above `2^32 - 16` bytes, whose adjusted size wraps around to 0 or to
8; for the adjusted size 8 (requests of `2^32 - 7` bytes or more) the first
fit has to be a block of 16 bytes, which is handed out whole. -/
theorem first_fit_reuse (s0 s1 s : State) (cs : List Call) (live : List Nat)
    (hf : Fresh s0) (hi : mm_init s0 = .ok (0, s1)) (hc : ∀ c ∈ cs, c.plain = true)
    (hr : run s1 [] cs = .ok (s, live)) (size : Nat) (h0 : 0 < size)
    (h32 : size < 4294967296) (hesc : ¬ escapes s (adjust size)) (y : Nat)
    (hy : (freeList s).find? (fun y => decide (adjust size ≤ blockSize s y)) = some y)
    (hsplit : adjust size = 8 → blockSize s y = 16) :
    ∃ s', mm_malloc s size = .ok (y, s') ∧ s'.brk = s.brk := by
  obtain ⟨⟨B, fl, hrep, _, _⟩, _, _, _⟩ := reach_inv hf hi hc hr
  rw [hrep.chain_eq, ← firstFit_find hrep] at hy
  have hfy : firstFit s fl (adjust size) = y := by
    unfold firstFit
    rw [hy]
  have hym : y ∈ fl := List.mem_of_find?_eq_some hy
  obtain ⟨b, hb, eb, hge, _, _⟩ := hrep.heap.node hym
  have hy0 : y ≠ 0 := by omega
  by_cases h1 : size ≤ 4294967280
  · obtain ⟨r, s', e1, _, e3⟩ := mm_malloc_rep hrep size h0 h1
    obtain ⟨e4, e5⟩ := e3 hesc (by rw [hfy]; exact hy0)
    rw [hfy] at e4
    rw [e4] at e1
    exact ⟨s', e1, e5⟩
  · obtain ⟨hs, _⟩ := hrep.header hb
    obtain ⟨t1, _, _, _⟩ := (Seg_mem hrep.heap.layout.seg b hb).2.2.2.2
      (by have := hrep.written b hb; omega)
    rw [eb] at hs t1
    obtain ⟨s', e1, e2⟩ := malloc_wrapped hrep size (by omega) h32 hesc
      (by rw [hfy]; exact hy0) (by
        intro ha
        rw [hfy, t1, ← hs]
        exact hsplit ha)
    rw [hfy] at e1
    exact ⟨s', e1, e2⟩

/-- The scenario of C8 on the zero-filled arena from 1000 to 100000: after
`a = mm_malloc(100)`, `b = mm_malloc(200)`, `mm_free(a)` the call
`mm_malloc(90)` returns `a = 1032` and leaves the end of the region where it
was.  And two requests whose adjusted size wraps around: after
`mm_malloc(100)` the call `mm_malloc(4294967288)`, with the adjusted size 0,
returns the only free block, 1144; right after `mm_init` the call
`mm_malloc(4294967295)`, with the adjusted size 8, returns the free block of
16 bytes at 1032. -/
theorem first_fit_reuse_witness :
    Fresh (arena 1000 100000) ∧
    mm_init (arena 1000 100000) = .ok (0, boot 1000 100000) ∧
    run (boot 1000 100000) [] [.malloc 100, .malloc 200, .free 1032]
      = .ok ((after (boot 1000 100000) [] [.malloc 100, .malloc 200, .free 1032]).1, [1144]) ∧
    ¬ escapes (after (boot 1000 100000) [] [.malloc 100, .malloc 200, .free 1032]).1
      (adjust 90) ∧
    (freeList (after (boot 1000 100000) [] [.malloc 100, .malloc 200, .free 1032]).1).find?
      (fun y => decide (adjust 90
        ≤ blockSize (after (boot 1000 100000) [] [.malloc 100, .malloc 200, .free 1032]).1 y))
      = some 1032 ∧
    (∃ s', mm_malloc (after (boot 1000 100000) [] [.malloc 100, .malloc 200, .free 1032]).1 90
        = .ok (1032, s') ∧
      s'.brk = (after (boot 1000 100000) [] [.malloc 100, .malloc 200, .free 1032]).1.brk) ∧
    run (boot 1000 100000) [] [.malloc 100]
      = .ok ((after (boot 1000 100000) [] [.malloc 100]).1, [1032]) ∧
    adjust 4294967288 = 0 ∧
    ¬ escapes (after (boot 1000 100000) [] [.malloc 100]).1 (adjust 4294967288) ∧
    (freeList (after (boot 1000 100000) [] [.malloc 100]).1).find?
      (fun y => decide (adjust 4294967288
        ≤ blockSize (after (boot 1000 100000) [] [.malloc 100]).1 y)) = some 1144 ∧
    (∃ s', mm_malloc (after (boot 1000 100000) [] [.malloc 100]).1 4294967288
        = .ok (1144, s') ∧
      s'.brk = (after (boot 1000 100000) [] [.malloc 100]).1.brk) ∧
    adjust 4294967295 = 8 ∧
    ¬ escapes (boot 1000 100000) (adjust 4294967295) ∧
    (freeList (boot 1000 100000)).find?
      (fun y => decide (adjust 4294967295 ≤ blockSize (boot 1000 100000) y)) = some 1032 ∧
    blockSize (boot 1000 100000) 1032 = 16 ∧
    ∃ s', mm_malloc (boot 1000 100000) 4294967295 = .ok (1032, s') ∧
      s'.brk = (boot 1000 100000).brk :=
  ⟨fresh_small, rfl, rfl, by decide, rfl,
    first_fit_reuse (arena 1000 100000) (boot 1000 100000) _
      [.malloc 100, .malloc 200, .free 1032] [1144] fresh_small rfl (by decide) rfl 90
      (by decide) (by decide) (by decide) 1032 rfl (fun h => absurd h (by decide)),
    rfl, rfl, by decide, rfl,
    first_fit_reuse (arena 1000 100000) (boot 1000 100000) _ [.malloc 100] [1032]
      fresh_small rfl (by decide) rfl 4294967288 (by decide) (by decide) (by decide) 1144 rfl
      (fun h => absurd h (by decide)),
    rfl, by decide, rfl, rfl,
    first_fit_reuse (arena 1000 100000) (boot 1000 100000) _ [] []
      fresh_small rfl (by decide) rfl 4294967295 (by decide) (by decide) (by decide) 1032 rfl
      (fun _ => rfl)⟩

/-- C10, as the claim states it, fails: on the zero-filled arena from 1000 to
`2^32 - 1`, after two blocks of `2^30` bytes were allocated behind the block
at 1032 and freed again, the block at 1032 has 16 bytes and its free next
block 2147483664 bytes, enough for a request of `n = 2147483648` bytes; but
`mm_realloc(1032, n)` reads `n` as a negative `int` and returns `NULL`. -/
theorem realloc_in_place_counterexample :
    mm_init (arena 1000 4294967295) = .ok (0, boot 1000 4294967295) ∧
    run (boot 1000 4294967295) []
        [.malloc 8, .malloc 1073741824, .malloc 1073741824, .free 1048, .free 1073742880]
      = .ok ((after (boot 1000 4294967295) []
        [.malloc 8, .malloc 1073741824, .malloc 1073741824, .free 1048,
          .free 1073742880]).1, [1032]) ∧
    blocks (after (boot 1000 4294967295) []
        [.malloc 8, .malloc 1073741824, .malloc 1073741824, .free 1048,
          .free 1073742880]).1 = [(1032, 16, 1), (1048, 2147483664, 0)] ∧
    2147483648 + 8 ≤ 16 + 2147483664 ∧
    (mm_realloc (after (boot 1000 4294967295) []
        [.malloc 8, .malloc 1073741824, .malloc 1073741824, .free 1048,
          .free 1073742880]).1 1032 2147483648).map (fun r => r.1) = .ok 0 :=
  ⟨rfl, rfl, rfl, by decide, rfl⟩

/-- C10, amended: in every state reached from a successful `mm_init` on a
fresh arena by plain actions, for every live pointer `p` and every `n` with
`0 < n < 2^31` and `n + 8 > blockSize p`, when the physically next block is
free and `blockSize p + blockSize next ≥ n + 8`, `mm_realloc(p, n)` returns
`p`; the next block is no longer in the free list, which is the list of
before without that node; header and footer of the block at `p` record the
size `blockSize p + blockSize next` with the allocated bit set; the invariant
holds again with the same live pointers.  Neither `mem_sbrk` nor `memcpy`
runs: the end of the region and the other registers are the same, the bytes of
the old payload `[p, p + blockSize p - 8)` are unchanged, and so is every byte
of the memory outside the four words the branch stores to, which are the
header and the footer of the merged block, the next link of the node that
preceded the removed node in the free list (when there is one) and the
previous link of what followed it. -/
theorem realloc_in_place (s0 s1 s : State) (cs : List Call) (live : List Nat)
    (hf : Fresh s0) (hi : mm_init s0 = .ok (0, s1)) (hc : ∀ c ∈ cs, c.plain = true)
    (hr : run s1 [] cs = .ok (s, live)) (p : Nat) (hp : p ∈ live) (n : Nat) (h0 : 0 < n)
    (h31 : n < 2147483648) (hgt : blockSize s p < n + 8)
    (hfree : allocBit s (p + blockSize s p) = 0)
    (hfit : n + 8 ≤ blockSize s p + blockSize s (p + blockSize s p)) :
    ∃ s', mm_realloc s p n = .ok (p, s') ∧
      p + blockSize s p ∉ freeList s' ∧
      blockSize s' p = blockSize s p + blockSize s (p + blockSize s p) ∧
      allocBit s' p = 1 ∧
      load32 s'.mem (p + blockSize s' p - 8) &&& 4294967288 = blockSize s' p ∧
      load32 s'.mem (p + blockSize s' p - 8) &&& 1 = 1 ∧
      s'.brk = s.brk ∧
      (∀ a, p ≤ a → a < p + (blockSize s p - 8) → s'.mem a = s.mem a) ∧
      freeList s' = (freeList s).erase (p + blockSize s p) ∧
      InvLive s' live ∧ Regs s s' ∧
      ∀ a, (a < p - 4 ∨ p ≤ a) →
        (a < p + blockSize s' p - 8 ∨ p + blockSize s' p - 4 ≤ a) →
        (load32 s.mem (p + blockSize s p) = 0 ∨ a < load32 s.mem (p + blockSize s p) + 4 ∨
          load32 s.mem (p + blockSize s p) + 8 ≤ a) →
        (a < load32 s.mem (p + blockSize s p + 4) ∨
          load32 s.mem (p + blockSize s p + 4) + 4 ≤ a) →
        s'.mem a = s.mem a := by
  obtain ⟨⟨B, fl, hrep, hnd, hl⟩, _, _, _⟩ := reach_inv hf hi hc hr
  obtain ⟨b, hb, e, hb1, hs, h16, hend⟩ := live_block hrep hl hp
  obtain ⟨L, R, rfl⟩ := List.append_of_mem hb
  subst e
  rw [hs] at hfree hfit hgt
  rcases hrep.next_block with ⟨_, e'⟩ | ⟨m, R', rfl, e'⟩
  · rw [e', hrep.epilogue.2] at hfree
    omega
  have hm : m ∈ L ++ b :: m :: R' := by simp
  obtain ⟨m1, m2⟩ := hrep.header hm
  rw [e'] at m1 m2
  rw [m2] at hfree
  rw [m1] at hfit
  obtain ⟨s', r1, r2, r3, r4, r5⟩ := realloc_merge hrep hb1 hfree n h0 h31 hgt hfit
  have hmem : (⟨b.bp, b.size + m.size, 1⟩ : Blk) ∈ L ++ ⟨b.bp, b.size + m.size, 1⟩ :: R' := by
    simp
  obtain ⟨k1, k2⟩ := r2.header hmem
  obtain ⟨_, _, t3, t4⟩ := (Seg_mem r2.heap.layout.seg _ hmem).2.2.2.2 (by show 1 ≤ 1; omega)
  have k1' : blockSize s' b.bp = b.size + m.size := k1
  have k2' : allocBit s' b.bp = 1 := k2
  have t3' : load32 s'.mem (b.bp + (b.size + m.size) - 8) / 8 * 8 = b.size + m.size := t3
  have t4' : load32 s'.mem (b.bp + (b.size + m.size) - 8) % 2 = 1 := t4
  rw [hs, m1]
  refine ⟨s', r1, ?_, k1', k2', ?_, ?_, r3.2.1, ?_, ?_, ⟨_, _, r2, hnd, ?_⟩, r3, ?_⟩
  · rw [r2.chain_eq, ← e']
    exact List.Nodup.not_mem_erase hrep.heap.nodup
  · rw [k1', and_mask_eq _ (load32_lt _ _)]
    exact t3'
  · rw [k1', and_one_eq]
    exact t4'
  · intro a a1 a2
    exact r4 b (by simp) hb1 a a1 (by omega)
  · rw [r2.chain_eq, hrep.chain_eq, ← e']
  · intro q
    rw [hl q]
    constructor
    · rintro ⟨c, hc', hcq, hc1⟩
      simp only [List.mem_append, List.mem_cons] at hc'
      rcases hc' with hc' | hc' | hc' | hc'
      · exact ⟨c, by simp [hc'], hcq, hc1⟩
      · exact ⟨⟨b.bp, b.size + m.size, 1⟩, by simp, by rw [← hcq, hc'], rfl⟩
      · rw [hc'] at hc1
        omega
      · exact ⟨c, by simp [hc'], hcq, hc1⟩
    · rintro ⟨c, hc', hcq, hc1⟩
      simp only [List.mem_append, List.mem_cons] at hc'
      rcases hc' with hc' | hc' | hc'
      · exact ⟨c, by simp [hc'], hcq, hc1⟩
      · exact ⟨b, by simp, by rw [← hcq, hc'], hb1⟩
      · exact ⟨c, by simp [hc'], hcq, hc1⟩
  · rw [k1', ← e']
    exact r5

/-- C10 on the zero-filled arena from 1000 to 100000: after two calls
`mm_malloc(8)` the block at 1048 has 16 bytes and is followed by the free
block at 1064 of 4080 bytes; `mm_realloc(1048, 100)` merges the two in
place. -/
theorem realloc_in_place_witness :
    Fresh (arena 1000 100000) ∧
    mm_init (arena 1000 100000) = .ok (0, boot 1000 100000) ∧
    run (boot 1000 100000) [] [.malloc 8, .malloc 8]
      = .ok ((after (boot 1000 100000) [] [.malloc 8, .malloc 8]).1, [1048, 1032]) ∧
    blocks (after (boot 1000 100000) [] [.malloc 8, .malloc 8]).1
      = [(1032, 16, 1), (1048, 16, 1), (1064, 4080, 0)] ∧
    ∃ s', mm_realloc (after (boot 1000 100000) [] [.malloc 8, .malloc 8]).1 1048 100
        = .ok (1048, s') ∧
      1048 + blockSize (after (boot 1000 100000) [] [.malloc 8, .malloc 8]).1 1048
        ∉ freeList s' ∧
      blockSize s' 1048 = blockSize (after (boot 1000 100000) [] [.malloc 8, .malloc 8]).1 1048
        + blockSize (after (boot 1000 100000) [] [.malloc 8, .malloc 8]).1
          (1048 + blockSize (after (boot 1000 100000) [] [.malloc 8, .malloc 8]).1 1048) ∧
      allocBit s' 1048 = 1 ∧
      load32 s'.mem (1048 + blockSize s' 1048 - 8) &&& 4294967288 = blockSize s' 1048 ∧
      load32 s'.mem (1048 + blockSize s' 1048 - 8) &&& 1 = 1 ∧
      s'.brk = (after (boot 1000 100000) [] [.malloc 8, .malloc 8]).1.brk ∧
      (∀ a, 1048 ≤ a →
        a < 1048 + (blockSize (after (boot 1000 100000) [] [.malloc 8, .malloc 8]).1 1048 - 8) →
        s'.mem a = (after (boot 1000 100000) [] [.malloc 8, .malloc 8]).1.mem a) ∧
      freeList s' = (freeList (after (boot 1000 100000) [] [.malloc 8, .malloc 8]).1).erase
        (1048 + blockSize (after (boot 1000 100000) [] [.malloc 8, .malloc 8]).1 1048) ∧
      InvLive s' [1048, 1032] ∧
      Regs (after (boot 1000 100000) [] [.malloc 8, .malloc 8]).1 s' ∧
      ∀ a, (a < 1048 - 4 ∨ 1048 ≤ a) →
        (a < 1048 + blockSize s' 1048 - 8 ∨ 1048 + blockSize s' 1048 - 4 ≤ a) →
        (load32 (after (boot 1000 100000) [] [.malloc 8, .malloc 8]).1.mem
            (1048 + blockSize (after (boot 1000 100000) [] [.malloc 8, .malloc 8]).1 1048) = 0 ∨
          a < load32 (after (boot 1000 100000) [] [.malloc 8, .malloc 8]).1.mem
            (1048 + blockSize (after (boot 1000 100000) [] [.malloc 8, .malloc 8]).1 1048) + 4 ∨
          load32 (after (boot 1000 100000) [] [.malloc 8, .malloc 8]).1.mem
            (1048 + blockSize (after (boot 1000 100000) [] [.malloc 8, .malloc 8]).1 1048)
              + 8 ≤ a) →
        (a < load32 (after (boot 1000 100000) [] [.malloc 8, .malloc 8]).1.mem
            (1048 + blockSize (after (boot 1000 100000) [] [.malloc 8, .malloc 8]).1 1048 + 4) ∨
          load32 (after (boot 1000 100000) [] [.malloc 8, .malloc 8]).1.mem
            (1048 + blockSize (after (boot 1000 100000) [] [.malloc 8, .malloc 8]).1 1048
              + 4) + 4 ≤ a) →
        s'.mem a = (after (boot 1000 100000) [] [.malloc 8, .malloc 8]).1.mem a :=
  ⟨fresh_small, rfl, rfl, rfl,
    realloc_in_place (arena 1000 100000) (boot 1000 100000) _ [.malloc 8, .malloc 8]
      [1048, 1032] fresh_small rfl (by decide) rfl 1048 (by decide) 100 (by decide) (by decide)
      (by decide) (by decide) (by decide)⟩

set_option maxRecDepth 100000 in
/-- C4 at the failing input: on the zero-filled arena from 1000 to 100000,
after `mm_malloc(100)`, three times `mm_malloc(8)` and `mm_free(1032)`, the
call `mm_realloc(1160, 16)` takes the fallback path; the second `place` on the
block that `mm_malloc` has placed unlinks it once more through its stale
links, and afterwards the block at 1064 is free but not reachable from
`lstart`. -/
theorem realloc_fallback_free_list :
    mm_init (arena 1000 100000) = .ok (0, boot 1000 100000) ∧
    (run (boot 1000 100000) []
        [.malloc 100, .malloc 8, .malloc 8, .malloc 8, .free 1032]).map
      (fun r => (r.2, blocks r.1, freeList r.1))
      = .ok ([1176, 1160, 1144],
          [(1032, 112, 0), (1144, 16, 1), (1160, 16, 1), (1176, 16, 1), (1192, 3952, 0)],
          [1032, 1192]) ∧
    (run (boot 1000 100000) []
        [.malloc 100, .malloc 8, .malloc 8, .malloc 8, .free 1032, .realloc 1160 16]).map
      (fun r => (r.2, blocks r.1, freeList r.1))
      = .ok ([1032, 1176, 1144],
          [(1032, 32, 1), (1064, 80, 0), (1144, 16, 1), (1160, 16, 0), (1176, 16, 1),
            (1192, 3952, 0)],
          [1160, 1192]) :=
  ⟨rfl, rfl, rfl⟩

set_option maxRecDepth 100000 in
/-- C9 at the failing input: on the zero-filled arena from 1000 to 100000,
after `mm_malloc(32)`, twice `mm_malloc(8)`, a store into the payload of 1032
and `mm_free(1032)`, the pointer 1072 is live with a usable size of 8;
`mm_realloc(1072, 9)` takes the fallback path and returns 1032, and the second
`place`, called with the unaligned size 17, has left the header of that block
with a recorded size of 16: a usable size of 8, less than 9. -/
theorem realloc_fallback_usable :
    mm_init (arena 1000 100000) = .ok (0, boot 1000 100000) ∧
    (run (boot 1000 100000) []
        [.malloc 32, .malloc 8, .malloc 8, .write 1060 1, .free 1032]).map
      (fun r => (r.2, blocks r.1, freeList r.1))
      = .ok ([1088, 1072],
          [(1032, 40, 0), (1072, 16, 1), (1088, 16, 1), (1104, 4040, 0)], [1032, 1104]) ∧
    (run (boot 1000 100000) []
        [.malloc 32, .malloc 8, .malloc 8, .write 1060 1, .free 1032]).bind
      (fun r => (mm_realloc r.1 1072 9).map (fun q => (q.1, blockSize q.2 q.1)))
      = .ok (1032, 16) :=
  ⟨rfl, rfl, rfl⟩

/-! ## Failure reports -/

/-- C11 at the failing input: on the zero-filled arena from 1000 to 1100,
after `mm_malloc(8) = 1032` the provider has 52 bytes left; `mm_realloc(1032,
100)` can neither grow the block in place nor find a free block, `mm_malloc`
returns `NULL` because the provider refuses, and `mm_realloc` passes that
`NULL` to `place`, which reads the header word at `NULL - 4`: the call faults
instead of returning `NULL`. -/
theorem realloc_oom_faults :
    mm_init (arena 1000 1100) = .ok (0, boot 1000 1100) ∧
    run (boot 1000 1100) [] [.malloc 8]
      = .ok ((after (boot 1000 1100) [] [.malloc 8]).1, [1032]) ∧
    blocks (after (boot 1000 1100) [] [.malloc 8]).1 = [(1032, 16, 1)] ∧
    freeList (after (boot 1000 1100) [] [.malloc 8]).1 = [] ∧
    (mm_malloc (after (boot 1000 1100) [] [.malloc 8]).1 (add32 100 (2 * WSIZE))).map
      (fun r => r.1) = .ok 0 ∧
    (mm_realloc (after (boot 1000 1100) [] [.malloc 8]).1 1032 100).map (fun r => r.1)
      = .error .fault :=
  ⟨rfl, rfl, rfl, rfl, rfl, rfl⟩

/-- C12: in a state that satisfies the invariant, for every `size > 0`, when
no node of the free list has a recorded size of at least the adjusted size and
the provider refuses every request that the call makes (the request of the
repeat-size escape when it fires, and the request for
`MAX(asize, CHUNKSIZE)` bytes), `mm_malloc(size)` returns `NULL`, and the
memory, the end of the region and `lstart` are the same as before. -/
theorem malloc_oom_atomic (s : State) (hinv : Inv s) (size : Nat) (h0 : 0 < size)
    (hnofit : (freeList s).find? (fun y => decide (adjust size ≤ blockSize s y)) = none)
    (hE : escapes s (adjust size) →
      s.hi < s.brk + extSize (ofInt32 (Int.tdiv (toInt32 (MAX (adjust size) (4 * WSIZE))) 4)))
    (hC : s.hi < s.brk + extSize (MAX (adjust size) CHUNKSIZE / WSIZE)) :
    ∃ s', mm_malloc s size = .ok (0, s') ∧ s'.mem = s.mem ∧ s'.brk = s.brk ∧
      s'.lstart = s.lstart ∧ s'.lo = s.lo ∧ s'.hi = s.hi ∧ s'.heap_listp = s.heap_listp := by
  obtain ⟨B, fl, hrep⟩ := hinv
  rw [mm_malloc_unfold s size (by omega)]
  by_cases hesc : escapes s (adjust size)
  · refine ⟨s, ?_, rfl, rfl, rfl, rfl, rfl, rfl⟩
    rw [fit_escape s _ hesc, extend_heap_fail s _ (by have := hE hesc; omega)]
    simp only [ok_bind, ne_eq, not_true_eq_false, if_false,
      extend_heap_fail s _ (show ¬ (s.brk + extSize (MAX (adjust size) CHUNKSIZE / WSIZE)
        ≤ s.hi) by omega), if_true]
    rfl
  · obtain ⟨s1, e1, e2, e3, e4, e5, e6, e7⟩ := fit_scan_rep hrep (adjust size) hesc
    have hz : firstFit s fl (adjust size) = 0 := by
      rw [hrep.chain_eq, ← firstFit_find hrep] at hnofit
      unfold firstFit
      rw [hnofit]
    rw [hz] at e1
    refine ⟨s1, ?_, e2, e4, e7, e3, e5, e6⟩
    rw [e1]
    simp only [ok_bind, ne_eq, not_true_eq_false, if_false,
      extend_heap_fail s1 _ (show ¬ (s1.brk + extSize (MAX (adjust size) CHUNKSIZE / WSIZE)
        ≤ s1.hi) by rw [e4, e5]; omega), if_true]
    rfl

theorem fresh_tiny : Fresh (arena 1000 1100) :=
  fresh_arena 1000 1100 (by decide) (by decide)

theorem boot_tiny_inv : Inv (boot 1000 1100) := by
  obtain ⟨⟨B, fl, h, _⟩, _⟩ := init_inv fresh_tiny (rfl : mm_init (arena 1000 1100) = _)
  exact ⟨B, fl, h⟩

theorem malloc_oom_atomic_witness :
    Inv (boot 1000 1100) ∧
    (freeList (boot 1000 1100)).find?
      (fun y => decide (adjust 100 ≤ blockSize (boot 1000 1100) y)) = none ∧
    ¬ escapes (boot 1000 1100) (adjust 100) ∧
    (boot 1000 1100).hi < (boot 1000 1100).brk + extSize (MAX (adjust 100) CHUNKSIZE / WSIZE) ∧
    ∃ s', mm_malloc (boot 1000 1100) 100 = .ok (0, s') ∧ s'.mem = (boot 1000 1100).mem ∧
      s'.brk = (boot 1000 1100).brk ∧ s'.lstart = (boot 1000 1100).lstart ∧
      s'.lo = (boot 1000 1100).lo ∧ s'.hi = (boot 1000 1100).hi ∧
      s'.heap_listp = (boot 1000 1100).heap_listp :=
  ⟨boot_tiny_inv, rfl, by decide, by decide,
    malloc_oom_atomic (boot 1000 1100) boot_tiny_inv 100 (by decide) rfl
      (fun h => absurd h (by decide)) (by decide)⟩

/-- C13: for every state, every pointer `p` and every `newSize` that is not
positive as a signed 32-bit integer (0 included), `mm_realloc(p, newSize)`
returns `NULL` and leaves the whole state as it was. -/
theorem realloc_nonpositive (s : State) (p size : Nat) (h : toInt32 size ≤ 0) :
    mm_realloc s p size = .ok (0, s) := by
  unfold mm_realloc
  rw [if_pos h]
  rfl

theorem realloc_nonpositive_witness :
    toInt32 0 ≤ 0 ∧ toInt32 4294967295 ≤ 0 ∧
    mm_realloc (after (boot 1000 100000) [] [.malloc 8]).1 1032 0
      = .ok (0, (after (boot 1000 100000) [] [.malloc 8]).1) ∧
    mm_realloc (after (boot 1000 100000) [] [.malloc 8]).1 1032 4294967295
      = .ok (0, (after (boot 1000 100000) [] [.malloc 8]).1) :=
  ⟨by decide, by decide, realloc_nonpositive _ 1032 0 (by decide),
    realloc_nonpositive _ 1032 4294967295 (by decide)⟩

/-- C14 at the failing input: `mm_free(NULL)` evaluates `GET_SIZE(HDRP(NULL))`
before it tests the pointer, a read of the word at address `2^32 - 4`, which
lies outside the region: right after `mm_init` on the zero-filled arena from
1000 to 100000 the call faults. -/
theorem free_null_faults :
    mm_init (arena 1000 100000) = .ok (0, boot 1000 100000) ∧
    HDRP 0 = 4294967292 ∧
    ¬ inRegion (boot 1000 100000) (HDRP 0) ∧
    (mm_free (boot 1000 100000) 0).map (fun s => s.brk) = .error .fault :=
  ⟨rfl, rfl, by decide, rfl⟩

/-! ## The layout of the heap and the shape of the free list -/

theorem Seg_chain {s : State} : ∀ {B : List Blk} {a e : Nat}, Seg s.mem a B e →
    (∀ b ∈ B, blockSize s b.bp = b.size) →
    (B.map Blk.bp).Chain' (fun p q => q = p + blockSize s p) ∧
      (∀ p ∈ (B.map Blk.bp).head?, p = a) ∧
      (B.map Blk.bp).foldl (fun _ p => p + blockSize s p) a = e
  | [], a, e, h, _ => by
    have : a = e := h
    simp [this]
  | b :: bs, a, e, h, hs => by
    obtain ⟨h1, h2, h3, h4, h5⟩ := h
    obtain ⟨i1, i2, i3⟩ := Seg_chain h5 (fun c hc => hs c (List.mem_cons_of_mem _ hc))
    have hb := hs b (List.mem_cons_self _ _)
    refine ⟨?_, by simp [h1], ?_⟩
    · cases bs with
      | nil => simp
      | cons c cs =>
        simp only [List.map_cons, List.chain'_cons]
        refine ⟨?_, by simpa using i1⟩
        rw [hb]
        have := h5.1
        omega
    · simp only [List.map_cons, List.foldl_cons]
      rw [hb, h1]
      cases bs with
      | nil =>
        have : a + b.size = e := h5
        simp [this]
      | cons c cs =>
        have hc1 : c.bp = a + b.size := h5.1
        simp only [List.map_cons, List.foldl_cons] at i3 ⊢
        exact i3

theorem Rep.sizes {s : State} {B : List Blk} {fl : List Nat} (h : Rep s B fl) :
    (heapBlocks s).map (blockSize s) = B.map Blk.size := by
  rw [h.walk_eq, List.map_map]
  apply List.map_congr_left
  intro b hb
  exact (h.header hb).1

/-- The observable layout of a state that satisfies the invariant. -/
theorem Rep.layout_obs {s : State} {B : List Blk} {fl : List Nat} (h : Rep s B fl) :
    (heapBlocks s).Chain' (fun p q => q = p + blockSize s p) ∧
    (∀ p ∈ (heapBlocks s).head?, p = s.heap_listp + 32) ∧
    walkEnd s = s.brk ∧ blockSize s s.brk = 0 ∧ allocBit s s.brk = 1 ∧
    ∀ p ∈ heapBlocks s, blockSize s p % 8 = 0 ∧ 16 ≤ blockSize s p ∧ footerMatches s p := by
  obtain ⟨i1, i2, i3⟩ := Seg_chain h.heap.layout.seg (fun b hb => (h.header hb).1)
  unfold walkEnd
  rw [h.walk_eq]
  refine ⟨i1, i2, i3, h.epilogue.1, h.epilogue.2, ?_⟩
  · intro p hp
    rw [List.mem_map] at hp
    obtain ⟨b, hb, rfl⟩ := hp
    obtain ⟨e1, e2⟩ := h.header hb
    obtain ⟨_, _, m3, m4, m5⟩ := Seg_mem h.heap.layout.seg b hb
    obtain ⟨_, _, t3, t4⟩ := m5 (h.written b hb)
    unfold footerMatches
    rw [e1, e2, and_mask_eq _ (load32_lt _ _), and_one_eq]
    exact ⟨m4, m3, t3, t4⟩

/-- C16, as the claim states it, fails: on the zero-filled arena from 1000 to
100000, after `mm_malloc(8)` and `mm_malloc(4294967288)` (whose adjusted size
wraps around to 0) the walk visits the block at 1032, whose header records the
size 16 and whose footer word at 1040 records the size 0. -/
theorem block_layout_counterexample :
    mm_init (arena 1000 100000) = .ok (0, boot 1000 100000) ∧
    run (boot 1000 100000) [] [.malloc 8, .malloc 4294967288]
      = .ok ((after (boot 1000 100000) [] [.malloc 8, .malloc 4294967288]).1, [1048, 1032]) ∧
    heapBlocks (after (boot 1000 100000) [] [.malloc 8, .malloc 4294967288]).1
      = [1032, 1048] ∧
    blockSize (after (boot 1000 100000) [] [.malloc 8, .malloc 4294967288]).1 1032 = 16 ∧
    load32 (after (boot 1000 100000) [] [.malloc 8, .malloc 4294967288]).1.mem (1032 + 16 - 8)
      = 1 ∧
    ¬ footerMatches (after (boot 1000 100000) [] [.malloc 8, .malloc 4294967288]).1 1032 :=
  ⟨rfl, rfl, rfl, rfl, rfl, by decide⟩

/-- C16, amended: in every state reached from a successful `mm_init` on a
fresh arena by `mm_malloc` calls with requests of at most `2^32 - 16` bytes,
`mm_free` calls on live pointers and stores into live payloads, the forward
walk from the first block (payload at heap base + 32) visits blocks back to
back and ends exactly at the end of the region, whose last 4 bytes hold the
epilogue header (size 0, allocated); every visited block has a recorded size
that is a multiple of 8 and at least 16, and its footer holds the same size
and allocated bit as its header. -/
theorem block_layout (s0 s1 s : State) (cs : List Call) (live : List Nat) (hf : Fresh s0)
    (hi : mm_init s0 = .ok (0, s1)) (hc : ∀ c ∈ cs, c.plain = true)
    (hr : run s1 [] cs = .ok (s, live)) :
    s.heap_listp = s0.brk ∧
    (heapBlocks s).Chain' (fun p q => q = p + blockSize s p) ∧
    (∀ p ∈ (heapBlocks s).head?, p = s.heap_listp + 32) ∧
    walkEnd s = s.brk ∧ blockSize s s.brk = 0 ∧ allocBit s s.brk = 1 ∧
    ∀ p ∈ heapBlocks s, blockSize s p % 8 = 0 ∧ 16 ≤ blockSize s p ∧ footerMatches s p := by
  obtain ⟨⟨B, fl, hrep, _, _⟩, _, _, hh⟩ := reach_inv hf hi hc hr
  exact ⟨hh, hrep.layout_obs⟩

theorem block_layout_witness :
    Fresh (arena 1000 100000) ∧
    mm_init (arena 1000 100000) = .ok (0, boot 1000 100000) ∧
    run (boot 1000 100000) [] [.malloc 50, .malloc 50, .free 1032]
      = .ok ((after (boot 1000 100000) [] [.malloc 50, .malloc 50, .free 1032]).1, [1096]) ∧
    blocks (after (boot 1000 100000) [] [.malloc 50, .malloc 50, .free 1032]).1
      = [(1032, 64, 0), (1096, 64, 1), (1160, 3984, 0)] ∧
    ((after (boot 1000 100000) [] [.malloc 50, .malloc 50, .free 1032]).1.heap_listp
        = (arena 1000 100000).brk ∧
      (heapBlocks (after (boot 1000 100000) [] [.malloc 50, .malloc 50, .free 1032]).1).Chain'
        (fun p q => q = p + blockSize (after (boot 1000 100000) []
          [.malloc 50, .malloc 50, .free 1032]).1 p) ∧
      (∀ p ∈ (heapBlocks (after (boot 1000 100000) []
          [.malloc 50, .malloc 50, .free 1032]).1).head?,
        p = (after (boot 1000 100000) [] [.malloc 50, .malloc 50, .free 1032]).1.heap_listp
          + 32) ∧
      walkEnd (after (boot 1000 100000) [] [.malloc 50, .malloc 50, .free 1032]).1
        = (after (boot 1000 100000) [] [.malloc 50, .malloc 50, .free 1032]).1.brk ∧
      blockSize (after (boot 1000 100000) [] [.malloc 50, .malloc 50, .free 1032]).1
        (after (boot 1000 100000) [] [.malloc 50, .malloc 50, .free 1032]).1.brk = 0 ∧
      allocBit (after (boot 1000 100000) [] [.malloc 50, .malloc 50, .free 1032]).1
        (after (boot 1000 100000) [] [.malloc 50, .malloc 50, .free 1032]).1.brk = 1 ∧
      ∀ p ∈ heapBlocks (after (boot 1000 100000) [] [.malloc 50, .malloc 50, .free 1032]).1,
        blockSize (after (boot 1000 100000) [] [.malloc 50, .malloc 50, .free 1032]).1 p % 8
          = 0 ∧
        16 ≤ blockSize (after (boot 1000 100000) [] [.malloc 50, .malloc 50, .free 1032]).1 p ∧
        footerMatches (after (boot 1000 100000) [] [.malloc 50, .malloc 50, .free 1032]).1 p) :=
  ⟨fresh_small, rfl, rfl, rfl,
    block_layout (arena 1000 100000) (boot 1000 100000) _
      [.malloc 50, .malloc 50, .free 1032] [1096] fresh_small rfl (by decide) rfl⟩

/-! ### The free list -/

theorem Links_chain {m : Nat → Nat} {t : Nat} : ∀ {fl : List Nat} {p : Nat},
    Links m t p fl →
    fl.Chain' (fun x y => load32 m (x + 4) = y ∧ load32 m y = x) ∧
      (∀ x ∈ fl.getLast?, load32 m (x + 4) = t) ∧ (∀ x ∈ fl.head?, load32 m x = p)
  | [], _, _ => by simp
  | x :: rest, p, h => by
    obtain ⟨h1, h2, h3⟩ := h
    obtain ⟨i1, i2, i3⟩ := Links_chain h3
    refine ⟨?_, ?_, by simpa using h1⟩
    · cases rest with
      | nil => simp
      | cons y r =>
        rw [List.chain'_cons]
        exact ⟨⟨by simpa using h2, i3 y (by simp)⟩, i1⟩
    · cases rest with
      | nil =>
        intro z hz
        simp only [List.getLast?_singleton, Option.mem_def, Option.some.injEq] at hz
        rw [← hz]
        simpa using h2
      | cons y r =>
        intro z hz
        rw [List.getLast?_cons_cons] at hz
        exact i2 z hz

/-- The observable shape of the free list of a state that satisfies the
invariant. -/
theorem Rep.chain_obs {s : State} {B : List Blk} {fl : List Nat} (h : Rep s B fl) :
    (freeList s).Nodup ∧
    (∀ x ∈ freeList s, x ∈ heapBlocks s ∧ allocBit s x = 0) ∧
    chainEnd s = s.heap_listp + 8 ∧ allocBit s (s.heap_listp + 8) = 1 ∧
    (∀ x ∈ (freeList s).head?, x = s.lstart ∧ load32 s.mem x = 0) ∧
    (freeList s).Chain' (fun x y => load32 s.mem (x + 4) = y ∧ load32 s.mem y = x) ∧
    ∀ size, ∃ r, fit_scan s size (s.brk - s.lo + 1) s.lstart = .ok r := by
  obtain ⟨i1, i2, i3⟩ := Links_chain h.heap.links
  have hpro : allocBit s (s.heap_listp + 8) = 1 := by
    have hb := h.heap.layout.base_le
    have hhi := h.heap.layout.hi_lt
    have hbrk := h.heap.layout.brk_le
    unfold allocBit
    rw [HDRP_eq _ (by omega) (by omega), and_one_eq]
    have e : s.heap_listp + 8 - 4 = s.heap_listp + 4 := by omega
    rw [e, h.heap.layout.prologue]
  unfold chainEnd
  rw [h.chain_eq]
  refine ⟨h.heap.nodup, ?_, ?_, hpro, ?_, i1, ?_⟩
  · intro x hx
    obtain ⟨b, hb, e, _⟩ := h.heap.node hx
    refine ⟨?_, ?_⟩
    · rw [h.walk_eq, List.mem_map]
      exact ⟨b, hb, e⟩
    · rw [← e, (h.header hb).2]
      exact h.free x hx b hb e
  · cases hl : fl.getLast? with
    | none =>
      have : fl = [] := List.getLast?_eq_none_iff.1 hl
      rw [h.heap.head, this]
      rfl
    | some x => exact i2 x hl
  · intro x hx
    have hhd := h.heap.head
    cases fl with
    | nil => simp at hx
    | cons y r =>
      simp only [List.head?_cons, Option.mem_def, Option.some.injEq] at hx
      rw [← hx]
      exact ⟨hhd.symm, i3 y (by simp)⟩
  · intro size
    have hlen := h.length_le
    have := fit_scan_spec h size fl 0 (s.brk - s.lo + 1) (fun y hy => hy) h.heap.links
      (by omega)
    rw [← h.heap.head] at this
    exact ⟨_, this⟩

set_option maxRecDepth 100000 in
/-- C19, as the claim states it, fails: on the zero-filled arena from 1000 to
100000, `mm_malloc(4294967288)` (adjusted size 0) returns 1032 and leaves that
block in the free list; `mm_free(1032)` links it in front of itself, so the
next link of 1032 is 1032: the chain from `lstart` repeats 1032 and never
reaches the prologue, and the scan loop of `fit` does not terminate for a
request of 8000 bytes. -/
theorem free_list_chain_counterexample :
    mm_init (arena 1000 100000) = .ok (0, boot 1000 100000) ∧
    run (boot 1000 100000) [] [.malloc 4294967288, .free 1032]
      = .ok ((after (boot 1000 100000) [] [.malloc 4294967288, .free 1032]).1, []) ∧
    (after (boot 1000 100000) [] [.malloc 4294967288, .free 1032]).1.lstart = 1032 ∧
    allocBit (after (boot 1000 100000) [] [.malloc 4294967288, .free 1032]).1 1032 = 0 ∧
    load32 (after (boot 1000 100000) [] [.malloc 4294967288, .free 1032]).1.mem (1032 + 4)
      = 1032 ∧
    (freeList (after (boot 1000 100000) [] [.malloc 4294967288, .free 1032]).1).take 3
      = [1032, 1032, 1032] ∧
    (fit_scan (after (boot 1000 100000) [] [.malloc 4294967288, .free 1032]).1 8000
      ((after (boot 1000 100000) [] [.malloc 4294967288, .free 1032]).1.brk
        - (after (boot 1000 100000) [] [.malloc 4294967288, .free 1032]).1.lo + 1)
      (after (boot 1000 100000) [] [.malloc 4294967288, .free 1032]).1.lstart).map
        (fun r => r.1) = .error .diverge :=
  ⟨rfl, rfl, rfl, rfl, rfl, rfl, rfl⟩

/-- C19, amended: in every state reached from a successful `mm_init` on a
fresh arena by `mm_malloc` calls with requests of at most `2^32 - 16` bytes,
`mm_free` calls on live pointers and stores into live payloads, the nodes
reached from `lstart` by next links are pairwise distinct free blocks of the
heap, the chain ends at the prologue payload address (heap base + 8), whose
header has the allocated bit set, the previous link of `lstart` is `NULL` when
the list is not empty, consecutive nodes `x`, `y` have `next(x) = y` and
`prev(y) = x`, and the scan loop of `fit` returns for every request size. -/
theorem free_list_chain (s0 s1 s : State) (cs : List Call) (live : List Nat) (hf : Fresh s0)
    (hi : mm_init s0 = .ok (0, s1)) (hc : ∀ c ∈ cs, c.plain = true)
    (hr : run s1 [] cs = .ok (s, live)) :
    s.heap_listp = s0.brk ∧
    (freeList s).Nodup ∧
    (∀ x ∈ freeList s, x ∈ heapBlocks s ∧ allocBit s x = 0) ∧
    chainEnd s = s.heap_listp + 8 ∧ allocBit s (s.heap_listp + 8) = 1 ∧
    (∀ x ∈ (freeList s).head?, x = s.lstart ∧ load32 s.mem x = 0) ∧
    (freeList s).Chain' (fun x y => load32 s.mem (x + 4) = y ∧ load32 s.mem y = x) ∧
    ∀ size, ∃ r, fit_scan s size (s.brk - s.lo + 1) s.lstart = .ok r := by
  obtain ⟨⟨B, fl, hrep, _, _⟩, _, _, hh⟩ := reach_inv hf hi hc hr
  exact ⟨hh, hrep.chain_obs⟩

theorem free_list_chain_witness :
    Fresh (arena 1000 100000) ∧
    mm_init (arena 1000 100000) = .ok (0, boot 1000 100000) ∧
    run (boot 1000 100000) [] [.malloc 50, .malloc 50, .free 1032]
      = .ok ((after (boot 1000 100000) [] [.malloc 50, .malloc 50, .free 1032]).1, [1096]) ∧
    freeList (after (boot 1000 100000) [] [.malloc 50, .malloc 50, .free 1032]).1
      = [1032, 1160] ∧
    ((after (boot 1000 100000) [] [.malloc 50, .malloc 50, .free 1032]).1.heap_listp
        = (arena 1000 100000).brk ∧
      (freeList (after (boot 1000 100000) [] [.malloc 50, .malloc 50, .free 1032]).1).Nodup ∧
      (∀ x ∈ freeList (after (boot 1000 100000) [] [.malloc 50, .malloc 50, .free 1032]).1,
        x ∈ heapBlocks (after (boot 1000 100000) [] [.malloc 50, .malloc 50, .free 1032]).1 ∧
        allocBit (after (boot 1000 100000) [] [.malloc 50, .malloc 50, .free 1032]).1 x = 0) ∧
      chainEnd (after (boot 1000 100000) [] [.malloc 50, .malloc 50, .free 1032]).1
        = (after (boot 1000 100000) [] [.malloc 50, .malloc 50, .free 1032]).1.heap_listp + 8 ∧
      allocBit (after (boot 1000 100000) [] [.malloc 50, .malloc 50, .free 1032]).1
        ((after (boot 1000 100000) [] [.malloc 50, .malloc 50, .free 1032]).1.heap_listp + 8)
        = 1 ∧
      (∀ x ∈ (freeList (after (boot 1000 100000) []
          [.malloc 50, .malloc 50, .free 1032]).1).head?,
        x = (after (boot 1000 100000) [] [.malloc 50, .malloc 50, .free 1032]).1.lstart ∧
        load32 (after (boot 1000 100000) [] [.malloc 50, .malloc 50, .free 1032]).1.mem x
          = 0) ∧
      (freeList (after (boot 1000 100000) [] [.malloc 50, .malloc 50, .free 1032]).1).Chain'
        (fun x y =>
          load32 (after (boot 1000 100000) [] [.malloc 50, .malloc 50, .free 1032]).1.mem
            (x + 4) = y ∧
          load32 (after (boot 1000 100000) [] [.malloc 50, .malloc 50, .free 1032]).1.mem y
            = x) ∧
      ∀ size, ∃ r, fit_scan (after (boot 1000 100000) []
          [.malloc 50, .malloc 50, .free 1032]).1 size
        ((after (boot 1000 100000) [] [.malloc 50, .malloc 50, .free 1032]).1.brk
          - (after (boot 1000 100000) [] [.malloc 50, .malloc 50, .free 1032]).1.lo + 1)
        (after (boot 1000 100000) [] [.malloc 50, .malloc 50, .free 1032]).1.lstart = .ok r) :=
  ⟨fresh_small, rfl, rfl, rfl,
    free_list_chain (arena 1000 100000) (boot 1000 100000) _
      [.malloc 50, .malloc 50, .free 1032] [1096] fresh_small rfl (by decide) rfl⟩

/-! ## `place` and `extend_heap` -/

theorem total_placed (L R : List Blk) (b : Blk) (asize : Nat) (hle : asize ≤ b.size) :
    total (placedBlocks L b R asize) = total (L ++ b :: R) := by
  unfold placedBlocks
  split
  · simp only [total, List.map_append, List.map_cons, List.sum_append, List.sum_cons]
    omega
  · simp only [total, List.map_append, List.map_cons, List.sum_append, List.sum_cons]

/-- C17: in a state that satisfies the invariant, for every free block `b`
(a member of the free list, of recorded size `b.size`) between the blocks `L`
and `R`, and every aligned `asize` with `16 ≤ asize ≤ b.size`, `place(bp,
asize)` returns, the invariant holds again, `bp` is no longer in the free list
and is marked allocated; when `b.size - asize ≥ 16` the block has size exactly
`asize` and is followed by a free block of size `b.size - asize`, which is in
the free list; when `b.size - asize < 16` the block keeps its size and the
blocks of the heap are the same; in both cases the sum of the block sizes is
unchanged. -/
theorem place_split_rule (s : State) (L : List Blk) (b : Blk) (R : List Blk) (fl : List Nat)
    (h : Rep s (L ++ b :: R) fl) (hb : b.alloc = 0) (asize : Nat) (h16 : 16 ≤ asize)
    (h8 : asize % 8 = 0) (hle : asize ≤ b.size) :
    b.bp ∈ freeList s ∧ blockSize s b.bp = b.size ∧
    ∃ s', place s b.bp asize = .ok s' ∧ Inv s' ∧ b.bp ∉ freeList s' ∧ allocBit s' b.bp = 1 ∧
      (16 ≤ b.size - asize → blockSize s' b.bp = asize ∧ allocBit s' (b.bp + asize) = 0 ∧
        blockSize s' (b.bp + asize) = b.size - asize ∧ b.bp + asize ∈ freeList s' ∧
        heapBlocks s' = L.map Blk.bp ++ b.bp :: (b.bp + asize) :: R.map Blk.bp) ∧
      (b.size - asize < 16 → blockSize s' b.bp = b.size ∧ heapBlocks s' = heapBlocks s) ∧
      ((heapBlocks s').map (blockSize s')).sum = ((heapBlocks s).map (blockSize s)).sum := by
  have hbB : b ∈ L ++ b :: R := by simp
  obtain ⟨s', e1, e2, _, _⟩ := place_rep h hb h16 h8 hle
  have hsum : ((heapBlocks s').map (blockSize s')).sum = ((heapBlocks s).map (blockSize s)).sum := by
    rw [e2.sizes, h.sizes]
    exact total_placed L R b asize hle
  have hnot : b.bp ∉ freeList s' := by
    rw [e2.chain_eq]
    unfold placedFree
    split
    · intro hm
      rcases List.mem_cons.1 hm with e | e
      · omega
      · exact List.Nodup.not_mem_erase h.heap.nodup e
    · exact List.Nodup.not_mem_erase h.heap.nodup
  refine ⟨by rw [h.chain_eq]; exact h.sync b hbB hb, (h.header hbB).1, s', e1, ⟨_, _, e2⟩, hnot,
    ?_, ?_, ?_, hsum⟩
  · have := (e2.header (placed_mem L R b asize)).2
    exact this
  · intro hbig
    have hP : placedBlocks L b R asize
        = L ++ ⟨b.bp, asize, 1⟩ :: ⟨b.bp + asize, b.size - asize, 0⟩ :: R := by
      unfold placedBlocks; rw [if_pos hbig]
    have hF : placedFree b fl asize = (b.bp + asize) :: fl.erase b.bp := by
      unfold placedFree; rw [if_pos hbig]
    rw [hP, hF] at e2
    have m1 : (⟨b.bp, asize, 1⟩ : Blk)
        ∈ L ++ ⟨b.bp, asize, 1⟩ :: ⟨b.bp + asize, b.size - asize, 0⟩ :: R := by simp
    have m2 : (⟨b.bp + asize, b.size - asize, 0⟩ : Blk)
        ∈ L ++ ⟨b.bp, asize, 1⟩ :: ⟨b.bp + asize, b.size - asize, 0⟩ :: R := by simp
    refine ⟨(e2.header m1).1, (e2.header m2).2, (e2.header m2).1, ?_, ?_⟩
    · rw [e2.chain_eq]; exact List.mem_cons_self _ _
    · rw [e2.walk_eq]; simp
  · intro hsmall
    have hP : placedBlocks L b R asize = L ++ ⟨b.bp, b.size, 1⟩ :: R := by
      unfold placedBlocks; rw [if_neg (by omega)]
    rw [hP] at e2
    have m1 : (⟨b.bp, b.size, 1⟩ : Blk) ∈ L ++ ⟨b.bp, b.size, 1⟩ :: R := by simp
    refine ⟨(e2.header m1).1, ?_⟩
    rw [e2.walk_eq, h.walk_eq]; simp

/-- The free block at 1032 of the state of the scenario (64 bytes) is split by
`place(1032, 16)` into an allocated block of 16 bytes and a free block of 48
bytes. -/
theorem place_split_rule_witness :
    Rep (after (boot 1000 100000) [] [.malloc 50, .malloc 50, .free 1032]).1
      ([] ++ ⟨1032, 64, 0⟩ :: [⟨1096, 64, 1⟩, ⟨1160, 3984, 0⟩]) [1032, 1160] ∧
    (1032 ∈ freeList (after (boot 1000 100000) [] [.malloc 50, .malloc 50, .free 1032]).1 ∧
      blockSize (after (boot 1000 100000) [] [.malloc 50, .malloc 50, .free 1032]).1 1032
        = 64 ∧
      ∃ s', place (after (boot 1000 100000) [] [.malloc 50, .malloc 50, .free 1032]).1 1032 16
          = .ok s' ∧ Inv s' ∧ 1032 ∉ freeList s' ∧ allocBit s' 1032 = 1 ∧
        (16 ≤ 64 - 16 → blockSize s' 1032 = 16 ∧ allocBit s' (1032 + 16) = 0 ∧
          blockSize s' (1032 + 16) = 64 - 16 ∧ 1032 + 16 ∈ freeList s' ∧
          heapBlocks s' = [] ++ 1032 :: (1032 + 16) :: [1096, 1160]) ∧
        (64 - 16 < 16 → blockSize s' 1032 = 64 ∧
          heapBlocks s'
            = heapBlocks (after (boot 1000 100000) [] [.malloc 50, .malloc 50, .free 1032]).1) ∧
        ((heapBlocks s').map (blockSize s')).sum
          = ((heapBlocks (after (boot 1000 100000) []
              [.malloc 50, .malloc 50, .free 1032]).1).map
            (blockSize (after (boot 1000 100000) []
              [.malloc 50, .malloc 50, .free 1032]).1)).sum) :=
  ⟨scenario_rep,
    place_split_rule _ [] ⟨1032, 64, 0⟩ [⟨1096, 64, 1⟩, ⟨1160, 3984, 0⟩] [1032, 1160]
      scenario_rep rfl 16 (by decide) (by decide) (by decide)⟩

theorem extSize_eq (w : Nat) (hw : 4 * (w + w % 2) < 4294967296) :
    extSize w = max 16 (4 * (w + w % 2)) := by
  rw [Nat.max_def]
  simp only [extSize, mul32, add32, WSIZE]
  split_ifs <;> omega

/-- C18, as the claim states it, fails: for `w = 2^30 - 1` words
(`4 * w < 2^32`) the byte count `(w + 1) * 4` wraps around to 0 and
`extend_heap` asks the provider for 16 bytes, not for `2^32`; and the call
made by `mm_init` (region end 1032 on the arena from 1000, the epilogue header
written by `mm_init` at 1012) writes the header of the new block at 1028 and
leaves the word at 1012 as it was. -/
theorem extend_heap_grows_counterexample :
    4 * 1073741823 < 4294967296 ∧
    max 16 (4 * (1073741823 + 1073741823 % 2)) = 4294967296 ∧
    extSize 1073741823 = 16 ∧
    (extend_heap (boot 1000 100000) 1073741823).map (fun r => r.2.brk)
      = .ok ((boot 1000 100000).brk + 16) ∧
    (initPre (arena 1000 100000)).brk = 1032 ∧
    load32 (initPre (arena 1000 100000)).mem 1012 = 1 ∧
    (extend_heap (initPre (arena 1000 100000)) 4).map
      (fun r => (r.1, load32 r.2.mem 1012, load32 r.2.mem 1028)) = .ok (1032, 1, 16) ∧
    mm_init (arena 1000 100000) = .ok (0, boot 1000 100000) ∧
    load32 (boot 1000 100000).mem 1012 = 1 ∧ load32 (boot 1000 100000).mem 1028 = 16 :=
  ⟨by decide, by decide, by decide, rfl, rfl, rfl, rfl, rfl, rfl, rfl⟩

/-- C18, amended: in a state that satisfies the invariant (as in every call
made by `mm_malloc` and `fit`), for every word count `w` with
`4 * (w rounded up to even) < 2^32`, `extend_heap(w)` asks the provider for
exactly `max(16, 4 * (w rounded up to even))` bytes, a multiple of 8; when the
provider refuses it returns `NULL` and changes nothing; when the provider
grants, the header of the new free block is written where the epilogue header
stood, a new epilogue header is written in the last 4 bytes of the grown
region, and the value returned is the result of `coalesce` on the new block: a
free block in the free list of at least the requested byte count. -/
theorem extend_heap_grows (s : State) (hinv : Inv s) (w : Nat)
    (hw : 4 * (w + w % 2) < 4294967296) :
    extSize w = max 16 (4 * (w + w % 2)) ∧ extSize w % 8 = 0 ∧
    blockSize s s.brk = 0 ∧ allocBit s s.brk = 1 ∧
    (s.hi < s.brk + extSize w → extend_heap s w = .ok (0, s)) ∧
    (s.brk + extSize w ≤ s.hi →
      extend_heap s w
        = coalesce (putw (retag { s with brk := s.brk + extSize w } s.brk (extSize w) 0)
            (s.brk + extSize w - 4) 0 1) s.brk ∧
      blockSize (putw (retag { s with brk := s.brk + extSize w } s.brk (extSize w) 0)
        (s.brk + extSize w - 4) 0 1) s.brk = extSize w ∧
      allocBit (putw (retag { s with brk := s.brk + extSize w } s.brk (extSize w) 0)
        (s.brk + extSize w - 4) 0 1) s.brk = 0 ∧
      ∃ r s', extend_heap s w = .ok (r, s') ∧ r ≠ 0 ∧ Inv s' ∧
        s'.brk = s.brk + extSize w ∧ blockSize s' s'.brk = 0 ∧ allocBit s' s'.brk = 1 ∧
        allocBit s' r = 0 ∧ r ∈ freeList s' ∧ extSize w ≤ blockSize s' r) := by
  obtain ⟨B, fl, hrep⟩ := hinv
  obtain ⟨b1, b2, b3⟩ := extSize_bounds w
  have hb := hrep.heap.layout.base_le
  have hlo := hrep.heap.layout.lo_le
  have hhi := hrep.heap.layout.hi_lt
  refine ⟨extSize_eq w hw, b2, hrep.epilogue.1, hrep.epilogue.2,
    fun hno => extend_heap_fail s w (by omega), fun hok => ?_⟩
  have hT := retag_tagged { s with brk := s.brk + extSize w } s.brk (extSize w) 0 (by omega) b1 b2
    (by omega) b3
  have hhdr : load32 (putw (retag { s with brk := s.brk + extSize w } s.brk (extSize w) 0)
      (s.brk + extSize w - 4) 0 1).mem (s.brk - 4)
      = load32 (retag { s with brk := s.brk + extSize w } s.brk (extSize w) 0).mem (s.brk - 4) :=
    putw_other _ _ _ _ _ (by omega)
  obtain ⟨s', e1, e2, e3, _⟩ := extend_heap_rep hrep.toPreExt w hok
  have hm := merged_mem B ⟨s.brk, extSize w, 0⟩ []
  obtain ⟨k1, k2⟩ := e2.header hm
  have hge := (Seg_mem e2.heap.layout.seg _ hm).1
  have k1' : blockSize s' (mergedBp B ⟨s.brk, extSize w, 0⟩)
      = mergedSize B ⟨s.brk, extSize w, 0⟩ [] := k1
  have hge' : s'.heap_listp + 32 ≤ mergedBp B ⟨s.brk, extSize w, 0⟩ := hge
  refine ⟨extend_heap_eval s w hok (by omega) hhi, ?_, ?_, _, s', e1, by omega, ⟨_, _, e2⟩,
    e3.2.1, e2.epilogue.1, e2.epilogue.2, k2, ?_, ?_⟩
  · unfold blockSize
    rw [HDRP_eq _ (by omega) (by omega), and_mask_eq _ (load32_lt _ _), hhdr]
    exact hT.1
  · unfold allocBit
    rw [HDRP_eq _ (by omega) (by omega), and_one_eq, hhdr]
    exact hT.2.1
  · rw [e2.chain_eq]
    unfold mergedFree
    exact List.mem_cons_self _ _
  · rw [k1']
    unfold mergedSize
    show extSize w ≤ extSize w + _ + _
    omega

theorem boot_small_inv : Inv (boot 1000 100000) := by
  obtain ⟨⟨B, fl, h, _⟩, _⟩ := init_inv fresh_small (rfl : mm_init (arena 1000 100000) = _)
  exact ⟨B, fl, h⟩

theorem extend_heap_grows_witness :
    Inv (boot 1000 100000) ∧ 4 * (1023 + 1023 % 2) < 4294967296 ∧
    (extSize 1023 = max 16 (4 * (1023 + 1023 % 2)) ∧ extSize 1023 % 8 = 0 ∧
    blockSize (boot 1000 100000) (boot 1000 100000).brk = 0 ∧
    allocBit (boot 1000 100000) (boot 1000 100000).brk = 1 ∧
    ((boot 1000 100000).hi < (boot 1000 100000).brk + extSize 1023 →
      extend_heap (boot 1000 100000) 1023 = .ok (0, boot 1000 100000)) ∧
    ((boot 1000 100000).brk + extSize 1023 ≤ (boot 1000 100000).hi →
      extend_heap (boot 1000 100000) 1023
        = coalesce (putw (retag { boot 1000 100000 with
              brk := (boot 1000 100000).brk + extSize 1023 }
            (boot 1000 100000).brk (extSize 1023) 0)
            ((boot 1000 100000).brk + extSize 1023 - 4) 0 1) (boot 1000 100000).brk ∧
      blockSize (putw (retag { boot 1000 100000 with
            brk := (boot 1000 100000).brk + extSize 1023 }
          (boot 1000 100000).brk (extSize 1023) 0)
        ((boot 1000 100000).brk + extSize 1023 - 4) 0 1) (boot 1000 100000).brk
        = extSize 1023 ∧
      allocBit (putw (retag { boot 1000 100000 with
            brk := (boot 1000 100000).brk + extSize 1023 }
          (boot 1000 100000).brk (extSize 1023) 0)
        ((boot 1000 100000).brk + extSize 1023 - 4) 0 1) (boot 1000 100000).brk = 0 ∧
      ∃ r s', extend_heap (boot 1000 100000) 1023 = .ok (r, s') ∧ r ≠ 0 ∧ Inv s' ∧
        s'.brk = (boot 1000 100000).brk + extSize 1023 ∧ blockSize s' s'.brk = 0 ∧
        allocBit s' s'.brk = 1 ∧ allocBit s' r = 0 ∧ r ∈ freeList s' ∧
        extSize 1023 ≤ blockSize s' r)) ∧
    (boot 1000 100000).brk + extSize 1023 ≤ (boot 1000 100000).hi :=
  ⟨boot_small_inv, by decide,
    extend_heap_grows (boot 1000 100000) boot_small_inv 1023 (by decide), by decide⟩

/-! ## The statics of `fit` -/

theorem fit_noescape (s : State) (size : Nat) (hne : ¬ escapes s size) :
    fit s size = fit_scan
      { s with repcount := if s.lm_size = toInt32 size then s.repcount + 1 else 0 }
      size (s.brk - s.lo + 1) s.lstart := by
  unfold fit
  by_cases h1 : s.lm_size = toInt32 size
  · have h2 : ¬ s.repcount > 30 := fun h2 => hne ⟨h1, h2⟩
    simp only [h1, if_true, h2, if_false]
  · simp only [h1, if_false]

theorem GET_ALLOC_val {s : State} {p a : Nat} (h : GET_ALLOC s p = .ok a) :
    load32 s.mem p &&& 1 = a := by
  unfold GET_ALLOC GET at h
  by_cases hr : inRegion s p
  · rw [if_pos hr] at h
    injection h with h
  · rw [if_neg hr] at h
    cases h

theorem GET_SIZE_val {s : State} {p a : Nat} (h : GET_SIZE s p = .ok a) :
    load32 s.mem p &&& 4294967288 = a := by
  unfold GET_SIZE GET at h
  by_cases hr : inRegion s p
  · rw [if_pos hr] at h
    injection h with h
  · rw [if_neg hr] at h
    cases h

/-- The scan loop of `fit` changes nothing but `lm_size`, and that only when
it leaves through the `return bp` inside the loop, at a node whose header it
has read as free and of at least the size asked for; when the loop ends at an
allocated header the result is `NULL` and the state is the one it began
with. -/
theorem fit_scan_result (size : Nat) : ∀ (fuel : Nat) (t : State) (bp r : Nat) (s' : State),
    fit_scan t size fuel bp = .ok (r, s') →
    (r = 0 ∧ s' = t) ∨
      (s' = { t with lm_size := toInt32 size } ∧ allocBit t r = 0 ∧ size ≤ blockSize t r)
  | 0, t, bp, r, s', h => by
    simp [fit_scan] at h
  | fuel + 1, t, bp, r, s', h => by
    unfold fit_scan at h
    cases ha : GET_ALLOC t (HDRP bp) with
    | error e => rw [ha] at h; cases h
    | ok a =>
      rw [ha] at h
      simp only [ok_bind] at h
      by_cases ha0 : a = 0
      · rw [if_pos ha0] at h
        cases hs : GET_SIZE t (HDRP bp) with
        | error e => rw [hs] at h; cases h
        | ok sz =>
          rw [hs] at h
          simp only [ok_bind] at h
          by_cases hfit : size ≤ sz
          · rw [if_pos hfit] at h
            injection h with h
            injection h with h1 h2
            refine Or.inr ⟨h2.symm, ?_, ?_⟩
            · rw [← h1]
              unfold allocBit
              rw [GET_ALLOC_val ha]
              exact ha0
            · rw [← h1]
              unfold blockSize
              rw [GET_SIZE_val hs]
              exact hfit
          · rw [if_neg hfit] at h
            cases hn : NEXT t bp with
            | error e => rw [hn] at h; cases h
            | ok n =>
              rw [hn] at h
              simp only [ok_bind] at h
              exact fit_scan_result size fuel t n r s' h
      · rw [if_neg ha0] at h
        injection h with h
        injection h with h1 h2
        exact Or.inl ⟨h1.symm, h2.symm⟩

/-- The function `fit` when the repeat-size escape does not fire, with the
statics it leaves. -/
theorem fit_scan_statics {s : State} {B : List Blk} {fl : List Nat} (h : Rep s B fl)
    (asize : Nat) (hne : ¬ escapes s asize) :
    ∃ s', fit s asize = .ok (firstFit s fl asize, s') ∧ SameHeap s s' ∧
      s'.repcount = (if s.lm_size = toInt32 asize then s.repcount + 1 else 0) ∧
      s'.lm_size = (if firstFit s fl asize = 0 then s.lm_size else toInt32 asize) := by
  have hlen := h.length_le
  have h1 : Rep { s with repcount := if s.lm_size = toInt32 asize then s.repcount + 1 else 0 }
      B fl :=
    @Rep_congr s { s with repcount := if s.lm_size = toInt32 asize then s.repcount + 1 else 0 }
      B fl ⟨rfl, rfl, rfl, rfl, rfl, rfl⟩ h
  have := fit_scan_spec h1 asize fl 0 (s.brk - s.lo + 1) (fun y hy => hy) h1.heap.links
    (by omega)
  have key2 : ∀ l, l = fl.headD (s.heap_listp + 8) →
      fit_scan { s with repcount := if s.lm_size = toInt32 asize then s.repcount + 1 else 0 }
        asize (s.brk - s.lo + 1) l
      = .ok (firstFit s fl asize, if firstFit s fl asize = 0
          then { s with repcount := if s.lm_size = toInt32 asize then s.repcount + 1 else 0 }
          else { s with repcount := if s.lm_size = toInt32 asize then s.repcount + 1 else 0,
                        lm_size := toInt32 asize }) := by
    intro l hl
    subst hl
    exact this
  rw [fit_noescape s asize hne]
  refine ⟨_, key2 s.lstart h.heap.head, ?_, ?_, ?_⟩
  · split
    · exact ⟨rfl, rfl, rfl, rfl, rfl, rfl⟩
    · exact ⟨rfl, rfl, rfl, rfl, rfl, rfl⟩
  · split <;> rfl
  · split <;> rfl

theorem escape_size_small (size : Nat) (h8 : size % 8 = 0) (h32 : size < 4294967296) :
    extSize (ofInt32 (Int.tdiv (toInt32 (MAX size (4 * WSIZE))) 4)) = max size 16 := by
  by_cases h16 : 16 ≤ size
  · rw [escape_size size h16 h8 h32, Nat.max_eq_left h16]
  · have : size = 0 ∨ size = 8 := by omega
    rcases this with e | e <;> rw [e] <;> decide

/-- A call of `fit` for which the repeat-size escape does not fire, in a state
that satisfies the invariant: the scan returns, it changes nothing but the
statics, `repcount` is one more when the size equals `lm_size` and 0 when it
does not, and `lm_size` becomes the size exactly when a block is returned,
which is the first node of the free list that is large enough; when no node
is large enough the result is `NULL` and `lm_size` keeps its value. -/
theorem fit_scan_outcome {s : State} (hinv : Inv s) (size : Nat) (hne : ¬ escapes s size) :
    ∃ r s', fit s size = .ok (r, s') ∧ SameHeap s s' ∧
      s'.repcount = (if s.lm_size = toInt32 size then s.repcount + 1 else 0) ∧
      (r = 0 → s'.lm_size = s.lm_size ∧
        (freeList s).find? (fun y => decide (size ≤ blockSize s y)) = none) ∧
      (r ≠ 0 → s'.lm_size = toInt32 size ∧
        (freeList s).find? (fun y => decide (size ≤ blockSize s y)) = some r) := by
  obtain ⟨B, fl, hrep⟩ := hinv
  obtain ⟨s', e1, e2, e3, e4⟩ := fit_scan_statics hrep size hne
  rw [hrep.chain_eq, ← firstFit_find hrep]
  refine ⟨firstFit s fl size, s', e1, e2, e3, ?_, ?_⟩
  · intro h0
    rw [if_pos h0] at e4
    refine ⟨e4, ?_⟩
    unfold firstFit at h0
    cases hfind : fl.find? (fun y => decide (size ≤ load32 s.mem (y - 4) / 8 * 8)) with
    | none => rfl
    | some y =>
      rw [hfind] at h0
      obtain ⟨_, _, _, hge, _, _⟩ := hrep.heap.node (List.mem_of_find?_eq_some hfind)
      have h0' : y = 0 := h0
      omega
  · intro h0
    rw [if_neg h0] at e4
    refine ⟨e4, ?_⟩
    unfold firstFit at h0 ⊢
    cases hfind : fl.find? (fun y => decide (size ≤ load32 s.mem (y - 4) / 8 * 8)) with
    | none =>
      rw [hfind] at h0
      exact absurd rfl h0
    | some y => rfl

/-- C20: `fit(size)` bypasses its scan exactly when the static `lm_size`
equals `(int)size` and the static `repcount` is above 30, and then it is the
call `extend_heap(MAX(size, 16) / 4)`; otherwise it is the scan, entered with
`repcount` incremented when `size` equals `lm_size` and reset to 0 when it
does not.  The scan leaves `repcount` alone; it either ends at an allocated
header, returning `NULL` with the state it began with, or returns a node whose
header it has read as free and large enough, and only then sets `lm_size` to
the size.  In a state that satisfies the invariant a scanning call returns,
with `lm_size` unchanged when the result is `NULL` (no node of the free list
is large enough) and `lm_size` equal to the size when the result is a block
(the first node that is large enough): `lm_size` is the size of the last
request that the scan satisfied, not the last size requested.  In such a
state, for a size that is a multiple of 8 (the sizes `mm_malloc` passes), a
bypassing call asks the provider for `max(size, 16)` bytes; it returns `NULL`
with the state unchanged when the provider refuses, and when the provider
grants it returns a block, the region has grown by `max(size, 16)` bytes,
`lm_size` and `repcount` are unchanged, and the escape fires again for the
same size. -/
theorem fit_escape_latch (s : State) (size : Nat) :
    (escapes s size ↔ s.lm_size = toInt32 size ∧ s.repcount > 30) ∧
    (escapes s size →
      fit s size = extend_heap s (ofInt32 (Int.tdiv (toInt32 (MAX size (4 * WSIZE))) 4))) ∧
    (¬ escapes s size →
      fit s size = fit_scan
        { s with repcount := if s.lm_size = toInt32 size then s.repcount + 1 else 0 }
        size (s.brk - s.lo + 1) s.lstart) ∧
    (∀ (t : State) (fuel bp r : Nat) (s' : State), fit_scan t size fuel bp = .ok (r, s') →
      s'.repcount = t.repcount ∧
        ((r = 0 ∧ s' = t) ∨
          (s' = { t with lm_size := toInt32 size } ∧ allocBit t r = 0 ∧
            size ≤ blockSize t r))) ∧
    (Inv s → ¬ escapes s size →
      ∃ r s', fit s size = .ok (r, s') ∧ SameHeap s s' ∧
        s'.repcount = (if s.lm_size = toInt32 size then s.repcount + 1 else 0) ∧
        (r = 0 → s'.lm_size = s.lm_size ∧
          (freeList s).find? (fun y => decide (size ≤ blockSize s y)) = none) ∧
        (r ≠ 0 → s'.lm_size = toInt32 size ∧
          (freeList s).find? (fun y => decide (size ≤ blockSize s y)) = some r)) ∧
    (Inv s → size % 8 = 0 → size < 4294967296 → escapes s size →
      extSize (ofInt32 (Int.tdiv (toInt32 (MAX size (4 * WSIZE))) 4)) = max size 16 ∧
      (s.hi < s.brk + max size 16 → fit s size = .ok (0, s)) ∧
      (s.brk + max size 16 ≤ s.hi →
        ∃ r s', fit s size = .ok (r, s') ∧ r ≠ 0 ∧ s'.brk = s.brk + max size 16 ∧
          s'.lm_size = s.lm_size ∧ s'.repcount = s.repcount ∧ escapes s' size ∧ Inv s')) := by
  refine ⟨Iff.rfl, fit_escape s size, fit_noescape s size, ?_,
    fun hinv hne => fit_scan_outcome hinv size hne, ?_⟩
  · intro t fuel bp r s' h
    rcases fit_scan_result size fuel t bp r s' h with ⟨e1, e2⟩ | ⟨e2, e3, e4⟩
    · rw [e2]; exact ⟨rfl, Or.inl ⟨e1, rfl⟩⟩
    · refine ⟨by rw [e2], Or.inr ⟨e2, e3, e4⟩⟩
  · rintro ⟨B, fl, hrep⟩ h8 h32 hesc
    have hsz := escape_size_small size h8 h32
    refine ⟨hsz, ?_, ?_⟩
    · intro hno
      rw [fit_escape s size hesc]
      exact extend_heap_fail s _ (by rw [hsz]; omega)
    · intro hok
      obtain ⟨s', e1, e2, e3, _⟩ := extend_heap_rep hrep.toPreExt
        (ofInt32 (Int.tdiv (toInt32 (MAX size (4 * WSIZE))) 4)) (by rw [hsz]; exact hok)
      obtain ⟨g1, g2, g3, g4, g5, g6⟩ := e3
      have hm := merged_mem B ⟨s.brk,
        extSize (ofInt32 (Int.tdiv (toInt32 (MAX size (4 * WSIZE))) 4)), 0⟩ []
      have hge := (Seg_mem e2.heap.layout.seg _ hm).1
      have hge' : s'.heap_listp + 32 ≤ mergedBp B ⟨s.brk,
        extSize (ofInt32 (Int.tdiv (toInt32 (MAX size (4 * WSIZE))) 4)), 0⟩ := hge
      refine ⟨mergedBp B ⟨s.brk,
        extSize (ofInt32 (Int.tdiv (toInt32 (MAX size (4 * WSIZE))) 4)), 0⟩, s', ?_, by omega,
        by rw [g2, hsz], g5, g6, ?_, ⟨_, _, e2⟩⟩
      · rw [fit_escape s size hesc]
        exact e1
      · exact ⟨by rw [g5]; exact hesc.1, by rw [g6]; exact hesc.2⟩

/-- A state with the heap right after `mm_init` in which the statics of `fit`
hold the values they have after the size 72 has been served by the scan more
than 30 times in a row. -/
theorem latched_inv : Inv { boot 1000 100000 with lm_size := 72, repcount := 31 } := by
  obtain ⟨B, fl, h⟩ := boot_small_inv
  exact ⟨B, fl, @Rep_congr (boot 1000 100000)
    { boot 1000 100000 with lm_size := 72, repcount := 31 } B fl
    ⟨rfl, rfl, rfl, rfl, rfl, rfl⟩ h⟩

/-- A state with the heap right after `mm_init`, whose free list holds one
block of 16 bytes, in which the size 72 has been served five times in a
row. -/
theorem counting_inv : Inv { boot 1000 100000 with lm_size := 72, repcount := 5 } := by
  obtain ⟨B, fl, h⟩ := boot_small_inv
  exact ⟨B, fl, @Rep_congr (boot 1000 100000)
    { boot 1000 100000 with lm_size := 72, repcount := 5 } B fl
    ⟨rfl, rfl, rfl, rfl, rfl, rfl⟩ h⟩

/-- C20 on concrete states.  With `lm_size = 72` and `repcount = 31` the call
`fit(72)` bypasses the scan, obtains 72 bytes from the provider, keeps the
statics and leaves the escape armed.  With `lm_size = 72` and `repcount = 5`
the call `fit(112)` scans, finds no block (the list holds one block of 16
bytes) and returns `NULL`: `repcount` is reset to 0 and `lm_size` is still 72,
not the 112 just asked for. -/
theorem fit_escape_latch_witness :
    Inv { boot 1000 100000 with lm_size := 72, repcount := 31 } ∧
    escapes { boot 1000 100000 with lm_size := 72, repcount := 31 } 72 ∧
    extSize (ofInt32 (Int.tdiv (toInt32 (MAX 72 (4 * WSIZE))) 4)) = max 72 16 ∧
    (∃ r s', fit { boot 1000 100000 with lm_size := 72, repcount := 31 } 72 = .ok (r, s') ∧
      r ≠ 0 ∧
      s'.brk = ({ boot 1000 100000 with lm_size := 72, repcount := 31 } : State).brk
        + max 72 16 ∧
      s'.lm_size = ({ boot 1000 100000 with lm_size := 72, repcount := 31 } : State).lm_size ∧
      s'.repcount
        = ({ boot 1000 100000 with lm_size := 72, repcount := 31 } : State).repcount ∧
      escapes s' 72 ∧ Inv s') ∧
    Inv { boot 1000 100000 with lm_size := 72, repcount := 5 } ∧
    ¬ escapes { boot 1000 100000 with lm_size := 72, repcount := 5 } 112 ∧
    (fit { boot 1000 100000 with lm_size := 72, repcount := 5 } 112).map
      (fun r => (r.1, r.2.lm_size, r.2.repcount)) = .ok (0, 72, 0) ∧
    ∃ r s', fit { boot 1000 100000 with lm_size := 72, repcount := 5 } 112 = .ok (r, s') ∧
      SameHeap { boot 1000 100000 with lm_size := 72, repcount := 5 } s' ∧
      s'.repcount = (if ({ boot 1000 100000 with lm_size := 72, repcount := 5 } : State).lm_size
        = toInt32 112
        then ({ boot 1000 100000 with lm_size := 72, repcount := 5 } : State).repcount + 1
        else 0) ∧
      (r = 0 → s'.lm_size
          = ({ boot 1000 100000 with lm_size := 72, repcount := 5 } : State).lm_size ∧
        (freeList { boot 1000 100000 with lm_size := 72, repcount := 5 }).find?
          (fun y => decide (112
            ≤ blockSize { boot 1000 100000 with lm_size := 72, repcount := 5 } y)) = none) ∧
      (r ≠ 0 → s'.lm_size = toInt32 112 ∧
        (freeList { boot 1000 100000 with lm_size := 72, repcount := 5 }).find?
          (fun y => decide (112
            ≤ blockSize { boot 1000 100000 with lm_size := 72, repcount := 5 } y)) = some r) :=
  ⟨latched_inv, by decide,
    ((fit_escape_latch { boot 1000 100000 with lm_size := 72, repcount := 31 } 72).2.2.2.2.2
      latched_inv (by decide) (by decide) (by decide)).1,
    ((fit_escape_latch { boot 1000 100000 with lm_size := 72, repcount := 31 } 72).2.2.2.2.2
      latched_inv (by decide) (by decide) (by decide)).2.2 (by decide),
    counting_inv, by decide, rfl,
    (fit_escape_latch { boot 1000 100000 with lm_size := 72, repcount := 5 } 112).2.2.2.2.1
      counting_inv (by decide)⟩

/-! ## The scenario of the repeated size -/

/-- The state after a successful `mm_init`, with the statics of `fit`. -/
theorem mm_init_full {s s' : State} (hf : Fresh s) (h : mm_init s = .ok (0, s')) :
    Rep s' [⟨s.brk + 32, 16, 0⟩] [s.brk + 32] ∧ s'.lm_size = s.lm_size ∧
      s'.repcount = s.repcount ∧ s'.brk = s.brk + 48 ∧ s'.hi = s.hi := by
  obtain ⟨h0, h48⟩ := mm_init_ok hf h
  have pre := initPre_preExt hf (by omega)
  have hx : extSize 4 = 16 := by decide
  obtain ⟨t, e1, e2, e3, _⟩ := extend_heap_rep pre 4
    (by rw [hx]; show s.brk + 32 + 16 ≤ s.hi; omega)
  obtain ⟨g1, g2, g3, g4, g5, g6⟩ := e3
  rw [hx] at e1 e2 g2
  have hb : mergedBp [] ⟨(initPre s).brk, 16, 0⟩ = s.brk + 32 := rfl
  have hB : mergedBlocks [] ⟨(initPre s).brk, 16, 0⟩ [] = [⟨s.brk + 32, 16, 0⟩] := rfl
  have hF : mergedFree [] ⟨(initPre s).brk, 16, 0⟩ [] = [s.brk + 32] := rfl
  rw [hb] at e1
  rw [hB, hF] at e2
  rw [mm_init_eval s hf h0 (by omega), e1] at h
  simp only [ok_bind, Nat.add_eq_zero, OfNat.ofNat_ne_zero, and_false, if_false] at h
  have hst : t = s' := by
    injection h with h
    injection h
  subst hst
  exact ⟨e2, g5, g6, by rw [g2]; show s.brk + 32 + 16 = _; omega, g3⟩

theorem rounds_succ (p n : Nat) :
    rounds p (n + 1) = .malloc 64 :: .free p :: rounds p n := rfl

theorem run_cons2 (s : State) (live : List Nat) (a b : Call) (rest : List Call) :
    run s live (a :: b :: rest) = (run s live [a, b] >>= fun r => run r.1 r.2 rest) := by
  simp only [run]
  cases step s live a with
  | error e => rfl
  | ok r1 =>
    simp only [ok_bind]
    cases step r1.1 r1.2 b with
    | error e => rfl
    | ok r2 => rfl

/-- In a heap of one free block, `place` of 72 bytes followed by `mm_free`
restores the heap. -/
theorem place_free_cycle {s : State} {b T : Nat} (h : Rep s [⟨b, T, 0⟩] [b]) (hT : 88 ≤ T) :
    ∃ s2 s3, place s b 72 = .ok s2 ∧ mm_free s2 b = .ok s3 ∧ Rep s3 [⟨b, T, 0⟩] [b] ∧
      Regs s s3 := by
  have h' : Rep s ([] ++ ⟨b, T, 0⟩ :: []) [b] := h
  obtain ⟨s2, e1, e2, e3, _⟩ := place_rep h' rfl (by omega : 16 ≤ 72) (by omega)
    (by show 72 ≤ T; omega)
  have hP : placedBlocks [] ⟨b, T, 0⟩ [] 72 = [] ++ ⟨b, 72, 1⟩ :: [⟨b + 72, T - 72, 0⟩] := by
    unfold placedBlocks
    rw [if_pos (by show 16 ≤ T - 72; omega)]
  have hF : placedFree ⟨b, T, 0⟩ [b] 72 = [b + 72] := by
    unfold placedFree
    rw [if_pos (by show 16 ≤ T - 72; omega)]
    simp
  rw [hP, hF] at e2
  obtain ⟨s3, f1, f2, f3, _⟩ := mm_free_rep e2 rfl
  have hM : mergedBlocks [] ⟨b, 72, 0⟩ [⟨b + 72, T - 72, 0⟩] = [⟨b, T, 0⟩] := by
    show [(⟨b, 72 + 0 + (T - 72), 0⟩ : Blk)] = [⟨b, T, 0⟩]
    rw [show 72 + 0 + (T - 72) = T by omega]
  have hMF : mergedFree [] ⟨b, 72, 0⟩ [b + 72] = [b] := by
    show b :: ([b + 72].erase b).erase (b + 72) = [b]
    simp
  rw [hM, hMF] at f2
  exact ⟨s2, s3, e1, f1, f2, Regs.trans e3 f3⟩

theorem adjust_64 : adjust 64 = 72 := by decide

theorem one_block_fit {s : State} {b T : Nat} (h : Rep s [⟨b, T, 0⟩] [b]) :
    firstFit s [b] 72 = (if 72 ≤ T then b else 0) ∧ b ≠ 0 ∧ blockSize s b = T := by
  have hm := Seg_mem h.heap.layout.seg ⟨b, T, 0⟩ (by simp)
  obtain ⟨t1, _, _, _⟩ := hm.2.2.2.2 (by show 0 ≤ 1; omega)
  have t1' : load32 s.mem (b - 4) / 8 * 8 = T := t1
  have hge : s.heap_listp + 32 ≤ b := hm.1
  refine ⟨?_, by omega, (h.header (by simp : (⟨b, T, 0⟩ : Blk) ∈ [⟨b, T, 0⟩])).1⟩
  rw [firstFit_cons, t1', firstFit_nil]

/-- One round `p = mm_malloc(64)`; `mm_free(p)` in a heap of one free block
that fits, when the escape does not fire. -/
theorem round_found {s : State} {b T : Nat} (h : Rep s [⟨b, T, 0⟩] [b]) (hT : 88 ≤ T)
    (hne : ¬ escapes s 72) :
    ∃ s', run s [] [.malloc 64, .free b] = .ok (s', []) ∧ Rep s' [⟨b, T, 0⟩] [b] ∧
      s'.lm_size = 72 ∧ s'.repcount = (if s.lm_size = 72 then s.repcount + 1 else 0) ∧
      s'.brk = s.brk ∧ s'.hi = s.hi := by
  obtain ⟨s1, e1, hs1, r1, r2⟩ := fit_scan_statics h 72 hne
  obtain ⟨k1, k2, _⟩ := one_block_fit h
  rw [if_pos (by omega)] at k1
  rw [k1] at e1 r2
  rw [if_neg k2] at r2
  have h1 : Rep s1 [⟨b, T, 0⟩] [b] := Rep_congr hs1 h
  obtain ⟨s2, s3, f1, f2, f3, f4⟩ := place_free_cycle h1 hT
  obtain ⟨g1, g2, g3, g4, g5, g6⟩ := f4
  have em : mm_malloc s 64 = .ok (b, s2) := by
    rw [mm_malloc_unfold s 64 (by decide), adjust_64, e1]
    simp only [ok_bind, ne_eq, k2, not_false_eq_true, if_true, f1]
    rfl
  refine ⟨s3, ?_, f3, by rw [g5, r2]; rfl, by rw [g6, r1]; rfl, by rw [g2, hs1.2.2.1],
    by rw [g3, hs1.2.2.2.1]⟩
  simp [run, step, em, k2, f2]

/-- The first round: the block of 16 bytes does not fit, the region grows by
4096 bytes. -/
theorem round_first {s : State} {b : Nat} (h : Rep s [⟨b, 16, 0⟩] [b]) (hne : ¬ escapes s 72)
    (hroom : s.brk + 4096 ≤ s.hi) :
    ∃ s', run s [] [.malloc 64, .free b] = .ok (s', []) ∧ Rep s' [⟨b, 4112, 0⟩] [b] ∧
      s'.lm_size = s.lm_size ∧
      s'.repcount = (if s.lm_size = 72 then s.repcount + 1 else 0) ∧
      s'.brk = s.brk + 4096 ∧ s'.hi = s.hi := by
  obtain ⟨s1, e1, hs1, r1, r2⟩ := fit_scan_statics h 72 hne
  obtain ⟨k1, k2, _⟩ := one_block_fit h
  rw [if_neg (by omega)] at k1
  rw [k1] at e1 r2
  rw [if_pos rfl] at r2
  have h1 : Rep s1 [⟨b, 16, 0⟩] [b] := Rep_congr hs1 h
  have hw : MAX 72 CHUNKSIZE / WSIZE = 1024 := by decide
  have hx : extSize 1024 = 4096 := by decide
  obtain ⟨t, x1, x2, x3, _⟩ := extend_heap_rep h1.toPreExt 1024
    (by rw [hx, hs1.2.2.1, hs1.2.2.2.1]; exact hroom)
  rw [hx] at x1 x2 x3
  have hb : mergedBp [⟨b, 16, 0⟩] ⟨s1.brk, 4096, 0⟩ = b := rfl
  have hB : mergedBlocks [⟨b, 16, 0⟩] ⟨s1.brk, 4096, 0⟩ [] = [⟨b, 4112, 0⟩] := rfl
  have hF : mergedFree [⟨b, 16, 0⟩] ⟨s1.brk, 4096, 0⟩ [b] = [b] := by
    show b :: ([b].erase b).erase (s1.brk + 4096) = [b]
    simp
  rw [hb] at x1
  rw [hB, hF] at x2
  obtain ⟨y1, y2, y3, y4, y5, y6⟩ := x3
  obtain ⟨s2, s3, f1, f2, f3, f4⟩ := place_free_cycle x2 (by omega)
  obtain ⟨g1, g2, g3, g4, g5, g6⟩ := f4
  have em : mm_malloc s 64 = .ok (b, s2) := by
    rw [mm_malloc_unfold s 64 (by decide), adjust_64, e1]
    simp only [ok_bind, ne_eq, not_true_eq_false, if_false, hw, x1, k2, f1]
    rfl
  refine ⟨s3, ?_, f3, by rw [g5, y5, r2], by rw [g6, y6, r1]; rfl,
    by rw [g2, y2, hs1.2.2.1], by rw [g3, y3, hs1.2.2.2.1]⟩
  simp [run, step, em, k2, f2]

/-- Further rounds while the escape does not fire: `repcount` counts them. -/
theorem run_rounds {b T : Nat} (hT : 88 ≤ T) : ∀ (n : Nat) (s : State),
    Rep s [⟨b, T, 0⟩] [b] → s.lm_size = 72 → 0 ≤ s.repcount → s.repcount + n ≤ 31 →
    ∃ s', run s [] (rounds b n) = .ok (s', []) ∧ Rep s' [⟨b, T, 0⟩] [b] ∧
      s'.lm_size = 72 ∧ s'.repcount = s.repcount + n ∧ s'.brk = s.brk ∧ s'.hi = s.hi
  | 0, s, h, hl, _, _ => ⟨s, rfl, h, hl, by simp, rfl, rfl⟩
  | n + 1, s, h, hl, h0, hr => by
    have hne : ¬ escapes s 72 := by
      rintro ⟨_, h2⟩
      have : s.repcount > 30 := h2
      push_cast at hr
      omega
    obtain ⟨s1, e1, a1, a2, a3, a4, a5⟩ := round_found h hT hne
    rw [if_pos hl] at a3
    obtain ⟨s2, e2, b1, b2, b3, b4, b5⟩ := run_rounds hT n s1 a1 a2 (by rw [a3]; omega)
      (by rw [a3]; push_cast at hr ⊢; omega)
    refine ⟨s2, ?_, b1, b2, by rw [b3, a3]; push_cast; omega, by rw [b4, a4], by rw [b5, a5]⟩
    rw [rounds_succ, run_cons2, e1, ok_bind]
    exact e2

/-- When the escape fires in a state that satisfies the invariant and the
provider grants the adjusted size, `mm_malloc` returns a block and the region
has grown by the adjusted size. -/
theorem malloc_escape {s : State} {B : List Blk} {fl : List Nat} (h : Rep s B fl)
    (size : Nat) (h0 : 0 < size) (h1 : size ≤ 4294967280) (hesc : escapes s (adjust size))
    (hok : s.brk + adjust size ≤ s.hi) :
    ∃ r s', mm_malloc s size = .ok (r, s') ∧ r ≠ 0 ∧ s'.brk = s.brk + adjust size := by
  obtain ⟨a16, a8, age, a32⟩ := adjust_bounds size h0 h1
  have hs := escape_size (adjust size) a16 a8 a32
  obtain ⟨s1, e1, e2, e3, _⟩ := extend_heap_rep h.toPreExt
    (ofInt32 (Int.tdiv (toInt32 (MAX (adjust size) (4 * WSIZE))) 4)) (by rw [hs]; exact hok)
  rw [hs] at e1 e2 e3
  have hmb := merged_mem B ⟨s.brk, adjust size, 0⟩ []
  have hsz : adjust size ≤ mergedSize B ⟨s.brk, adjust size, 0⟩ [] := by
    unfold mergedSize
    show adjust size ≤ adjust size + _ + _
    omega
  obtain ⟨s2, f1, _, f3⟩ := post_place e2 hmb rfl a16 a8 hsz
  have f1' : place s1 (mergedBp B ⟨s.brk, adjust size, 0⟩) (adjust size) = .ok s2 := f1
  have hge : s1.heap_listp + 32 ≤ mergedBp B ⟨s.brk, adjust size, 0⟩ :=
    (Seg_mem e2.heap.layout.seg _ hmb).1
  have hr0 : mergedBp B ⟨s.brk, adjust size, 0⟩ ≠ 0 := by omega
  refine ⟨mergedBp B ⟨s.brk, adjust size, 0⟩, s2, ?_, hr0, by rw [f3, e3.2.1]⟩
  rw [mm_malloc_unfold s size (by omega), fit_escape s _ hesc, e1]
  simp only [ok_bind, ne_eq, hr0, not_false_eq_true, if_true, f1']
  rfl

/-- C15: after a successful `mm_init` on a fresh arena with the statics of
`fit` at their initial value 0 and room for 4096 + 72 more bytes, the first 33
rounds `p = mm_malloc(64)`; `mm_free(p)` (every `p` is the first block, heap
base + 32) complete with nothing live, and the 34th `mm_malloc(64)`, one of
the 35 of the scenario, is made in a state whose free list holds a block of
at least the adjusted size 72, yet it obtains its block by extending the
region: it returns a block and the end of the region has moved up by 72
bytes. -/
theorem repeat_size_escape (s0 s1 : State) (hf : Fresh s0) (hl : s0.lm_size = 0)
    (hrc : s0.repcount = 0) (hi : mm_init s0 = .ok (0, s1))
    (hroom : s0.brk + 48 + 4096 + 72 ≤ s0.hi) :
    ∃ s, run s1 [] (rounds (s0.brk + 32) 33) = .ok (s, []) ∧
      (freeList s).find? (fun y => decide (adjust 64 ≤ blockSize s y)) = some (s0.brk + 32) ∧
      escapes s (adjust 64) ∧
      ∃ r s', mm_malloc s 64 = .ok (r, s') ∧ r ≠ 0 ∧ s'.brk = s.brk + adjust 64 ∧
        s.brk < s'.brk := by
  obtain ⟨i1, i2, i3, i4, i5⟩ := mm_init_full hf hi
  have h72 : toInt32 72 = 72 := by decide
  have hne1 : ¬ escapes s1 72 := by
    rintro ⟨h1, _⟩
    rw [i2, hl, h72] at h1
    omega
  obtain ⟨sA, eA, a1, a2, a3, a4, a5⟩ := round_first i1 hne1 (by rw [i4, i5]; omega)
  have a2' : sA.lm_size = 0 := by rw [a2, i2, hl]
  have hneA : ¬ escapes sA 72 := by
    rintro ⟨h1, _⟩
    rw [a2', h72] at h1
    omega
  obtain ⟨sB, eB, b1, b2, b3, b4, b5⟩ := round_found a1 (by omega) hneA
  have b3' : sB.repcount = 0 := by
    rw [b3, a2']
    rfl
  obtain ⟨sC, eC, c1, c2, c3, c4, c5⟩ := run_rounds (by omega : 88 ≤ 4112) 31 sB b1 b2
    (by rw [b3']) (by rw [b3']; decide)
  have hesc : escapes sC (adjust 64) := by
    rw [adjust_64]
    refine ⟨by rw [c2, h72], ?_⟩
    show sC.repcount > 30
    rw [c3, b3']
    decide
  obtain ⟨_, _, k3⟩ := one_block_fit c1
  obtain ⟨r, s', m1, m2, m3⟩ := malloc_escape c1 64 (by decide) (by decide) hesc
    (by rw [adjust_64, c4, b4, a4, c5, b5, a5, i4, i5]; omega)
  refine ⟨sC, ?_, ?_, hesc, r, s', m1, m2, m3, by rw [m3, adjust_64]; omega⟩
  · rw [rounds_succ, run_cons2, eA, ok_bind, rounds_succ, run_cons2, eB, ok_bind]
    exact eC
  · rw [c1.chain_eq, adjust_64]
    simp [List.find?, k3]

theorem repeat_size_escape_witness :
    Fresh (arena 1000 100000) ∧ (arena 1000 100000).lm_size = 0 ∧
    (arena 1000 100000).repcount = 0 ∧
    mm_init (arena 1000 100000) = .ok (0, boot 1000 100000) ∧
    (arena 1000 100000).brk + 48 + 4096 + 72 ≤ (arena 1000 100000).hi ∧
    ∃ s, run (boot 1000 100000) [] (rounds ((arena 1000 100000).brk + 32) 33) = .ok (s, []) ∧
      (freeList s).find? (fun y => decide (adjust 64 ≤ blockSize s y))
        = some ((arena 1000 100000).brk + 32) ∧
      escapes s (adjust 64) ∧
      ∃ r s', mm_malloc s 64 = .ok (r, s') ∧ r ≠ 0 ∧ s'.brk = s.brk + adjust 64 ∧
        s.brk < s'.brk :=
  ⟨fresh_small, rfl, rfl, rfl, by decide,
    repeat_size_escape (arena 1000 100000) (boot 1000 100000) fresh_small rfl rfl rfl
      (by decide)⟩

end MM
